import Mathlib

/-!
Shallow embedding of the gocache cache engine (package `gocache`).

The embedding translates `persistence.go` and the core cache code
(`Cache`, `SetWithTTL`, `Get`, `Delete`, `Clear`, `TTL`, `Expire`,
`evict`, `moveExistingEntryToHead`, `removeExistingEntryReferences`,
`SaveToFile`, `ReadFromFile`, the `With*` configurators and `NewCache`).

Modelling conventions:
* The Go map `entries map[string]*Entry` is an association list
  `List (String × Entry)` whose keys are unique in every reachable state.
* Go pointers `*Entry` (the intrusive `previous`/`next` links, `head`,
  `tail`) are modelled as `Option String` holding the key of the target
  entry; pointer identity is key identity, which is faithful while each
  key is bound to exactly one live entry object.
* Mutating a field through a pointer becomes a keyed update (`adjust`)
  of the association list; writing through a pointer whose target is no
  longer in the map is a no-op on the map, mirroring a write to a dead
  Go object.
* Wall-clock time is a `Nat` of nanoseconds passed explicitly to each
  operation that reads the clock; `time.Duration` and `UnixNano`
  deadlines are `Int`.
* The two unbounded eviction loops are given explicit fuel equal to the
  current number of entries; while the list invariant holds, every
  iteration of the Go loop removes one entry, so the fuel is never
  exhausted before the loop guard fails.
-/

namespace Gocache

/-- Sentinel: a `maxSize` of 0 disables the entry-count bound. -/
def NoMaxSize : Int := 0

/-- Sentinel: a `maxMemoryUsage` of 0 disables the memory bound. -/
def NoMaxMemoryUsage : Int := 0

/-- Default `maxSize` installed by `NewCache`. -/
def DefaultMaxSize : Int := 100000

/-- Sentinel TTL/deadline meaning the entry never expires. -/
def NoExpiration : Int := -1

/-- Eviction policies supported by the cache. -/
inductive EvictionPolicy where
  | FirstInFirstOut
  | LeastRecentlyUsed
deriving DecidableEq

/-- Modelled from the spec: the statistics container is defined outside the
given sources; §3 of the spec names the monotonic counters hits, misses and
evicted-keys, which are the ones the given code mutates. -/
structure Statistics where
  Hits : Nat
  Misses : Nat
  EvictedKeys : Nat
deriving DecidableEq

/-- Modelled from the spec: values are opaque to the cache; §3/§9 describe a
closed set of runtime shapes with a uniform size rule (strings by byte
length, fixed-width numerics by constant size, booleans by 1). -/
inductive GoValue where
  | str (s : String)
  | i64 (n : Int)
  | boolean (b : Bool)
deriving DecidableEq

/-- Modelled from the spec: the approximate byte size of a value (§3). -/
def GoValue.byteSize : GoValue → Nat
  | .str s => s.length
  | .i64 _ => 8
  | .boolean _ => 1

/-- A cache entry. `Key`, `Value`, `RelevantTimestamp` and `Expiration` are
the exported (serialized) fields; `previous`/`next` are the unexported
intrusive list links, modelled as keys. -/
structure Entry where
  Key : String
  Value : GoValue
  RelevantTimestamp : Nat
  Expiration : Int
  previous : Option String
  next : Option String
deriving DecidableEq

/-- Modelled from the spec: the fixed structural overhead of an entry
(entry.go is not among the given sources; §3 specifies a small constant
covering timestamps, expiration and link fields). -/
def entryStructOverhead : Nat := 96

/-- Modelled from the spec: approximate size of an entry, a fixed overhead
plus the byte lengths of the key and of the value (§3). -/
def Entry.SizeInBytes (e : Entry) : Nat :=
  entryStructOverhead + e.Key.length + e.Value.byteSize

/-- Modelled from the spec: an entry is expired when its expiration is not
the sentinel and the current time is at or past the deadline (§4.3). -/
def Entry.Expired (e : Entry) (now : Nat) : Bool :=
  e.Expiration ≠ NoExpiration ∧ (now : Int) ≥ e.Expiration

/-- The entries map: an association list from key to entry. -/
abbrev EMap := List (String × Entry)

/-- Lookup in the entries map (Go map indexing). -/
def mget : EMap → String → Option Entry
  | [], _ => none
  | p :: rest, k => if p.1 = k then some p.2 else mget rest k

/-- Store into the entries map (Go map assignment): replaces the binding in
place when the key is present, appends it otherwise. -/
def mset : EMap → String → Entry → EMap
  | [], k, e => [(k, e)]
  | p :: rest, k, e => if p.1 = k then (k, e) :: rest else p :: mset rest k e

/-- Remove a key from the entries map (Go `delete`). -/
def mdel : EMap → String → EMap
  | [], _ => []
  | p :: rest, k => if p.1 = k then mdel rest k else p :: mdel rest k

/-- Mutate the entry object bound to `k` (a field write through a pointer
into the map); a no-op when no live entry has that key. -/
def adjust (m : EMap) (k : String) (f : Entry → Entry) : EMap :=
  m.map fun p => if p.1 = k then (p.1, f p.2) else p

/-- The keys of the entries map, in storage order. -/
def keysOf (m : EMap) : List String := m.map (·.1)

/-- The cache record. The mutex, the janitor channel and file handles have
no observable effect on the sequential state and are omitted. -/
structure Cache where
  maxSize : Int
  maxMemoryUsage : Int
  evictionPolicy : EvictionPolicy
  stats : Statistics
  entries : EMap
  head : Option String
  tail : Option String
  memoryUsage : Int
deriving DecidableEq

/-- `NewCache` from the source: default max size, FIFO, empty map. -/
def NewCache : Cache :=
  { maxSize := DefaultMaxSize
    maxMemoryUsage := NoMaxMemoryUsage
    evictionPolicy := .FirstInFirstOut
    stats := { Hits := 0, Misses := 0, EvictedKeys := 0 }
    entries := []
    head := none
    tail := none
    memoryUsage := 0 }

/-- `WithMaxSize`: a negative cap is normalized to the unbounded sentinel. -/
def Cache.WithMaxSize (c : Cache) (ms : Int) : Cache :=
  { c with maxSize := if ms < 0 then NoMaxSize else ms }

/-- `WithMaxMemoryUsage`: a negative cap is normalized to unbounded. -/
def Cache.WithMaxMemoryUsage (c : Cache) (mm : Int) : Cache :=
  { c with maxMemoryUsage := if mm < 0 then NoMaxMemoryUsage else mm }

/-- `WithEvictionPolicy`. -/
def Cache.WithEvictionPolicy (c : Cache) (p : EvictionPolicy) : Cache :=
  { c with evictionPolicy := p }

/-- `removeExistingEntryReferences`: unlink `entry` from the list, rebinding
`head`/`tail` only in the branches where `entry` is an endpoint, then fix the
neighbours' links and clear the entry's own links. -/
def Cache.removeExistingEntryReferences (c : Cache) (entry : Entry) : Cache :=
  let c1 :=
    if c.tail = some entry.Key ∧ c.head = some entry.Key then
      { c with tail := none, head := none }
    else if c.tail = some entry.Key then
      { c with tail := entry.next }
    else if c.head = some entry.Key then
      { c with head := entry.previous }
    else c
  let m1 := match entry.previous with
    | some p => adjust c1.entries p fun e => { e with next := entry.next }
    | none => c1.entries
  let m2 := match entry.next with
    | some n => adjust m1 n fun e => { e with previous := entry.previous }
    | none => m1
  { c1 with entries := adjust m2 entry.Key fun e => { e with next := none, previous := none } }

/-- `moveExistingEntryToHead`: unless the entry is the sole element, unlink
it; then, unless it already is the head, splice it in as the new head. -/
def Cache.moveExistingEntryToHead (c : Cache) (entry : Entry) : Cache :=
  let c1 :=
    if ¬(c.head = some entry.Key ∧ c.tail = some entry.Key) then
      c.removeExistingEntryReferences entry
    else c
  if c1.head ≠ some entry.Key then
    let m1 := adjust c1.entries entry.Key fun e => { e with previous := c1.head, next := none }
    let m2 := match c1.head with
      | some h => adjust m1 h fun e => { e with next := some entry.Key }
      | none => m1
    { c1 with entries := m2, head := some entry.Key }
  else c1

/-- `evict`: remove the current tail, if any. -/
def Cache.evict (c : Cache) : Cache :=
  match c.tail with
  | none => c
  | some tk =>
    if c.entries.length = 0 then c
    else
      match mget c.entries tk with
      | none => c
      | some oldTail =>
        let c1 := c.removeExistingEntryReferences oldTail
        let c2 := { c1 with entries := mdel c1.entries oldTail.Key }
        let c3 :=
          if c2.maxMemoryUsage ≠ NoMaxMemoryUsage then
            { c2 with memoryUsage := c2.memoryUsage - (oldTail.SizeInBytes : Int) }
          else c2
        { c3 with stats := { c3.stats with EvictedKeys := c3.stats.EvictedKeys + 1 } }

/-- The unexported `cache.get`: a plain map lookup. -/
def Cache.get (c : Cache) (key : String) : Option Entry :=
  mget c.entries key

/-- The unexported `cache.delete`: subtract the size when memory-bounded,
unlink, remove from the map; reports whether the key was present. -/
def Cache.delete (c : Cache) (key : String) : Bool × Cache :=
  match mget c.entries key with
  | none => (false, c)
  | some entry =>
    let c1 :=
      if c.maxMemoryUsage ≠ NoMaxMemoryUsage then
        { c with memoryUsage := c.memoryUsage - (entry.SizeInBytes : Int) }
      else c
    let c2 := c1.removeExistingEntryReferences entry
    (true, { c2 with entries := mdel c2.entries key })

/-- Bounded eviction loop shared by `SetWithTTL` and `ReadFromFile`:
`for memoryUsage > maxMemoryUsage && len(entries) > 0 { n++; evict() }`,
with explicit fuel. -/
def evictMemLoopCount : Cache → Nat → Nat → Cache × Nat
  | c, n, 0 => (c, n)
  | c, n, fuel + 1 =>
    if c.memoryUsage > c.maxMemoryUsage ∧ c.entries.length > 0 then
      evictMemLoopCount c.evict (n + 1) fuel
    else (c, n)

/-- Eviction loop of `ReadFromFile`:
`for len(entries) > maxSize { n++; evict() }`, with explicit fuel. -/
def evictSizeLoopCount : Cache → Nat → Nat → Cache × Nat
  | c, n, 0 => (c, n)
  | c, n, fuel + 1 =>
    if (c.entries.length : Int) > c.maxSize then
      evictSizeLoopCount c.evict (n + 1) fuel
    else (c, n)

/-- Shared tail of `SetWithTTL`: install the expiration computed from the
TTL on the entry just written, then enforce the two bounds. -/
def Cache.setFinish (c : Cache) (key : String) (ttl : Int) (now : Nat) : Cache :=
  let c1 := { c with entries := adjust c.entries key fun e =>
    { e with Expiration := if ttl ≠ NoExpiration then (now : Int) + ttl else NoExpiration } }
  if c1.maxSize = NoMaxSize ∧ c1.maxMemoryUsage = NoMaxMemoryUsage then c1
  else
    let c2 :=
      if c1.maxSize ≠ NoMaxSize ∧ (c1.entries.length : Int) > c1.maxSize then c1.evict else c1
    if c2.maxMemoryUsage ≠ NoMaxMemoryUsage ∧ c2.memoryUsage > c2.maxMemoryUsage then
      (evictMemLoopCount c2 0 c2.entries.length).1
    else c2

/-- `SetWithTTL`: create or update `key`. On the insert path a negative TTL
other than the sentinel returns without touching the cache; on the update
path the memory accounting is adjusted, the value replaced and the entry
promoted to head. -/
def Cache.SetWithTTL (c : Cache) (key : String) (value : GoValue) (ttl : Int) (now : Nat) : Cache :=
  match mget c.entries key with
  | none =>
    if ttl ≠ NoExpiration ∧ ttl < 0 then c
    else
      let entry : Entry :=
        { Key := key, Value := value, RelevantTimestamp := now, Expiration := 0
          previous := c.head, next := none }
      let c1 := match c.head with
        | none => { c with tail := some key }
        | some h => { c with entries := adjust c.entries h fun e => { e with next := some key } }
      let c2 := { c1 with head := some key, entries := mset c1.entries key entry }
      let c3 :=
        if c2.maxMemoryUsage ≠ NoMaxMemoryUsage then
          { c2 with memoryUsage := c2.memoryUsage + (entry.SizeInBytes : Int) }
        else c2
      c3.setFinish key ttl now
  | some entry0 =>
    let c1 :=
      if c.maxMemoryUsage ≠ NoMaxMemoryUsage then
        { c with memoryUsage := c.memoryUsage - (entry0.SizeInBytes : Int) }
      else c
    let entry1 := { entry0 with Value := value }
    let c2 := { c1 with entries := adjust c1.entries key fun e => { e with Value := value } }
    let c3 :=
      if c2.maxMemoryUsage ≠ NoMaxMemoryUsage then
        { c2 with memoryUsage := c2.memoryUsage + (entry1.SizeInBytes : Int) }
      else c2
    (c3.moveExistingEntryToHead entry1).setFinish key ttl now

/-- `Set` delegates to `SetWithTTL` with the no-expiration sentinel. -/
def Cache.Set (c : Cache) (key : String) (value : GoValue) (now : Nat) : Cache :=
  c.SetWithTTL key value NoExpiration now

/-- `SetAll` iterates `SetWithTTL` with no expiration. -/
def Cache.SetAll (c : Cache) (pairs : List (String × GoValue)) (now : Nat) : Cache :=
  pairs.foldl (fun acc p => acc.SetWithTTL p.1 p.2 NoExpiration now) c

/-- `Get`: a miss bumps the miss counter; a hit bumps the hit counter, and
an expired hit physically deletes the entry and reports absence; under LRU a
live hit refreshes the timestamp and promotes the entry to head. -/
def Cache.Get (c : Cache) (key : String) (now : Nat) : Option GoValue × Cache :=
  match mget c.entries key with
  | none => (none, { c with stats := { c.stats with Misses := c.stats.Misses + 1 } })
  | some entry =>
    let c1 := { c with stats := { c.stats with Hits := c.stats.Hits + 1 } }
    if entry.Expired now then
      (none, (c1.delete key).2)
    else if c1.evictionPolicy = .LeastRecentlyUsed then
      let entry1 := { entry with RelevantTimestamp := now }
      let c2 := { c1 with entries := adjust c1.entries key fun e =>
        { e with RelevantTimestamp := now } }
      if c2.head = some entry1.Key then (some entry1.Value, c2)
      else (some entry1.Value, c2.moveExistingEntryToHead entry1)
    else (some entry.Value, c1)

/-- `GetAll` composes individual `Get` calls. -/
def Cache.GetAll (c : Cache) (keys : List String) (now : Nat) :
    List (String × Option GoValue) × Cache :=
  keys.foldl
    (fun acc k =>
      let r := acc.2.Get k now
      (acc.1 ++ [(k, r.1)], r.2))
    ([], c)

/-- `Delete` is the locked wrapper of `delete`. -/
def Cache.Delete (c : Cache) (key : String) : Bool × Cache :=
  c.delete key

/-- `DeleteAll` deletes each key and counts the successes. -/
def Cache.DeleteAll (c : Cache) (keys : List String) : Nat × Cache :=
  keys.foldl
    (fun acc k =>
      let r := acc.2.delete k
      (acc.1 + (if r.1 then 1 else 0), r.2))
    (0, c)

/-- `Count`. -/
def Cache.Count (c : Cache) : Nat := c.entries.length

/-- `Clear`: reset the map, the memory gauge and both endpoints. -/
def Cache.Clear (c : Cache) : Cache :=
  { c with entries := [], memoryUsage := 0, head := none, tail := none }

/-- Caller-distinguishable errors of the TTL operations. -/
inductive CacheError where
  | keyDoesNotExist
  | keyHasNoExpiration
deriving DecidableEq

/-- `TTL`: absent key and already-negative remaining time report
`ErrKeyDoesNotExist`; the no-expiration sentinel reports
`ErrKeyHasNoExpiration`; otherwise the remaining duration is returned. -/
def Cache.TTL (c : Cache) (key : String) (now : Nat) : Except CacheError Int :=
  match mget c.entries key with
  | none => .error .keyDoesNotExist
  | some entry =>
    if entry.Expiration = NoExpiration then .error .keyHasNoExpiration
    else
      let timeUntilExpiration := entry.Expiration - (now : Int)
      if timeUntilExpiration < 0 then .error .keyDoesNotExist
      else .ok timeUntilExpiration

/-- `Expire`: false when the key is missing or already expired, otherwise
overwrite the expiration computed from the TTL. -/
def Cache.Expire (c : Cache) (key : String) (ttl : Int) (now : Nat) : Bool × Cache :=
  match mget c.entries key with
  | none => (false, c)
  | some entry =>
    if entry.Expired now then (false, c)
    else
      (true, { c with entries := adjust c.entries key fun e =>
        { e with Expiration := if ttl ≠ NoExpiration then (now : Int) + ttl else NoExpiration } })

/-- Modelled from the spec: the wildcard matcher `MatchPattern` lives in a
source file that is not part of the given sources; §6 asks for a glob-style
matcher where `*` matches any run of characters, including the empty one. -/
def globMatch : List Char → List Char → Bool
  | [], [] => true
  | '*' :: ps, [] => globMatch ps []
  | '*' :: ps, ch :: ks => globMatch ps (ch :: ks) || globMatch ('*' :: ps) ks
  | p :: ps, ch :: ks => p == ch && globMatch ps ks
  | _ :: _, [] => false
  | [], _ :: _ => false
termination_by pat key => (key.length, pat.length)

/-- Modelled from the spec: see `globMatch`. -/
def MatchPattern (pattern key : String) : Bool :=
  globMatch pattern.toList key.toList

/-- Collection loop of `GetKeysByPattern`, including the limit
short-circuit. -/
def matchLoop (pattern : String) (limit : Int) : List String → EMap → List String
  | acc, [] => acc
  | acc, p :: rest =>
    if MatchPattern pattern p.1 then
      let acc2 := acc ++ [p.1]
      if limit > 0 ∧ (acc2.length : Int) ≥ limit then acc2
      else matchLoop pattern limit acc2 rest
    else matchLoop pattern limit acc rest

/-- `GetKeysByPattern`: a pure read; it does not mutate the cache. -/
def Cache.GetKeysByPattern (c : Cache) (pattern : String) (limit : Int) : List String :=
  matchLoop pattern limit [] c.entries

/-- Strip the unexported link fields, as gob serialization does. -/
def stripLinks (e : Entry) : Entry :=
  { e with previous := none, next := none }

/-- `SaveToFile`: gob-encode the entries map only. Exported fields survive;
the links, the endpoints, the gauge and the stats are not serialized. The
file path and I/O errors are outside the model. -/
def Cache.SaveToFile (c : Cache) : EMap :=
  c.entries.map fun p => (p.1, stripLinks p.2)

/-- Decoding a gob stream into a non-nil Go map stores each decoded pair
into the existing map: bindings whose keys are absent from the stream
survive the decode. -/
def decodeMerge (old snap : EMap) : EMap :=
  snap.foldl (fun m p => mset m p.1 p.2) old

/-- Comparison used to rebuild the list order: oldest timestamp first. Go
sorts with the strict `Before`; any sort by the reflexive closure agrees
with it whenever the timestamps are distinct, and ties are
implementation-defined anyway (the map iteration order is randomized). -/
def tsLE (a b : Entry) : Prop := a.RelevantTimestamp ≤ b.RelevantTimestamp

instance : DecidableRel tsLE := fun a b => inferInstanceAs (Decidable (_ ≤ _))

instance : IsTotal Entry tsLE := ⟨fun a b => Nat.le_total a.RelevantTimestamp b.RelevantTimestamp⟩

instance : IsTrans Entry tsLE := ⟨fun _ _ _ => Nat.le_trans⟩

/-- Sort the decoded entries from oldest to newest `RelevantTimestamp`
(`sort.Slice` with `Before`); ties are implementation-defined. -/
def sortEntriesByTimestamp (m : EMap) : List Entry :=
  List.insertionSort tsLE (m.map (·.2))

/-- Relink loop of `ReadFromFile`: walk the sorted entries; the first one
becomes tail and head, each later one is chained behind the previous and
becomes the new head; when memory-bounded, accumulate the sizes. -/
def relinkGo (c : Cache) (prev : Option String) : List Entry → Cache
  | [] => c
  | current :: rest =>
    let c1 := match prev with
      | none => { c with tail := some current.Key, head := some current.Key }
      | some pk =>
        let m1 := adjust c.entries pk fun e => { e with next := some current.Key }
        let m2 := adjust m1 current.Key fun e => { e with previous := some pk }
        { c with entries := m2, head := some current.Key }
    let c2 :=
      if c1.maxMemoryUsage ≠ NoMaxMemoryUsage then
        { c1 with memoryUsage := c1.memoryUsage + (current.SizeInBytes : Int) }
      else c1
    relinkGo c2 (some current.Key) rest

/-- Bounds enforcement at the end of `ReadFromFile`: first the size loop,
then the memory loop, with the total eviction count. -/
def readBounds (cr : Cache) : Cache × Nat :=
  if cr.maxSize = NoMaxSize ∧ cr.maxMemoryUsage = NoMaxMemoryUsage then (cr, 0)
  else
    let s1 :=
      if cr.maxSize ≠ NoMaxSize ∧ (cr.entries.length : Int) > cr.maxSize then
        evictSizeLoopCount cr 0 cr.entries.length
      else (cr, 0)
    if s1.1.maxMemoryUsage ≠ NoMaxMemoryUsage ∧ s1.1.memoryUsage > s1.1.maxMemoryUsage then
      evictMemLoopCount s1.1 s1.2 s1.1.entries.length
    else s1

/-- `ReadFromFile`: decode the snapshot into the entries map, relink by
ascending timestamp, then evict down to the configured bounds and report
the number of evictions. File I/O errors are outside the model. -/
def Cache.ReadFromFile (c : Cache) (snap : EMap) : Cache × Nat :=
  let cd := { c with entries := decodeMerge c.entries snap }
  readBounds (relinkGo cd none (sortEntriesByTimestamp cd.entries))

/-! ### Lemmas about the entries map -/

@[simp] theorem keysOf_nil : keysOf ([] : EMap) = [] := rfl

@[simp] theorem keysOf_cons (p : String × Entry) (m : EMap) :
    keysOf (p :: m) = p.1 :: keysOf m := rfl

@[simp] theorem keysOf_append (m m' : EMap) :
    keysOf (m ++ m') = keysOf m ++ keysOf m' := by
  simp [keysOf]

theorem mget_mem {m : EMap} {k : String} {e : Entry} (h : mget m k = some e) : (k, e) ∈ m := by
  induction m with
  | nil => simp [mget] at h
  | cons p rest ih =>
    by_cases hk : p.1 = k
    · simp only [mget, if_pos hk, Option.some.injEq] at h
      subst h
      subst hk
      exact List.mem_cons.mpr (Or.inl Prod.mk.eta.symm)
    · simp only [mget, if_neg hk] at h
      exact List.mem_cons_of_mem _ (ih h)

theorem mget_isSome_of_mem {m : EMap} {k : String} (h : k ∈ keysOf m) :
    ∃ e, mget m k = some e := by
  induction m with
  | nil => simp at h
  | cons p rest ih =>
    by_cases hk : p.1 = k
    · exact ⟨p.2, by simp [mget, hk]⟩
    · have : k ∈ keysOf rest := by
        rcases List.mem_cons.mp h with h1 | h1
        · exact absurd h1.symm hk
        · exact h1
      simpa [mget, hk] using ih this

theorem mget_eq_none_of_not_mem {m : EMap} {k : String} (h : k ∉ keysOf m) :
    mget m k = none := by
  induction m with
  | nil => rfl
  | cons p rest ih =>
    have h1 : ¬p.1 = k := fun hh => h (List.mem_cons.mpr (Or.inl hh.symm))
    have h2 : k ∉ keysOf rest := fun hh => h (List.mem_cons.mpr (Or.inr hh))
    simp [mget, h1, ih h2]

theorem mem_keysOf_of_mget {m : EMap} {k : String} {e : Entry} (h : mget m k = some e) :
    k ∈ keysOf m := by
  by_contra hk
  simp [mget_eq_none_of_not_mem hk] at h

theorem mget_mset_self (m : EMap) (k : String) (e : Entry) : mget (mset m k e) k = some e := by
  induction m with
  | nil => simp [mset, mget]
  | cons p rest ih =>
    by_cases hk : p.1 = k
    · simp [mset, hk, mget]
    · simp [mset, hk, mget, ih]

theorem mget_mset_ne (m : EMap) {k k' : String} (e : Entry) (h : k' ≠ k) :
    mget (mset m k e) k' = mget m k' := by
  have hkk : ¬k = k' := fun hh => h hh.symm
  induction m with
  | nil => simp [mset, mget, hkk]
  | cons p rest ih =>
    by_cases hk : p.1 = k
    · have hp : ¬p.1 = k' := by rw [hk]; exact hkk
      simp [mset, hk, mget, hkk, hp]
    · by_cases hp : p.1 = k'
      · simp only [mset, if_neg hk]
        simp [mget, hp]
      · simp only [mset, if_neg hk]
        simp [mget, hp, ih]

theorem keysOf_mset_of_mem {m : EMap} {k : String} (e : Entry) (h : k ∈ keysOf m) :
    keysOf (mset m k e) = keysOf m := by
  induction m with
  | nil => simp at h
  | cons p rest ih =>
    by_cases hk : p.1 = k
    · simp [mset, hk]
    · have : k ∈ keysOf rest := by
        rcases List.mem_cons.mp h with h1 | h1
        · exact absurd h1.symm hk
        · exact h1
      simp [mset, hk, ih this]

theorem mset_append_of_not_mem {m : EMap} {k : String} (e : Entry) (h : k ∉ keysOf m) :
    mset m k e = m ++ [(k, e)] := by
  induction m with
  | nil => simp [mset]
  | cons p rest ih =>
    have h1 : ¬p.1 = k := fun hh => h (List.mem_cons.mpr (Or.inl hh.symm))
    have h2 : k ∉ keysOf rest := fun hh => h (List.mem_cons.mpr (Or.inr hh))
    simp [mset, h1, ih h2]

theorem mget_adjust_self (m : EMap) (k : String) (f : Entry → Entry) :
    mget (adjust m k f) k = (mget m k).map f := by
  induction m with
  | nil => rfl
  | cons p rest ih =>
    by_cases hk : p.1 = k
    · simp [adjust, hk, mget]
    · simp only [adjust, List.map_cons, if_neg hk]
      simpa [mget, hk] using ih

theorem mget_adjust_ne (m : EMap) {k k' : String} (f : Entry → Entry) (h : k' ≠ k) :
    mget (adjust m k f) k' = mget m k' := by
  induction m with
  | nil => rfl
  | cons p rest ih =>
    by_cases hk : p.1 = k
    · have hp : ¬p.1 = k' := by rw [hk]; exact fun hh => h hh.symm
      simp only [adjust, List.map_cons, if_pos hk]
      simpa [mget, hp] using ih
    · simp only [adjust, List.map_cons, if_neg hk]
      by_cases hp : p.1 = k'
      · simp [mget, hp]
      · simpa [mget, hp] using ih

@[simp] theorem keysOf_adjust (m : EMap) (k : String) (f : Entry → Entry) :
    keysOf (adjust m k f) = keysOf m := by
  induction m with
  | nil => rfl
  | cons p rest ih =>
    by_cases hk : p.1 = k
    · simpa [adjust, hk] using ih
    · simpa [adjust, hk] using ih

theorem adjust_of_not_mem {m : EMap} {k : String} (f : Entry → Entry) (h : k ∉ keysOf m) :
    adjust m k f = m := by
  induction m with
  | nil => rfl
  | cons p rest ih =>
    have h1 : ¬p.1 = k := fun hh => h (List.mem_cons.mpr (Or.inl hh.symm))
    have h2 : k ∉ keysOf rest := fun hh => h (List.mem_cons.mpr (Or.inr hh))
    simp [adjust, h1] at ih ⊢
    exact ih h2

theorem keysOf_mdel (m : EMap) (k : String) :
    keysOf (mdel m k) = (keysOf m).filter (fun x => x ≠ k) := by
  induction m with
  | nil => rfl
  | cons p rest ih =>
    by_cases hk : p.1 = k
    · subst hk
      simp [mdel, ih, List.filter_cons]
    · simp [mdel, hk, ih, List.filter_cons]

theorem mget_mdel_self (m : EMap) (k : String) : mget (mdel m k) k = none := by
  induction m with
  | nil => rfl
  | cons p rest ih =>
    by_cases hk : p.1 = k
    · simp [mdel, hk, ih]
    · simp [mdel, hk, mget, ih]

theorem mget_mdel_ne (m : EMap) {k k' : String} (h : k' ≠ k) :
    mget (mdel m k) k' = mget m k' := by
  induction m with
  | nil => rfl
  | cons p rest ih =>
    by_cases hk : p.1 = k
    · have hp : ¬p.1 = k' := by rw [hk]; exact fun hh => h hh.symm
      simp only [mdel, if_pos hk]
      simp [mget, hp, ih]
    · simp only [mdel, if_neg hk]
      by_cases hp : p.1 = k'
      · simp [mget, hp]
      · simp [mget, hp, ih]

theorem mdel_of_not_mem {m : EMap} {k : String} (h : k ∉ keysOf m) : mdel m k = m := by
  induction m with
  | nil => rfl
  | cons p rest ih =>
    have h1 : ¬p.1 = k := fun hh => h (List.mem_cons.mpr (Or.inl hh.symm))
    have h2 : k ∉ keysOf rest := fun hh => h (List.mem_cons.mpr (Or.inr hh))
    simp [mdel, h1, ih h2]

theorem keysOf_mdel_nodup {m : EMap} {k : String} (hnd : (keysOf m).Nodup) (h : k ∈ keysOf m) :
    keysOf (mdel m k) = (keysOf m).erase k := by
  rw [keysOf_mdel, List.Nodup.erase_eq_filter hnd]
  apply List.filter_congr
  intro x _
  by_cases hx : x = k <;> simp [hx]

theorem keyCons_adjust {m : EMap} {k : String} {f : Entry → Entry}
    (hf : ∀ e, (f e).Key = e.Key) (h : ∀ p ∈ m, p.2.Key = p.1) :
    ∀ p ∈ adjust m k f, p.2.Key = p.1 := by
  intro p hp
  simp only [adjust, List.mem_map] at hp
  obtain ⟨q, hq, hpq⟩ := hp
  by_cases hk : q.1 = k
  · simp only [if_pos hk] at hpq
    subst hpq
    simpa [hf] using h q hq
  · simp only [if_neg hk] at hpq
    subst hpq
    exact h q hq

theorem keyCons_adjustF {m : EMap} {k : String} (f : Entry → Entry)
    (hf : ∀ e, (f e).Key = e.Key) (h : ∀ p ∈ m, p.2.Key = p.1) :
    ∀ p ∈ adjust m k f, p.2.Key = p.1 := keyCons_adjust hf h

theorem keyCons_mdel {m : EMap} {k : String} (h : ∀ p ∈ m, p.2.Key = p.1) :
    ∀ p ∈ mdel m k, p.2.Key = p.1 := by
  induction m with
  | nil => simp [mdel]
  | cons q rest ih =>
    intro p hp
    by_cases hk : q.1 = k
    · exact ih (fun r hr => h r (List.mem_cons_of_mem _ hr)) p (by simpa [mdel, hk] using hp)
    · simp only [mdel, if_neg hk, List.mem_cons] at hp
      rcases hp with hp | hp
      · exact hp ▸ h q (List.mem_cons_self _ _)
      · exact ih (fun r hr => h r (List.mem_cons_of_mem _ hr)) p hp

/-- Sum of the approximate entry sizes over the map (as an integer). -/
def sizeSum (m : EMap) : Int :=
  (m.map (fun p => (p.2.SizeInBytes : Int))).sum

@[simp] theorem sizeSum_nil : sizeSum ([] : EMap) = 0 := rfl

@[simp] theorem sizeSum_cons (p : String × Entry) (m : EMap) :
    sizeSum (p :: m) = (p.2.SizeInBytes : Int) + sizeSum m := by
  simp [sizeSum]

@[simp] theorem sizeSum_append (m m' : EMap) :
    sizeSum (m ++ m') = sizeSum m + sizeSum m' := by
  simp [sizeSum]

theorem sizeSum_adjust {m : EMap} {k : String} (f : Entry → Entry)
    (hf : ∀ e, (f e).SizeInBytes = e.SizeInBytes) :
    sizeSum (adjust m k f) = sizeSum m := by
  induction m with
  | nil => rfl
  | cons p rest ih =>
    simp only [adjust] at ih
    by_cases hk : p.1 = k
    · simp only [adjust, List.map_cons, if_pos hk]
      simp [hf, ih]
    · simp only [adjust, List.map_cons, if_neg hk]
      simp [ih]

theorem sizeSum_mset_of_not_mem {m : EMap} {k : String} (e : Entry) (h : k ∉ keysOf m) :
    sizeSum (mset m k e) = sizeSum m + (e.SizeInBytes : Int) := by
  rw [mset_append_of_not_mem e h]
  simp

theorem sizeSum_mdel {m : EMap} {k : String} {e : Entry}
    (hnd : (keysOf m).Nodup) (h : mget m k = some e) :
    sizeSum (mdel m k) = sizeSum m - (e.SizeInBytes : Int) := by
  induction m with
  | nil => simp [mget] at h
  | cons p rest ih =>
    simp only [keysOf_cons, List.nodup_cons] at hnd
    by_cases hk : p.1 = k
    · simp only [mget, if_pos hk, Option.some.injEq] at h
      subst h
      have hout : mdel rest k = rest := mdel_of_not_mem (hk ▸ hnd.1)
      simp [mdel, hk, hout]
    · simp only [mget, if_neg hk] at h
      simp [mdel, hk, ih hnd.2 h]
      omega

theorem sizeSum_adjust_value {m : EMap} {k : String} {e : Entry} (f : Entry → Entry)
    (hnd : (keysOf m).Nodup) (h : mget m k = some e) :
    sizeSum (adjust m k f) = sizeSum m - (e.SizeInBytes : Int) + ((f e).SizeInBytes : Int) := by
  induction m with
  | nil => simp [mget] at h
  | cons p rest ih =>
    simp only [keysOf_cons, List.nodup_cons] at hnd
    by_cases hk : p.1 = k
    · simp only [mget, if_pos hk, Option.some.injEq] at h
      subst h
      have hout : adjust rest k f = rest := adjust_of_not_mem f (hk ▸ hnd.1)
      simp only [adjust, List.map_cons, if_pos hk]
      simp only [adjust] at hout
      rw [hout]
      simp
      omega
    · simp only [mget, if_neg hk] at h
      have hrec := ih hnd.2 h
      simp only [adjust, List.map_cons, if_neg hk]
      simp only [adjust] at hrec
      simp [hrec]
      omega

/-- A pair with the links of its entry cleared; two maps equal under
`stripPair` agree on everything the serialization keeps. -/
def stripPair (p : String × Entry) : String × Entry :=
  (p.1, stripLinks p.2)

@[simp] theorem stripLinks_key (e : Entry) : (stripLinks e).Key = e.Key := rfl

@[simp] theorem stripLinks_size (e : Entry) : (stripLinks e).SizeInBytes = e.SizeInBytes := rfl

@[simp] theorem stripLinks_ts (e : Entry) :
    (stripLinks e).RelevantTimestamp = e.RelevantTimestamp := rfl

@[simp] theorem stripLinks_idem (e : Entry) : stripLinks (stripLinks e) = stripLinks e := rfl

theorem stripPair_adjust_linkonly {m : EMap} {k : String} {f : Entry → Entry}
    (hf : ∀ e, stripLinks (f e) = stripLinks e) :
    (adjust m k f).map stripPair = m.map stripPair := by
  induction m with
  | nil => rfl
  | cons p rest ih =>
    by_cases hk : p.1 = k
    · simp only [adjust, List.map_cons, if_pos hk] at *
      simp [stripPair, hf, ih]
    · simp only [adjust, List.map_cons, if_neg hk] at *
      simp [ih]

theorem sizeSum_of_stripPair_eq {m m' : EMap}
    (h : m.map stripPair = m'.map stripPair) : sizeSum m = sizeSum m' := by
  have h2 : (m.map stripPair).map (fun p => (p.2.SizeInBytes : Int)) =
      (m'.map stripPair).map (fun p => (p.2.SizeInBytes : Int)) := by rw [h]
  simpa [sizeSum, List.map_map, Function.comp, stripPair] using congrArg List.sum h2

/-! ### The list representation predicate -/

/-- First key of `ks`, or `after` when `ks` is empty. -/
def headKeyOr : List String → Option String → Option String
  | [], after => after
  | k :: _, _ => some k

/-- Last key of `ks`, or `prev` when `ks` is empty. -/
def lastKeyOr : List String → Option String → Option String
  | [], prev => prev
  | k :: ks, _ => lastKeyOr ks (some k)

@[simp] theorem headKeyOr_nil (after : Option String) : headKeyOr [] after = after := rfl

@[simp] theorem headKeyOr_cons (k : String) (ks : List String) (after : Option String) :
    headKeyOr (k :: ks) after = some k := rfl

theorem headKeyOr_append (A B : List String) (after : Option String) :
    headKeyOr (A ++ B) after = headKeyOr A (headKeyOr B after) := by
  cases A <;> rfl

@[simp] theorem lastKeyOr_nil (prev : Option String) : lastKeyOr [] prev = prev := rfl

theorem lastKeyOr_cons (a : String) (A : List String) (prev : Option String) :
    lastKeyOr (a :: A) prev = lastKeyOr A (some a) := rfl

@[simp] theorem lastKeyOr_concat (A : List String) (x : String) (prev : Option String) :
    lastKeyOr (A ++ [x]) prev = some x := by
  induction A generalizing prev with
  | nil => rfl
  | cons a A' ih => simpa [lastKeyOr_cons] using ih (some a)

theorem lastKeyOr_none_eq_getLast (ks : List String) : lastKeyOr ks none = ks.getLast? := by
  induction ks using List.reverseRecOn with
  | nil => rfl
  | append_singleton A x ih => simp [List.getLast?_concat]

/-- The segment `ks` is correctly doubly linked inside `m`: the first entry's
`previous` is `prev`, consecutive entries point at each other, and the last
entry's `next` is `after`. -/
def chainB (m : EMap) : Option String → List String → Option String → Bool
  | _, [], _ => true
  | prev, k :: rest, after =>
    match mget m k with
    | none => false
    | some e => e.previous == prev && e.next == headKeyOr rest after && chainB m (some k) rest after

@[simp] theorem chainB_nil (m : EMap) (prev after : Option String) :
    chainB m prev [] after = true := rfl

theorem chainB_cons_iff {m : EMap} {prev after : Option String} {k : String} {rest : List String} :
    chainB m prev (k :: rest) after = true ↔
      ∃ e, mget m k = some e ∧ e.previous = prev ∧ e.next = headKeyOr rest after ∧
        chainB m (some k) rest after = true := by
  cases hg : mget m k <;> simp [chainB, hg, and_assoc]

theorem chainB_append_iff {m : EMap} (A B : List String) (prev after : Option String) :
    chainB m prev (A ++ B) after = true ↔
      (chainB m prev A (headKeyOr B after) = true ∧
        chainB m (lastKeyOr A prev) B after = true) := by
  induction A generalizing prev with
  | nil => simp
  | cons a A' ih =>
    cases hg : mget m a with
    | none => simp [chainB, hg]
    | some e =>
      simp [chainB, hg, headKeyOr_append, lastKeyOr_cons, ih, and_assoc]

/-- Pointwise agreement of presence and of the two link fields. -/
def linkEq : Option Entry → Option Entry → Prop
  | none, none => True
  | some a, some b => a.previous = b.previous ∧ a.next = b.next
  | _, _ => False

theorem chainB_congr_links {m m' : EMap} {ks : List String}
    (h : ∀ x ∈ ks, linkEq (mget m' x) (mget m x)) (prev after : Option String) :
    chainB m' prev ks after = chainB m prev ks after := by
  induction ks generalizing prev with
  | nil => rfl
  | cons k rest ih =>
    have hk := h k (List.mem_cons_self _ _)
    have hrest : ∀ x ∈ rest, linkEq (mget m' x) (mget m x) :=
      fun x hx => h x (List.mem_cons_of_mem _ hx)
    cases hg : mget m k with
    | none =>
      cases hg' : mget m' k with
      | none => simp [chainB, hg, hg']
      | some e' => rw [hg, hg'] at hk; simp [linkEq] at hk
    | some e =>
      cases hg' : mget m' k with
      | none => rw [hg, hg'] at hk; simp [linkEq] at hk
      | some e' =>
        rw [hg, hg'] at hk
        obtain ⟨h1, h2⟩ := hk
        simp [chainB, hg, hg', h1, h2, ih hrest]

theorem chainB_congr {m m' : EMap} {ks : List String}
    (h : ∀ x ∈ ks, mget m' x = mget m x) (prev after : Option String) :
    chainB m' prev ks after = chainB m prev ks after := by
  apply chainB_congr_links _ prev after
  intro x hx
  rw [h x hx]
  cases mget m x <;> simp [linkEq]

/-- The representation invariant tying the cache to the tail-to-head key
sequence `ks` of its recency list. -/
def CacheRep (c : Cache) (ks : List String) : Prop :=
  ks.Perm (keysOf c.entries) ∧
  (keysOf c.entries).Nodup ∧
  (∀ p ∈ c.entries, p.2.Key = p.1) ∧
  c.tail = ks.head? ∧
  c.head = ks.getLast? ∧
  chainB c.entries none ks none = true

theorem CacheRep.ks_nodup {c : Cache} {ks : List String} (h : CacheRep c ks) : ks.Nodup :=
  (h.1.nodup_iff).mpr h.2.1

theorem CacheRep.length_eq {c : Cache} {ks : List String} (h : CacheRep c ks) :
    c.entries.length = ks.length := by
  have := h.1.length_eq
  simpa [keysOf] using this.symm

theorem CacheRep.mget_of_mem {c : Cache} {ks : List String} (h : CacheRep c ks)
    {k : String} (hk : k ∈ ks) : ∃ e, mget c.entries k = some e ∧ e.Key = k := by
  have hmem : k ∈ keysOf c.entries := h.1.mem_iff.mp hk
  obtain ⟨e, he⟩ := mget_isSome_of_mem hmem
  exact ⟨e, he, h.2.2.1 (k, e) (mget_mem he)⟩

/-! ### The unlink surgery -/

theorem removeRefs_frame (c : Cache) (e : Entry) :
    (c.removeExistingEntryReferences e).maxSize = c.maxSize ∧
    (c.removeExistingEntryReferences e).maxMemoryUsage = c.maxMemoryUsage ∧
    (c.removeExistingEntryReferences e).evictionPolicy = c.evictionPolicy ∧
    (c.removeExistingEntryReferences e).stats = c.stats ∧
    (c.removeExistingEntryReferences e).memoryUsage = c.memoryUsage := by
  unfold Cache.removeExistingEntryReferences
  split_ifs <;> simp

theorem removeRefs_strip (c : Cache) (e : Entry) :
    (c.removeExistingEntryReferences e).entries.map stripPair = c.entries.map stripPair := by
  unfold Cache.removeExistingEntryReferences
  have h1 : ∀ (m : EMap) (k : String) (v : Option String),
      (adjust m k fun x => { x with next := v }).map stripPair = m.map stripPair :=
    fun m k v => stripPair_adjust_linkonly (fun x => rfl)
  have h2 : ∀ (m : EMap) (k : String) (v : Option String),
      (adjust m k fun x => { x with previous := v }).map stripPair = m.map stripPair :=
    fun m k v => stripPair_adjust_linkonly (fun x => rfl)
  have h3 : ∀ (m : EMap) (k : String),
      (adjust m k fun x => { x with next := none, previous := none }).map stripPair =
        m.map stripPair :=
    fun m k => stripPair_adjust_linkonly (fun x => rfl)
  cases e.previous <;> cases e.next <;> split_ifs <;> simp [h1, h2, h3]

theorem removeRefs_keysOf (c : Cache) (e : Entry) :
    keysOf (c.removeExistingEntryReferences e).entries = keysOf c.entries := by
  unfold Cache.removeExistingEntryReferences
  cases e.previous <;> cases e.next <;> split_ifs <;> simp

theorem removeRefs_tail (c : Cache) (e : Entry) :
    (c.removeExistingEntryReferences e).tail =
      if c.tail = some e.Key ∧ c.head = some e.Key then none
      else if c.tail = some e.Key then e.next
      else c.tail := by
  unfold Cache.removeExistingEntryReferences
  split_ifs <;> rfl

theorem removeRefs_head (c : Cache) (e : Entry) :
    (c.removeExistingEntryReferences e).head =
      if c.tail = some e.Key ∧ c.head = some e.Key then none
      else if c.tail = some e.Key then c.head
      else if c.head = some e.Key then e.previous
      else c.head := by
  unfold Cache.removeExistingEntryReferences
  split_ifs <;> rfl

theorem removeRefs_entries (c : Cache) (e : Entry) :
    (c.removeExistingEntryReferences e).entries =
      adjust
        (match e.next with
          | some n =>
            adjust
              (match e.previous with
                | some p => adjust c.entries p fun x => { x with next := e.next }
                | none => c.entries) n fun x => { x with previous := e.previous }
          | none =>
            match e.previous with
              | some p => adjust c.entries p fun x => { x with next := e.next }
              | none => c.entries)
        e.Key fun x => { x with next := none, previous := none } := by
  unfold Cache.removeExistingEntryReferences
  split_ifs <;> rfl

theorem head?_append_cons (A : List String) (k : String) (B : List String) :
    (A ++ k :: B).head? = headKeyOr A (some k) := by
  cases A <;> rfl

theorem lastKeyOr_append (A B : List String) (prev : Option String) :
    lastKeyOr (A ++ B) prev = lastKeyOr B (lastKeyOr A prev) := by
  induction A generalizing prev with
  | nil => rfl
  | cons a A' ih => simp [lastKeyOr_cons, ih]

theorem getLast?_eq_lastKeyOr (ks : List String) : ks.getLast? = lastKeyOr ks none :=
  (lastKeyOr_none_eq_getLast ks).symm

theorem lastKeyOr_mem (B : List String) (a : String) :
    ∃ x, lastKeyOr B (some a) = some x ∧ x ∈ a :: B := by
  induction B generalizing a with
  | nil => exact ⟨a, rfl, List.mem_cons_self _ _⟩
  | cons b B' ih =>
    obtain ⟨x, hx, hmem⟩ := ih b
    refine ⟨x, by simpa [lastKeyOr_cons] using hx, ?_⟩
    exact List.mem_cons_of_mem _ hmem

theorem headKeyOr_irrel {A : List String} (h : A ≠ []) (x y : Option String) :
    headKeyOr A x = headKeyOr A y := by
  cases A with
  | nil => exact absurd rfl h
  | cons a A' => rfl

theorem head?_eq_headKeyOr (ks : List String) : ks.head? = headKeyOr ks none := by
  cases ks <;> rfl

theorem removeRefs_spec {c : Cache} {A B : List String} {e : Entry}
    (hnd : (A ++ e.Key :: B).Nodup)
    (hch : chainB c.entries none (A ++ e.Key :: B) none = true)
    (htl : c.tail = (A ++ e.Key :: B).head?)
    (hhd : c.head = (A ++ e.Key :: B).getLast?)
    (hget : mget c.entries e.Key = some e) :
    (c.removeExistingEntryReferences e).tail = (A ++ B).head? ∧
    (c.removeExistingEntryReferences e).head = (A ++ B).getLast? ∧
    chainB (c.removeExistingEntryReferences e).entries none (A ++ B) none = true := by
  have hsplit := List.nodup_append.mp hnd
  have hndA : A.Nodup := hsplit.1
  have hndKB : (e.Key :: B).Nodup := hsplit.2.1
  have hdisj : A.Disjoint (e.Key :: B) := hsplit.2.2
  have hKB : e.Key ∉ B := (List.nodup_cons.mp hndKB).1
  have hndB : B.Nodup := (List.nodup_cons.mp hndKB).2
  have hKA : e.Key ∉ A := fun h => hdisj h (List.mem_cons_self _ _)
  have hAB : ∀ x ∈ A, x ∉ B := fun x hx hb => hdisj hx (List.mem_cons_of_mem _ hb)
  rw [chainB_append_iff] at hch
  obtain ⟨hchA, hch2⟩ := hch
  rw [headKeyOr_cons] at hchA
  rw [chainB_cons_iff] at hch2
  obtain ⟨e', he', hprev, hnext, hchB⟩ := hch2
  rw [hget] at he'
  injection he' with he'
  subst he'
  rw [head?_append_cons] at htl
  rw [getLast?_eq_lastKeyOr, lastKeyOr_append, lastKeyOr_cons] at hhd
  rcases A.eq_nil_or_concat with rfl | ⟨A', p, rfl⟩
  · -- the removed entry is the tail
    simp only [List.nil_append] at *
    cases B with
    | nil =>
      -- singleton list
      have ht : c.tail = some e.Key := by simpa using htl
      have hh : c.head = some e.Key := by simpa using hhd
      refine ⟨?_, ?_, ?_⟩
      · rw [removeRefs_tail]; simp [ht, hh]
      · rw [removeRefs_head]; simp [ht, hh]
      · simp
    | cons n B' =>
      have hne' : n ≠ e.Key := fun h => hKB (h ▸ List.mem_cons_self n B')
      have ht : c.tail = some e.Key := by simpa using htl
      obtain ⟨x, hx, hxmem⟩ := lastKeyOr_mem B' n
      have hh : c.head = some x := by rw [hhd, lastKeyOr_cons, hx]
      have hxK : x ≠ e.Key := fun h => hKB (h ▸ hxmem)
      have hcond : ¬(c.tail = some e.Key ∧ c.head = some e.Key) := by
        rintro ⟨-, h2⟩
        rw [hh] at h2
        exact hxK (Option.some.injEq _ _ ▸ h2)
      simp only [lastKeyOr_nil] at hprev
      simp only [headKeyOr_cons] at hnext
      obtain ⟨ne, hmn, hneprev, hnenext, hchB'⟩ := chainB_cons_iff.mp hchB
      have hm := removeRefs_entries c e
      simp only [hprev, hnext] at hm
      have hmgn : mget (c.removeExistingEntryReferences e).entries n =
          some { ne with previous := none } := by
        rw [hm, mget_adjust_ne _ _ hne', mget_adjust_self, hmn]
        rfl
      refine ⟨?_, ?_, ?_⟩
      · rw [removeRefs_tail, if_neg hcond, if_pos ht, hnext]
        rfl
      · rw [removeRefs_head, if_neg hcond, if_pos ht, hh]
        rw [getLast?_eq_lastKeyOr, lastKeyOr_cons, hx]
      · rw [chainB_cons_iff]
        refine ⟨{ ne with previous := none }, hmgn, rfl, by simpa using hnenext, ?_⟩
        have hcongr : ∀ y ∈ B', mget (c.removeExistingEntryReferences e).entries y =
            mget c.entries y := by
          intro y hy
          have hyn : y ≠ n := fun h => (List.nodup_cons.mp hndB).1 (h ▸ hy)
          have hyK : y ≠ e.Key := fun h => hKB (h ▸ List.mem_cons_of_mem _ hy)
          rw [hm, mget_adjust_ne _ _ hyK, mget_adjust_ne _ _ hyn]
        rw [chainB_congr hcongr]
        exact hchB'
  · -- A = A' ++ [p] : the removed entry has a predecessor
    simp only [List.concat_eq_append] at *
    have hpA : p ∈ A' ++ [p] := List.mem_append.mpr (Or.inr (List.mem_cons_self _ _))
    have hpK : p ≠ e.Key := fun h => hKA (h ▸ hpA)
    have htne : c.tail ≠ some e.Key := by
      rw [htl]
      cases A' with
      | nil =>
        simp only [List.nil_append, headKeyOr_cons]
        exact fun h => hpK (Option.some.injEq _ _ ▸ h)
      | cons a0 A'' =>
        simp only [List.cons_append, headKeyOr_cons]
        have ha0 : a0 ≠ e.Key := fun h => hKA (h ▸ List.mem_cons_self a0 (A'' ++ [p]))
        exact fun h => ha0 (Option.some.injEq _ _ ▸ h)
    have hprev' : e.previous = some p := by simpa using hprev
    -- decompose the chain over A' ++ [p]
    rw [chainB_append_iff] at hchA
    obtain ⟨hchA', hchp⟩ := hchA
    simp only [headKeyOr_cons, headKeyOr_nil] at hchA'
    obtain ⟨pe, hmp, hpeprev, hpenext, -⟩ := chainB_cons_iff.mp hchp
    simp only [headKeyOr_nil] at hpenext
    cases B with
    | nil =>
      -- the removed entry is the head
      have hh : c.head = some e.Key := by simpa using hhd
      simp only [headKeyOr_nil] at hnext
      have hm := removeRefs_entries c e
      simp only [hprev', hnext] at hm
      have hmgp : mget (c.removeExistingEntryReferences e).entries p =
          some { pe with next := none } := by
        rw [hm, mget_adjust_ne _ _ hpK, mget_adjust_self, hmp]
        rfl
      refine ⟨?_, ?_, ?_⟩
      · rw [removeRefs_tail, if_neg (fun h => htne h.1), if_neg htne]
        rw [htl, List.append_nil, head?_eq_headKeyOr]
        exact headKeyOr_irrel (by simp) _ _
      · rw [removeRefs_head, if_neg (fun h => htne h.1), if_neg htne, if_pos hh, hprev']
        simp [List.getLast?_concat]
      · rw [List.append_nil, chainB_append_iff]
        constructor
        · have hcongr : ∀ y ∈ A', mget (c.removeExistingEntryReferences e).entries y =
              mget c.entries y := by
            intro y hy
            have hyp : y ≠ p := by
              intro h
              subst h
              exact (List.nodup_append.mp hndA).2.2 hy (List.mem_cons_self _ _)
            have hyK : y ≠ e.Key := fun h => hKA (h ▸ List.mem_append.mpr (Or.inl hy))
            rw [hm, mget_adjust_ne _ _ hyK, mget_adjust_ne _ _ hyp]
          rw [chainB_congr hcongr]
          simpa using hchA'
        · rw [chainB_cons_iff]
          exact ⟨{ pe with next := none }, hmgp, by simpa using hpeprev, rfl, by simp⟩
    | cons n B' =>
      -- the removed entry is interior: both endpoints stay fixed
      have hnB : n ∈ n :: B' := List.mem_cons_self _ _
      have hnK : n ≠ e.Key := fun h => hKB (h ▸ hnB)
      have hpn : p ≠ n := fun h => hAB p hpA (h ▸ hnB)
      obtain ⟨x, hx, hxmem⟩ := lastKeyOr_mem B' n
      have hh : c.head = some x := by rw [hhd, lastKeyOr_cons, hx]
      have hxK : x ≠ e.Key := fun h => hKB (h ▸ hxmem)
      have hhne : c.head ≠ some e.Key := by
        rw [hh]
        exact fun h => hxK (Option.some.injEq _ _ ▸ h)
      simp only [headKeyOr_cons] at hnext
      obtain ⟨ne, hmn, hneprev, hnenext, hchB'⟩ := chainB_cons_iff.mp hchB
      have hm := removeRefs_entries c e
      simp only [hprev', hnext] at hm
      have hmgp : mget (c.removeExistingEntryReferences e).entries p =
          some { pe with next := some n } := by
        rw [hm, mget_adjust_ne _ _ hpK, mget_adjust_ne _ _ hpn, mget_adjust_self, hmp]
        rfl
      have hmgn : mget (c.removeExistingEntryReferences e).entries n =
          some { ne with previous := some p } := by
        rw [hm, mget_adjust_ne _ _ hnK, mget_adjust_self,
          mget_adjust_ne _ _ (fun h => hpn h.symm), hmn]
        rfl
      refine ⟨?_, ?_, ?_⟩
      · rw [removeRefs_tail, if_neg (fun h => htne h.1), if_neg htne]
        rw [htl, head?_append_cons]
        exact (headKeyOr_irrel (by simp) _ _)
      · rw [removeRefs_head, if_neg (fun h => htne h.1), if_neg htne, if_neg hhne, hh]
        rw [getLast?_eq_lastKeyOr, lastKeyOr_append, lastKeyOr_cons, hx]
      · rw [chainB_append_iff]
        constructor
        · rw [chainB_append_iff]
          constructor
          · have hcongr : ∀ y ∈ A', mget (c.removeExistingEntryReferences e).entries y =
                mget c.entries y := by
              intro y hy
              have hyp : y ≠ p := by
                intro h
                subst h
                exact (List.nodup_append.mp hndA).2.2 hy (List.mem_cons_self _ _)
              have hyK : y ≠ e.Key := fun h => hKA (h ▸ List.mem_append.mpr (Or.inl hy))
              have hyn : y ≠ n := fun h =>
                hAB y (List.mem_append.mpr (Or.inl hy)) (h ▸ hnB)
              rw [hm, mget_adjust_ne _ _ hyK, mget_adjust_ne _ _ hyn,
                mget_adjust_ne _ _ hyp]
            rw [chainB_congr hcongr]
            simpa [headKeyOr_append, headKeyOr_cons] using hchA'
          · rw [chainB_cons_iff]
            refine ⟨{ pe with next := some n }, hmgp, by simpa using hpeprev, ?_, by simp⟩
            simp [headKeyOr_append, headKeyOr_cons]
        · rw [chainB_cons_iff]
          refine ⟨{ ne with previous := some p }, hmgn, by simp [lastKeyOr_concat], ?_, ?_⟩
          · simpa using hnenext
          · have hcongr : ∀ y ∈ B', mget (c.removeExistingEntryReferences e).entries y =
                mget c.entries y := by
              intro y hy
              have hyn : y ≠ n := fun h => (List.nodup_cons.mp hndB).1 (h ▸ hy)
              have hyK : y ≠ e.Key := fun h => hKB (h ▸ List.mem_cons_of_mem _ hy)
              have hyp : y ≠ p := fun h =>
                hAB p hpA (by rw [h] at hy; exact List.mem_cons_of_mem _ hy)
              rw [hm, mget_adjust_ne _ _ hyK, mget_adjust_ne _ _ hyn,
                mget_adjust_ne _ _ hyp]
            rw [chainB_congr hcongr]
            exact hchB'

/-! ### Representation lemmas for the composite operations -/

theorem CacheRep_set_mem {c : Cache} {ks : List String} {x : Int} :
    CacheRep { c with memoryUsage := x } ks ↔ CacheRep c ks := Iff.rfl

theorem CacheRep_set_stats {c : Cache} {ks : List String} {s : Statistics} :
    CacheRep { c with stats := s } ks ↔ CacheRep c ks := Iff.rfl

theorem rep_links_bounds {c : Cache} {ks : List String} {k : String} {e : Entry}
    (h : CacheRep c ks) (hk : k ∈ ks) (hget : mget c.entries k = some e) :
    e.previous ≠ some k ∧ e.next ≠ some k := by
  obtain ⟨A, B, rfl⟩ := List.append_of_mem hk
  have hnd : (A ++ k :: B).Nodup := h.ks_nodup
  have hKA : k ∉ A := fun hmem => (List.nodup_append.mp hnd).2.2 hmem (List.mem_cons_self _ _)
  have hKB : k ∉ B := (List.nodup_cons.mp (List.nodup_append.mp hnd).2.1).1
  have hch := h.2.2.2.2.2
  rw [chainB_append_iff] at hch
  obtain ⟨-, hch2⟩ := hch
  rw [chainB_cons_iff] at hch2
  obtain ⟨e', he', hprev, hnext, -⟩ := hch2
  rw [hget] at he'
  injection he' with he'
  subst he'
  constructor
  · rw [hprev]
    rcases A.eq_nil_or_concat with rfl | ⟨A', q, hA⟩
    · simp
    · have hA' : A = A' ++ [q] := by rw [hA, List.concat_eq_append]
      rw [hA', lastKeyOr_concat]
      intro hqk
      injection hqk with hqk
      subst hqk
      exact hKA (hA'.symm ▸ List.mem_append.mpr (Or.inr (List.mem_cons_self _ _)))
  · rw [hnext]
    cases B with
    | nil => simp
    | cons n B' =>
      intro hq
      injection hq with hq
      exact hKB (hq ▸ List.mem_cons_self n B')

theorem removeRefs_keyCons (c : Cache) (e : Entry)
    (h : ∀ p ∈ c.entries, p.2.Key = p.1) :
    ∀ p ∈ (c.removeExistingEntryReferences e).entries, p.2.Key = p.1 := by
  rw [removeRefs_entries]
  cases e.next <;> cases e.previous <;>
    exact keyCons_adjust (fun _ => rfl)
      (by first
        | exact h
        | exact keyCons_adjust (fun _ => rfl) h
        | exact keyCons_adjust (fun _ => rfl) (keyCons_adjust (fun _ => rfl) h))

theorem removeRefs_mget_self (c : Cache) (e : Entry)
    (hp : e.previous ≠ some e.Key) (hn : e.next ≠ some e.Key) :
    mget (c.removeExistingEntryReferences e).entries e.Key =
      (mget c.entries e.Key).map (fun x => { x with next := none, previous := none }) := by
  rw [removeRefs_entries]
  cases hpv : e.previous with
  | none =>
    cases hnv : e.next with
    | none => rw [mget_adjust_self]
    | some n =>
      have hnK : e.Key ≠ n := fun h => hn (by rw [hnv, h])
      rw [mget_adjust_self, mget_adjust_ne _ _ hnK]
  | some p =>
    have hpK : e.Key ≠ p := fun h => hp (by rw [hpv, h])
    cases hnv : e.next with
    | none => rw [mget_adjust_self, mget_adjust_ne _ _ hpK]
    | some n =>
      have hnK : e.Key ≠ n := fun h => hn (by rw [hnv, h])
      rw [mget_adjust_self, mget_adjust_ne _ _ hnK, mget_adjust_ne _ _ hpK]

theorem removeRefs_rep_erase {c : Cache} {ks : List String} {k : String} {e : Entry}
    (h : CacheRep c ks) (hk : k ∈ ks) (hget : mget c.entries k = some e) :
    (c.removeExistingEntryReferences e).tail = (ks.erase k).head? ∧
    (c.removeExistingEntryReferences e).head = (ks.erase k).getLast? ∧
    chainB (c.removeExistingEntryReferences e).entries none (ks.erase k) none = true := by
  obtain ⟨e', he', heK⟩ := h.mget_of_mem hk
  rw [hget] at he'
  injection he' with he'
  subst he'
  subst heK
  obtain ⟨A, B, hAB⟩ := List.append_of_mem hk
  have hnd : ks.Nodup := h.ks_nodup
  have hKA : e.Key ∉ A := by
    rw [hAB] at hnd
    exact fun hmem => (List.nodup_append.mp hnd).2.2 hmem (List.mem_cons_self _ _)
  have herase : ks.erase e.Key = A ++ B := by
    rw [hAB, List.erase_append_right _ hKA, List.erase_cons_head]
  rw [herase]
  exact removeRefs_spec (hAB ▸ hnd) (hAB ▸ h.2.2.2.2.2) (hAB ▸ h.2.2.2.1)
    (hAB ▸ h.2.2.2.2.1) hget

theorem evict_eq {c : Cache} {k : String} {e : Entry}
    (htail : c.tail = some k) (hlen : c.entries.length ≠ 0) (hget : mget c.entries k = some e) :
    c.evict =
      { (if (c.removeExistingEntryReferences e).maxMemoryUsage ≠ NoMaxMemoryUsage then
          { c.removeExistingEntryReferences e with
            entries := mdel (c.removeExistingEntryReferences e).entries e.Key,
            memoryUsage :=
              (c.removeExistingEntryReferences e).memoryUsage - (e.SizeInBytes : Int) }
        else
          { c.removeExistingEntryReferences e with
            entries := mdel (c.removeExistingEntryReferences e).entries e.Key }) with
        stats := { Hits := c.stats.Hits, Misses := c.stats.Misses,
                   EvictedKeys := c.stats.EvictedKeys + 1 } } := by
  have hstats : (c.removeExistingEntryReferences e).stats = c.stats :=
    (removeRefs_frame c e).2.2.2.1
  simp only [Cache.evict, htail, hlen, if_false, hget]
  split_ifs with hmm
  · simp only [hstats]
  · simp only [hstats]

theorem evict_spec {c : Cache} {k : String} {ks' : List String} {e : Entry}
    (h : CacheRep c (k :: ks')) (hget : mget c.entries k = some e) :
    CacheRep c.evict ks' ∧
    sizeSum c.evict.entries = sizeSum c.entries - (e.SizeInBytes : Int) ∧
    c.evict.entries.length + 1 = c.entries.length ∧
    c.evict.memoryUsage =
      (if c.maxMemoryUsage = 0 then c.memoryUsage
       else c.memoryUsage - (e.SizeInBytes : Int)) ∧
    c.evict.maxSize = c.maxSize ∧
    c.evict.maxMemoryUsage = c.maxMemoryUsage ∧
    c.evict.evictionPolicy = c.evictionPolicy ∧
    c.evict.stats.Hits = c.stats.Hits ∧
    c.evict.stats.Misses = c.stats.Misses ∧
    c.evict.stats.EvictedKeys = c.stats.EvictedKeys + 1 := by
  have hkmem : k ∈ k :: ks' := List.mem_cons_self _ _
  obtain ⟨e', he', heK⟩ := h.mget_of_mem hkmem
  rw [hget] at he'
  injection he' with he'
  subst he'
  have htail : c.tail = some k := by
    have := h.2.2.2.1
    simpa using this
  have hlen0 : c.entries.length = ks'.length + 1 := by
    rw [h.length_eq]
    rfl
  have hlen : c.entries.length ≠ 0 := by omega
  have hframe := removeRefs_frame c e
  have hkeys : keysOf (c.removeExistingEntryReferences e).entries = keysOf c.entries :=
    removeRefs_keysOf c e
  have hnd : (keysOf c.entries).Nodup := h.2.1
  have hndres : (keysOf (c.removeExistingEntryReferences e).entries).Nodup := by
    rw [hkeys]; exact hnd
  have hkres : e.Key ∈ keysOf (c.removeExistingEntryReferences e).entries := by
    rw [hkeys, heK]
    exact h.1.mem_iff.mp hkmem
  have hlinks := rep_links_bounds h hkmem hget
  have hmgres : mget (c.removeExistingEntryReferences e).entries e.Key =
      some { e with next := none, previous := none } := by
    rw [removeRefs_mget_self c e (heK ▸ hlinks.1) (heK ▸ hlinks.2), heK, hget]
    simp [heK]
  have hsize : sizeSum (mdel (c.removeExistingEntryReferences e).entries e.Key) =
      sizeSum c.entries - (e.SizeInBytes : Int) := by
    rw [sizeSum_mdel hndres hmgres,
      sizeSum_of_stripPair_eq (removeRefs_strip c e)]
    rfl
  have hrepparts := removeRefs_rep_erase h hkmem hget
  rw [List.erase_cons_head] at hrepparts
  have hchmdel : chainB (mdel (c.removeExistingEntryReferences e).entries e.Key)
      none ks' none = true := by
    rw [chainB_congr (fun x hx => mget_mdel_ne _ (fun hxx => by
      subst hxx
      exact (List.nodup_cons.mp h.ks_nodup).1 (heK ▸ hx)))]
    exact hrepparts.2.2
  have hpermres : ks'.Perm (keysOf (mdel (c.removeExistingEntryReferences e).entries e.Key)) := by
    rw [keysOf_mdel_nodup hndres hkres, hkeys]
    have h1 : (k :: ks').erase k = ks' := List.erase_cons_head _ _
    have := h.1.erase k
    rw [h1] at this
    rw [heK]
    exact this
  have hlenres : (mdel (c.removeExistingEntryReferences e).entries e.Key).length + 1 =
      c.entries.length := by
    have h1 : keysOf (mdel (c.removeExistingEntryReferences e).entries e.Key) =
        (keysOf c.entries).erase e.Key := by rw [keysOf_mdel_nodup hndres hkres, hkeys]
    have h2 : (keysOf c.entries).length = c.entries.length := by simp [keysOf]
    have h3 : (keysOf (mdel (c.removeExistingEntryReferences e).entries e.Key)).length =
        (mdel (c.removeExistingEntryReferences e).entries e.Key).length := by simp [keysOf]
    have h4 : e.Key ∈ keysOf c.entries := by rw [heK]; exact h.1.mem_iff.mp hkmem
    have h5 := List.length_erase_of_mem h4
    have h6 := congrArg List.length h1
    have h7 : 0 < (keysOf c.entries).length := List.length_pos_of_mem h4
    omega
  have hkc : ∀ p ∈ mdel (c.removeExistingEntryReferences e).entries e.Key, p.2.Key = p.1 :=
    keyCons_mdel (removeRefs_keyCons c e h.2.2.1)
  have hndmdel : (keysOf (mdel (c.removeExistingEntryReferences e).entries e.Key)).Nodup := by
    rw [keysOf_mdel_nodup hndres hkres]
    exact hndres.erase _
  rw [evict_eq htail hlen hget]
  by_cases hmem : (c.removeExistingEntryReferences e).maxMemoryUsage ≠ NoMaxMemoryUsage
  · rw [if_pos hmem]
    refine ⟨⟨hpermres, hndmdel, hkc, hrepparts.1, hrepparts.2.1, hchmdel⟩,
      hsize, hlenres, ?_, ?_, ?_, ?_, rfl, rfl, rfl⟩
    · rw [hframe.2.2.2.2]
      rw [hframe.2.1] at hmem
      simp only [NoMaxMemoryUsage] at hmem
      rw [if_neg hmem]
    · exact hframe.1
    · exact hframe.2.1
    · exact hframe.2.2.1
  · rw [if_neg hmem]
    refine ⟨⟨hpermres, hndmdel, hkc, hrepparts.1, hrepparts.2.1, hchmdel⟩,
      hsize, hlenres, ?_, ?_, ?_, ?_, rfl, rfl, rfl⟩
    · rw [hframe.2.2.2.2]
      rw [hframe.2.1] at hmem
      simp only [NoMaxMemoryUsage, not_not] at hmem
      rw [if_pos hmem]
    · exact hframe.1
    · exact hframe.2.1
    · exact hframe.2.2.1

theorem unlink_mdel_rep {c : Cache} {ks : List String} {k : String} {e : Entry}
    (h : CacheRep c ks) (hk : k ∈ ks) (hget : mget c.entries k = some e) (heK : e.Key = k) :
    CacheRep { c.removeExistingEntryReferences e with
      entries := mdel (c.removeExistingEntryReferences e).entries k } (ks.erase k) ∧
    sizeSum (mdel (c.removeExistingEntryReferences e).entries k) =
      sizeSum c.entries - (e.SizeInBytes : Int) ∧
    (mdel (c.removeExistingEntryReferences e).entries k).length + 1 = c.entries.length ∧
    mget (mdel (c.removeExistingEntryReferences e).entries k) k = none := by
  have hkeys : keysOf (c.removeExistingEntryReferences e).entries = keysOf c.entries :=
    removeRefs_keysOf c e
  have hnd : (keysOf c.entries).Nodup := h.2.1
  have hndres : (keysOf (c.removeExistingEntryReferences e).entries).Nodup := by
    rw [hkeys]; exact hnd
  have hkres : k ∈ keysOf (c.removeExistingEntryReferences e).entries := by
    rw [hkeys]
    exact h.1.mem_iff.mp hk
  have hlinks := rep_links_bounds h hk hget
  have hmgres : mget (c.removeExistingEntryReferences e).entries k =
      some { e with next := none, previous := none } := by
    have := removeRefs_mget_self c e (heK ▸ hlinks.1) (heK ▸ hlinks.2)
    rw [heK, hget] at this
    rw [this]
    rfl
  have hsize : sizeSum (mdel (c.removeExistingEntryReferences e).entries k) =
      sizeSum c.entries - (e.SizeInBytes : Int) := by
    rw [sizeSum_mdel hndres hmgres,
      sizeSum_of_stripPair_eq (removeRefs_strip c e)]
    rfl
  have hrepparts := removeRefs_rep_erase h hk hget
  have hchmdel : chainB (mdel (c.removeExistingEntryReferences e).entries k)
      none (ks.erase k) none = true := by
    rw [chainB_congr (fun x hx => mget_mdel_ne _ (fun hxx => by
      subst hxx
      exact ((h.ks_nodup.mem_erase_iff).mp hx).1 rfl))]
    exact hrepparts.2.2
  have hpermres : (ks.erase k).Perm
      (keysOf (mdel (c.removeExistingEntryReferences e).entries k)) := by
    rw [keysOf_mdel_nodup hndres hkres, hkeys]
    exact h.1.erase k
  have hlenres : (mdel (c.removeExistingEntryReferences e).entries k).length + 1 =
      c.entries.length := by
    have h1 : keysOf (mdel (c.removeExistingEntryReferences e).entries k) =
        (keysOf c.entries).erase k := by rw [keysOf_mdel_nodup hndres hkres, hkeys]
    have h2 : (keysOf c.entries).length = c.entries.length := by simp [keysOf]
    have h3 : (keysOf (mdel (c.removeExistingEntryReferences e).entries k)).length =
        (mdel (c.removeExistingEntryReferences e).entries k).length := by simp [keysOf]
    have h4 : k ∈ keysOf c.entries := h.1.mem_iff.mp hk
    have h5 := List.length_erase_of_mem h4
    have h6 := congrArg List.length h1
    have h7 : 0 < (keysOf c.entries).length := List.length_pos_of_mem h4
    omega
  have hkc : ∀ p ∈ mdel (c.removeExistingEntryReferences e).entries k, p.2.Key = p.1 :=
    keyCons_mdel (removeRefs_keyCons c e h.2.2.1)
  have hndmdel : (keysOf (mdel (c.removeExistingEntryReferences e).entries k)).Nodup := by
    rw [keysOf_mdel_nodup hndres hkres]
    exact hndres.erase _
  exact ⟨⟨hpermres, hndmdel, hkc, hrepparts.1, hrepparts.2.1, hchmdel⟩,
    hsize, hlenres, mget_mdel_self _ _⟩

theorem delete_spec {c : Cache} {ks : List String} {k : String} {e : Entry}
    (h : CacheRep c ks) (hk : k ∈ ks) (hget : mget c.entries k = some e) :
    (c.delete k).1 = true ∧
    CacheRep (c.delete k).2 (ks.erase k) ∧
    sizeSum (c.delete k).2.entries = sizeSum c.entries - (e.SizeInBytes : Int) ∧
    (c.delete k).2.entries.length + 1 = c.entries.length ∧
    mget (c.delete k).2.entries k = none ∧
    (c.delete k).2.memoryUsage =
      (if c.maxMemoryUsage = 0 then c.memoryUsage
       else c.memoryUsage - (e.SizeInBytes : Int)) ∧
    (c.delete k).2.maxSize = c.maxSize ∧
    (c.delete k).2.maxMemoryUsage = c.maxMemoryUsage ∧
    (c.delete k).2.evictionPolicy = c.evictionPolicy ∧
    (c.delete k).2.stats = c.stats := by
  obtain ⟨e', he', heK⟩ := h.mget_of_mem hk
  rw [hget] at he'
  injection he' with he'
  subst he'
  by_cases hmem : c.maxMemoryUsage = 0
  · have hcond : ¬(c.maxMemoryUsage ≠ NoMaxMemoryUsage) := by
      simp [NoMaxMemoryUsage, hmem]
    have heq : c.delete k = (true, { c.removeExistingEntryReferences e with
        entries := mdel (c.removeExistingEntryReferences e).entries k }) := by
      simp only [Cache.delete, hget, hcond, if_false, if_neg hcond]
    obtain ⟨hrep, hsize, hlen, hnone⟩ := unlink_mdel_rep h hk hget heK
    have hframe := removeRefs_frame c e
    rw [heq]
    exact ⟨rfl, hrep, hsize, hlen, hnone,
      by simp [hmem, hframe.2.2.2.2],
      hframe.1, hframe.2.1, hframe.2.2.1, hframe.2.2.2.1⟩
  · have hcond : c.maxMemoryUsage ≠ NoMaxMemoryUsage := by
      simp [NoMaxMemoryUsage, hmem]
    have h1 : CacheRep { c with memoryUsage := c.memoryUsage - (e.SizeInBytes : Int) } ks :=
      CacheRep_set_mem.mpr h
    have heq : c.delete k = (true,
        { ({ c with memoryUsage :=
              c.memoryUsage - (e.SizeInBytes : Int) }).removeExistingEntryReferences e with
          entries := mdel (({ c with memoryUsage :=
            c.memoryUsage - (e.SizeInBytes : Int) }).removeExistingEntryReferences e).entries
            k }) := by
      simp only [Cache.delete, hget, if_pos hcond]
    obtain ⟨hrep, hsize, hlen, hnone⟩ := unlink_mdel_rep h1 hk hget heK
    have hframe := removeRefs_frame
      { c with memoryUsage := c.memoryUsage - (e.SizeInBytes : Int) } e
    rw [heq]
    exact ⟨rfl, hrep, hsize, hlen, hnone,
      by simp [hmem, hframe.2.2.2.2],
      hframe.1, hframe.2.1, hframe.2.2.1, hframe.2.2.2.1⟩


theorem strip_adjust_next (m : EMap) (k : String) (v : Option String) :
    (adjust m k fun x => { x with next := v }).map stripPair = m.map stripPair :=
  stripPair_adjust_linkonly (fun _ => rfl)

theorem strip_adjust_prev (m : EMap) (k : String) (v : Option String) :
    (adjust m k fun x => { x with previous := v }).map stripPair = m.map stripPair :=
  stripPair_adjust_linkonly (fun _ => rfl)

theorem strip_adjust_pn (m : EMap) (k : String) (v w : Option String) :
    (adjust m k fun x => { x with previous := v, next := w }).map stripPair = m.map stripPair :=
  stripPair_adjust_linkonly (fun _ => rfl)

theorem keysOf_of_stripPair_eq {m m' : EMap}
    (h : m.map stripPair = m'.map stripPair) : keysOf m = keysOf m' := by
  have h1 : (m.map stripPair).map (·.1) = (m'.map stripPair).map (·.1) := by rw [h]
  simpa [keysOf, List.map_map, Function.comp, stripPair] using h1

theorem singleton_of_rep_both {c : Cache} {ks : List String} {k : String}
    (h : CacheRep c ks) (hhd : c.head = some k) (htl : c.tail = some k) : ks = [k] := by
  have hh : ks.head? = some k := h.2.2.2.1 ▸ htl
  cases ks with
  | nil => simp at hh
  | cons a t =>
    simp only [List.head?_cons, Option.some.injEq] at hh
    subst hh
    cases t with
    | nil => rfl
    | cons b t' =>
      exfalso
      have hl : c.head = (a :: b :: t').getLast? := h.2.2.2.2.1
      rw [getLast?_eq_lastKeyOr, lastKeyOr_cons, lastKeyOr_cons] at hl
      obtain ⟨x, hx, hxmem⟩ := lastKeyOr_mem t' b
      rw [hx, hhd] at hl
      injection hl with hl
      have hnd := h.ks_nodup
      rw [List.nodup_cons] at hnd
      exact hnd.1 (hl ▸ hxmem)

theorem move_spec {c : Cache} {ks : List String} {k : String} {e : Entry}
    (h : CacheRep c ks) (hk : k ∈ ks) (hget : mget c.entries k = some e) :
    CacheRep (c.moveExistingEntryToHead e) (ks.erase k ++ [k]) ∧
    (c.moveExistingEntryToHead e).entries.map stripPair = c.entries.map stripPair ∧
    (c.moveExistingEntryToHead e).maxSize = c.maxSize ∧
    (c.moveExistingEntryToHead e).maxMemoryUsage = c.maxMemoryUsage ∧
    (c.moveExistingEntryToHead e).evictionPolicy = c.evictionPolicy ∧
    (c.moveExistingEntryToHead e).stats = c.stats ∧
    (c.moveExistingEntryToHead e).memoryUsage = c.memoryUsage := by
  obtain ⟨e', he', heK⟩ := h.mget_of_mem hk
  rw [hget] at he'
  injection he' with he'
  subst he'
  subst heK
  by_cases hcond : c.head = some e.Key ∧ c.tail = some e.Key
  · -- sole element of the list: the move is a no-op
    have hks : ks = [e.Key] := singleton_of_rep_both h hcond.1 hcond.2
    subst hks
    have hmove : c.moveExistingEntryToHead e = c := by
      simp [Cache.moveExistingEntryToHead, hcond.1, hcond.2]
    rw [hmove]
    refine ⟨?_, rfl, rfl, rfl, rfl, rfl, rfl⟩
    simpa using h
  · -- unlink, then splice in as the new head
    have hE := removeRefs_rep_erase h hk hget
    set E := ks.erase e.Key with hEdef
    have hkE : e.Key ∉ E := by
      rw [hEdef]
      exact fun hmem => ((h.ks_nodup.mem_erase_iff).mp hmem).1 rfl
    have hEnodup : E.Nodup := h.ks_nodup.erase _
    have hEne : E ≠ [] := by
      intro hEnil
      apply hcond
      have hks : ks = [e.Key] := by
        obtain ⟨A, B, hAB⟩ := List.append_of_mem hk
        have hnd := h.ks_nodup
        have hKA : e.Key ∉ A := by
          rw [hAB] at hnd
          exact fun hmem => (List.nodup_append.mp hnd).2.2 hmem (List.mem_cons_self _ _)
        have hEAB : E = A ++ B := by
          rw [hEdef, hAB, List.erase_append_right _ hKA, List.erase_cons_head]
        rw [hEAB] at hEnil
        obtain ⟨hA, hB⟩ := List.append_eq_nil.mp hEnil
        rw [hAB, hA, hB]
        rfl
      exact ⟨by rw [h.2.2.2.2.1, hks]; simp, by rw [h.2.2.2.1, hks]; simp⟩
    obtain ⟨hd, hhd1⟩ : ∃ hd, E.getLast? = some hd := by
      cases hE' : E.getLast? with
      | none => exact absurd (List.getLast?_eq_none_iff.mp hE') hEne
      | some x => exact ⟨x, rfl⟩
    obtain ⟨E', hEsplit⟩ := List.getLast?_eq_some_iff.mp hhd1
    have hhdE : hd ∈ E := by
      rw [hEsplit]
      exact List.mem_append.mpr (Or.inr (List.mem_cons_self _ _))
    have hhdK : hd ≠ e.Key := fun hh => hkE (hh ▸ hhdE)
    have hc1head : (c.removeExistingEntryReferences e).head = some hd := by
      rw [hE.2.1, hhd1]
    have hc1headne : ¬((c.removeExistingEntryReferences e).head = some e.Key) := by
      rw [hc1head]
      exact fun hh => hhdK (by injection hh)
    have hmove : c.moveExistingEntryToHead e =
        { c.removeExistingEntryReferences e with
          entries := adjust
            (adjust (c.removeExistingEntryReferences e).entries e.Key fun x =>
              { x with previous := some hd, next := none })
            hd fun x => { x with next := some e.Key },
          head := some e.Key } := by
      simp only [Cache.moveExistingEntryToHead]
      rw [if_pos hcond, if_pos (by simpa using hc1headne), hc1head]
    -- facts about the adjusted map
    have hlinks := rep_links_bounds h hk hget
    have hmgc1 : mget (c.removeExistingEntryReferences e).entries e.Key =
        some { e with next := none, previous := none } := by
      have := removeRefs_mget_self c e hlinks.1 hlinks.2
      rw [hget] at this
      rw [this]
      rfl
    set m1 := adjust (c.removeExistingEntryReferences e).entries e.Key fun x =>
      { x with previous := some hd, next := none } with hm1def
    set m2 := adjust m1 hd (fun x => { x with next := some e.Key }) with hm2def
    have hmg2K : mget m2 e.Key = some { e with previous := some hd, next := none } := by
      rw [hm2def, mget_adjust_ne _ _ (fun hh => hhdK hh.symm), hm1def,
        mget_adjust_self, hmgc1]
      rfl
    -- decompose the relinked chain
    have hch1 := hE.2.2
    rw [hEsplit, chainB_append_iff] at hch1
    obtain ⟨hchE', hchhd⟩ := hch1
    rw [chainB_cons_iff] at hchhd
    obtain ⟨hde, hmghd, hhdprev, hhdnext, -⟩ := hchhd
    have hmg2hd : mget m2 hd = some { hde with next := some e.Key } := by
      rw [hm2def, mget_adjust_self, hm1def, mget_adjust_ne _ _ hhdK, hmghd]
      rfl
    have hndE' : hd ∉ E' := by
      rw [hEsplit] at hEnodup
      have := List.nodup_append.mp hEnodup
      exact fun hmem => this.2.2 hmem (List.mem_cons_self _ _)
    have hcongrE' : ∀ y ∈ E', mget m2 y = mget (c.removeExistingEntryReferences e).entries y := by
      intro y hy
      have hyhd : y ≠ hd := fun hh => hndE' (hh ▸ hy)
      have hyK : y ≠ e.Key := fun hh => hkE (hh ▸ (hEsplit ▸ List.mem_append.mpr (Or.inl hy)))
      rw [hm2def, mget_adjust_ne _ _ hyhd, hm1def, mget_adjust_ne _ _ hyK]
    -- the new chain
    have hchnew : chainB m2 none (E ++ [e.Key]) none = true := by
      rw [chainB_append_iff]
      constructor
      · rw [hEsplit, chainB_append_iff]
        constructor
        · rw [chainB_congr hcongrE']
          simpa using hchE'
        · rw [chainB_cons_iff]
          refine ⟨{ hde with next := some e.Key }, hmg2hd, ?_, ?_, by simp⟩
          · simpa using hhdprev
          · simp
      · rw [chainB_cons_iff]
        have hlast : lastKeyOr E none = some hd := by
          rw [← getLast?_eq_lastKeyOr, hhd1]
        exact ⟨{ e with previous := some hd, next := none }, hmg2K,
          by simp [hlast], by simp, by simp⟩
      -- note: after := some e.Key is resolved by the headKeyOr computations above
    -- assemble the representation
    have hstrip : m2.map stripPair = c.entries.map stripPair := by
      rw [hm2def, strip_adjust_next, hm1def, strip_adjust_pn]
      exact removeRefs_strip c e
    have hkeys2 : keysOf m2 = keysOf c.entries := by
      rw [hm2def, keysOf_adjust, hm1def, keysOf_adjust]
      exact removeRefs_keysOf c e
    have hperm : (E ++ [e.Key]).Perm (keysOf m2) := by
      rw [hkeys2]
      have s1 : (E ++ [e.Key]).Perm (e.Key :: E) := List.perm_append_singleton _ _
      have s2 : (e.Key :: E).Perm ks := (List.perm_cons_erase hk).symm
      exact (s1.trans s2).trans h.1
    have hkc2 : ∀ p ∈ m2, p.2.Key = p.1 := by
      rw [hm2def]
      exact keyCons_adjust (fun _ => rfl) (by
        rw [hm1def]
        exact keyCons_adjust (fun _ => rfl) (removeRefs_keyCons c e h.2.2.1))
    have hframec1 := removeRefs_frame c e
    rw [hmove]
    refine ⟨⟨hperm, by rw [hkeys2]; exact h.2.1, hkc2, ?_, ?_, hchnew⟩,
      hstrip, hframec1.1, hframec1.2.1, hframec1.2.2.1, hframec1.2.2.2.1,
      hframec1.2.2.2.2⟩
    · show (c.removeExistingEntryReferences e).tail = (E ++ [e.Key]).head?
      rw [hE.1, head?_append_cons, head?_eq_headKeyOr]
      exact headKeyOr_irrel hEne _ _
    · show some e.Key = (E ++ [e.Key]).getLast?
      rw [List.getLast?_concat]

/-! ### Invariant bundle and the eviction loops -/

theorem CacheRep.adjust_linkless {c : Cache} {ks : List String} (h : CacheRep c ks)
    (k : String) {f : Entry → Entry}
    (hKey : ∀ x, (f x).Key = x.Key)
    (hprev : ∀ x, (f x).previous = x.previous)
    (hnext : ∀ x, (f x).next = x.next) :
    CacheRep { c with entries := adjust c.entries k f } ks := by
  obtain ⟨hperm, hnd, hkc, htl, hhd, hch⟩ := h
  refine ⟨by simpa using hperm, by simpa using hnd, keyCons_adjust hKey hkc, htl, hhd, ?_⟩
  rw [chainB_congr_links _ none none]
  · exact hch
  · intro x _
    by_cases hxk : x = k
    · subst hxk
      rw [mget_adjust_self]
      cases mget c.entries x <;> simp [linkEq, hprev, hnext]
    · rw [mget_adjust_ne _ _ hxk]
      cases mget c.entries x <;> simp [linkEq]

theorem evict_noop {c : Cache} (h : c.tail = none) : c.evict = c := by
  simp [Cache.evict, h]

/-- The state invariant maintained by every data operation: a well-formed
recency list, normalized non-negative caps, the entry-count bound, and
exact memory accounting while the memory bound is active. -/
def Inv (c : Cache) : Prop :=
  (∃ ks, CacheRep c ks) ∧
  0 ≤ c.maxSize ∧ 0 ≤ c.maxMemoryUsage ∧
  (c.maxSize ≠ 0 → (c.entries.length : Int) ≤ c.maxSize) ∧
  (c.maxMemoryUsage ≠ 0 → c.memoryUsage = sizeSum c.entries)

theorem rep_nonempty_head {c : Cache} {ks : List String} (h : CacheRep c ks)
    (hne : ks ≠ []) : ∃ k ks' e, ks = k :: ks' ∧ mget c.entries k = some e := by
  cases ks with
  | nil => exact absurd rfl hne
  | cons k ks' =>
    obtain ⟨e, he, -⟩ := h.mget_of_mem (List.mem_cons_self k ks')
    exact ⟨k, ks', e, rfl, he⟩

theorem evictMemLoop_spec : ∀ (fuel : Nat) (c : Cache) (n : Nat),
    (∃ ks, CacheRep c ks) →
    (c.maxMemoryUsage ≠ 0 → c.memoryUsage = sizeSum c.entries) →
    (∃ ks, CacheRep (evictMemLoopCount c n fuel).1 ks) ∧
    ((evictMemLoopCount c n fuel).1.maxMemoryUsage ≠ 0 →
      (evictMemLoopCount c n fuel).1.memoryUsage =
        sizeSum (evictMemLoopCount c n fuel).1.entries) ∧
    (evictMemLoopCount c n fuel).1.entries.length ≤ c.entries.length ∧
    (evictMemLoopCount c n fuel).1.maxSize = c.maxSize ∧
    (evictMemLoopCount c n fuel).1.maxMemoryUsage = c.maxMemoryUsage ∧
    (evictMemLoopCount c n fuel).1.evictionPolicy = c.evictionPolicy := by
  intro fuel
  induction fuel with
  | zero => exact fun c n hrep hmem => ⟨hrep, hmem, Nat.le_refl _, rfl, rfl, rfl⟩
  | succ fuel ih =>
    intro c n hrep hmem
    by_cases hcond : c.memoryUsage > c.maxMemoryUsage ∧ c.entries.length > 0
    · obtain ⟨ks, hks⟩ := hrep
      have hne : ks ≠ [] := by
        intro hnil
        have hlen := hks.length_eq
        rw [hnil, List.length_nil] at hlen
        have hpos := hcond.2
        omega
      obtain ⟨k, ks', e, rfl, hget⟩ := rep_nonempty_head hks hne
      have hev := evict_spec hks hget
      have hstep : evictMemLoopCount c n (fuel + 1) =
          evictMemLoopCount c.evict (n + 1) fuel := by
        simp only [evictMemLoopCount, if_pos hcond]
      rw [hstep]
      have hmem' : c.evict.maxMemoryUsage ≠ 0 →
          c.evict.memoryUsage = sizeSum c.evict.entries := by
        intro hb
        rw [hev.2.2.2.2.2.1] at hb
        rw [hev.2.2.2.1, if_neg hb, hev.2.1, hmem hb]
      obtain ⟨a1, a2, a3, a4, a5, a6⟩ := ih c.evict (n + 1) ⟨ks', hev.1⟩ hmem'
      refine ⟨a1, a2, ?_, ?_, ?_, ?_⟩
      · have := hev.2.2.1
        omega
      · rw [a4, hev.2.2.2.2.1]
      · rw [a5, hev.2.2.2.2.2.1]
      · rw [a6, hev.2.2.2.2.2.2.1]
    · have hstep : evictMemLoopCount c n (fuel + 1) = (c, n) := by
        simp only [evictMemLoopCount, if_neg hcond]
      rw [hstep]
      exact ⟨hrep, hmem, Nat.le_refl _, rfl, rfl, rfl⟩

theorem setFinish_spec {c : Cache} {ks : List String} (key : String) (ttl : Int) (now : Nat)
    (h : CacheRep c ks)
    (hms : 0 ≤ c.maxSize)
    (hmemOK : c.maxMemoryUsage ≠ 0 → c.memoryUsage = sizeSum c.entries)
    (hlen : c.maxSize ≠ 0 → (c.entries.length : Int) ≤ c.maxSize + 1) :
    (∃ ks', CacheRep (c.setFinish key ttl now) ks') ∧
    ((c.setFinish key ttl now).maxSize ≠ 0 →
      ((c.setFinish key ttl now).entries.length : Int) ≤ (c.setFinish key ttl now).maxSize) ∧
    ((c.setFinish key ttl now).maxMemoryUsage ≠ 0 →
      (c.setFinish key ttl now).memoryUsage = sizeSum (c.setFinish key ttl now).entries) ∧
    (c.setFinish key ttl now).maxSize = c.maxSize ∧
    (c.setFinish key ttl now).maxMemoryUsage = c.maxMemoryUsage ∧
    (c.setFinish key ttl now).evictionPolicy = c.evictionPolicy := by
  have hrep1 : CacheRep { c with entries := adjust c.entries key fun e =>
      { e with Expiration := if ttl ≠ NoExpiration then (now : Int) + ttl else NoExpiration } }
      ks :=
    h.adjust_linkless key (fun _ => rfl) (fun _ => rfl) (fun _ => rfl)
  set c1 : Cache := { c with entries := adjust c.entries key fun e =>
    { e with Expiration := if ttl ≠ NoExpiration then (now : Int) + ttl else NoExpiration } }
    with hc1def
  have hlen1 : c1.entries.length = c.entries.length := by
    rw [hc1def]
    simp [adjust]
  have hsize1 : sizeSum c1.entries = sizeSum c.entries := by
    rw [hc1def]
    exact sizeSum_adjust (fun e =>
      { e with Expiration := if ttl ≠ NoExpiration then (now : Int) + ttl else NoExpiration })
      (fun _ => rfl)
  have hmem1 : c1.maxMemoryUsage ≠ 0 → c1.memoryUsage = sizeSum c1.entries := by
    intro hb
    rw [hsize1]
    exact hmemOK hb
  have hcs : c1.maxSize = c.maxSize := rfl
  have hcm : c1.maxMemoryUsage = c.maxMemoryUsage := rfl
  have hsf : c.setFinish key ttl now =
      (if c1.maxSize = 0 ∧ c1.maxMemoryUsage = 0 then c1
       else if c1.maxSize ≠ 0 ∧ (c1.entries.length : Int) > c1.maxSize then
        (if c1.evict.maxMemoryUsage ≠ 0 ∧
            c1.evict.memoryUsage > c1.evict.maxMemoryUsage then
          (evictMemLoopCount c1.evict 0 c1.evict.entries.length).1
        else c1.evict)
       else
        (if c1.maxMemoryUsage ≠ 0 ∧ c1.memoryUsage > c1.maxMemoryUsage then
          (evictMemLoopCount c1 0 c1.entries.length).1
        else c1)) := by
    simp only [Cache.setFinish, hc1def, NoMaxSize, NoMaxMemoryUsage]
    split_ifs <;> rfl
  rw [hsf]
  split_ifs with hP hQ hR hR'
  · -- both bounds disabled
    refine ⟨⟨ks, hrep1⟩, ?_, ?_, rfl, rfl, rfl⟩
    · intro hb
      rw [hcs] at hP
      exact absurd hP.1 (by rw [← hcs] at hb ⊢; exact hb)
    · intro hb
      exact absurd hP.2 (by exact hb)
  · -- size eviction, then memory loop
    have hkne : ks ≠ [] := by
      intro hnil
      have hl := hrep1.length_eq
      rw [hnil, List.length_nil] at hl
      have h2 := hQ.2
      rw [hl] at h2
      have h3 : (0 : Int) ≤ c1.maxSize := hms
      omega
    obtain ⟨k, ks', e, rfl, hget⟩ := rep_nonempty_head hrep1 hkne
    have hev := evict_spec hrep1 hget
    have hloop := evictMemLoop_spec c1.evict.entries.length c1.evict 0 ⟨ks', hev.1⟩
      (by
        intro hb
        rw [hev.2.2.2.2.2.1] at hb
        rw [hev.2.2.2.1, if_neg hb, hev.2.1, hmem1 hb])
    refine ⟨hloop.1, ?_, hloop.2.1, ?_, ?_, ?_⟩
    · intro hb
      rw [hloop.2.2.2.1, hev.2.2.2.2.1] at hb ⊢
      have hb' : c.maxSize ≠ 0 := by rw [← hcs]; exact hb
      have hle := hlen hb'
      have hlen2 := hev.2.2.1
      have hlenloop := hloop.2.2.1
      have hq2 := hQ.2
      rw [hcs] at hq2 ⊢
      omega
    · rw [hloop.2.2.2.1, hev.2.2.2.2.1, hcs]
    · rw [hloop.2.2.2.2.1, hev.2.2.2.2.2.1, hcm]
    · rw [hloop.2.2.2.2.2, hev.2.2.2.2.2.2.1]
  · -- size eviction, no memory loop
    have hkne : ks ≠ [] := by
      intro hnil
      have hl := hrep1.length_eq
      rw [hnil, List.length_nil] at hl
      have h2 := hQ.2
      rw [hl] at h2
      have h3 : (0 : Int) ≤ c1.maxSize := hms
      omega
    obtain ⟨k, ks', e, rfl, hget⟩ := rep_nonempty_head hrep1 hkne
    have hev := evict_spec hrep1 hget
    refine ⟨⟨ks', hev.1⟩, ?_, ?_, ?_, ?_, hev.2.2.2.2.2.2.1⟩
    · intro hb
      rw [hev.2.2.2.2.1] at hb ⊢
      have hb' : c.maxSize ≠ 0 := by rw [← hcs]; exact hb
      have hle := hlen hb'
      have hlen2 := hev.2.2.1
      have hq2 := hQ.2
      rw [hcs] at hq2 ⊢
      omega
    · intro hb
      rw [hev.2.2.2.2.2.1] at hb
      rw [hev.2.2.2.1, if_neg hb, hev.2.1, hmem1 hb]
    · rw [hev.2.2.2.2.1, hcs]
    · rw [hev.2.2.2.2.2.1, hcm]
  · -- no size eviction, memory loop
    have hloop := evictMemLoop_spec c1.entries.length c1 0 ⟨ks, hrep1⟩ hmem1
    refine ⟨hloop.1, ?_, hloop.2.1, ?_, ?_, ?_⟩
    · intro hb
      rw [hloop.2.2.2.1] at hb ⊢
      have hnq : ¬((c1.entries.length : Int) > c1.maxSize) := fun hgt => hQ ⟨hb, hgt⟩
      have hlenloop := hloop.2.2.1
      omega
    · rw [hloop.2.2.2.1, hcs]
    · rw [hloop.2.2.2.2.1, hcm]
    · rw [hloop.2.2.2.2.2]
  · -- nothing to evict
    refine ⟨⟨ks, hrep1⟩, ?_, hmem1, rfl, rfl, rfl⟩
    intro hb
    exact le_of_not_lt (fun hgt => hQ ⟨hb, hgt⟩)


/-! ### Invariant preservation for the public operations -/

theorem SetWithTTL_inv {c : Cache} (key : String) (value : GoValue) (ttl : Int) (now : Nat)
    (h : Inv c) :
    Inv (c.SetWithTTL key value ttl now) ∧
    (c.SetWithTTL key value ttl now).maxSize = c.maxSize ∧
    (c.SetWithTTL key value ttl now).maxMemoryUsage = c.maxMemoryUsage ∧
    (c.SetWithTTL key value ttl now).evictionPolicy = c.evictionPolicy := by
  obtain ⟨⟨ks, hrep⟩, hms, hmm, hbound, hmemOK⟩ := h
  cases hga : mget c.entries key with
  | none =>
    by_cases httl : ttl ≠ NoExpiration ∧ ttl < 0
    · have heq : c.SetWithTTL key value ttl now = c := by
        simp only [Cache.SetWithTTL, hga, if_pos httl]
      rw [heq]
      exact ⟨⟨⟨ks, hrep⟩, hms, hmm, hbound, hmemOK⟩, rfl, rfl, rfl⟩
    · have hknotkeys : key ∉ keysOf c.entries := by
        intro hm
        obtain ⟨e, he⟩ := mget_isSome_of_mem hm
        rw [hga] at he
        exact Option.noConfusion he
      have hkabs : key ∉ ks := fun hmemk => hknotkeys (hrep.1.mem_iff.mp hmemk)
      cases hh : c.head with
      | none =>
        -- the list is empty: the new entry becomes head and tail
        have hks0 : ks = [] := by
          have hgl := hrep.2.2.2.2.1
          rw [hh] at hgl
          exact List.getLast?_eq_none_iff.mp hgl.symm
        have hkeysnil : keysOf c.entries = [] := by
          have hp := hrep.1.symm
          rw [hks0] at hp
          exact hp.eq_nil
        have hent : c.entries = [] := by
          cases hcE : c.entries with
          | nil => rfl
          | cons p r => rw [hcE] at hkeysnil; simp at hkeysnil
        have heq : c.SetWithTTL key value ttl now =
            (if c.maxMemoryUsage ≠ NoMaxMemoryUsage then
              { c with
                tail := some key
                head := some key
                entries := mset c.entries key
                  { Key := key, Value := value, RelevantTimestamp := now, Expiration := 0, previous := none, next := none }
                memoryUsage := c.memoryUsage +
                  (({ Key := key, Value := value, RelevantTimestamp := now, Expiration := 0, previous := none, next := none } : Entry).SizeInBytes : Int) }
            else
              { c with
                tail := some key
                head := some key
                entries := mset c.entries key
                  { Key := key, Value := value, RelevantTimestamp := now, Expiration := 0, previous := none, next := none } }).setFinish key ttl now := by
          simp only [Cache.SetWithTTL, hga, if_neg httl, hh]
          all_goals try dsimp only
          all_goals (split_ifs <;> rfl)
        have hrepb : ∀ (mu : Int), CacheRep
            { c with
              tail := some key
              head := some key
              entries := mset c.entries key
                { Key := key, Value := value, RelevantTimestamp := now, Expiration := 0, previous := none, next := none }
              memoryUsage := mu } [key] := by
          intro mu
          rw [hent]
          refine ⟨List.Perm.refl _, by simp [mset], ?_, rfl, rfl, ?_⟩
          · intro p hp
            simp only [mset, List.mem_singleton] at hp
            subst hp
            rfl
          · simp [chainB, mset, mget]
        have hsizeb : sizeSum (mset c.entries key
            { Key := key, Value := value, RelevantTimestamp := now, Expiration := 0, previous := none, next := none }) =
            sizeSum c.entries + (({ Key := key, Value := value, RelevantTimestamp := now, Expiration := 0, previous := none, next := none } : Entry).SizeInBytes : Int) :=
          sizeSum_mset_of_not_mem _ hknotkeys
        have hlenb : (mset c.entries key
            { Key := key, Value := value, RelevantTimestamp := now, Expiration := 0, previous := none, next := none }).length = c.entries.length + 1 := by
          rw [mset_append_of_not_mem _ hknotkeys]
          simp
        rw [heq]
        split_ifs with hmemb
        · have hsfs := setFinish_spec key ttl now (hrepb (c.memoryUsage +
            (({ Key := key, Value := value, RelevantTimestamp := now, Expiration := 0, previous := none, next := none } : Entry).SizeInBytes : Int))) hms
            (by
              intro hb
              have hmu : c.memoryUsage = sizeSum c.entries :=
                hmemOK (by simpa [NoMaxMemoryUsage] using hmemb)
              dsimp only
              rw [hsizeb, ← hmu])
            (by
              intro hb
              dsimp only at hb ⊢
              rw [hlenb]
              have := hbound hb
              push_cast
              omega)
          refine ⟨⟨hsfs.1, ?_, ?_, hsfs.2.1, hsfs.2.2.1⟩, ?_, ?_, ?_⟩
          · rw [hsfs.2.2.2.1]; exact hms
          · rw [hsfs.2.2.2.2.1]; exact hmm
          · rw [hsfs.2.2.2.1]
          · rw [hsfs.2.2.2.2.1]
          · rw [hsfs.2.2.2.2.2]
        · have hsfs := setFinish_spec key ttl now (hrepb c.memoryUsage) hms
            (by
              intro hb
              dsimp only at hb
              exact absurd (by simpa [NoMaxMemoryUsage] using hmemb) (by exact fun hz => hb hz))
            (by
              intro hb
              dsimp only at hb ⊢
              rw [hlenb]
              have := hbound hb
              push_cast
              omega)
          refine ⟨⟨hsfs.1, ?_, ?_, hsfs.2.1, hsfs.2.2.1⟩, ?_, ?_, ?_⟩
          · rw [hsfs.2.2.2.1]; exact hms
          · rw [hsfs.2.2.2.2.1]; exact hmm
          · rw [hsfs.2.2.2.1]
          · rw [hsfs.2.2.2.2.1]
          · rw [hsfs.2.2.2.2.2]
      | some hd =>
        -- nonempty list: link behind the current head
        have hgl : ks.getLast? = some hd := by
          have hx := hrep.2.2.2.2.1
          rw [hh] at hx
          exact hx.symm
        obtain ⟨ks0, hks⟩ := List.getLast?_eq_some_iff.mp hgl
        have hkne : ks ≠ [] := by rw [hks]; simp
        have hhdks : hd ∈ ks := by rw [hks]; exact List.mem_append.mpr (Or.inr (by simp))
        have hhdkey : hd ≠ key := fun hx => hkabs (hx ▸ hhdks)
        obtain ⟨hde, hmghd, -⟩ := hrep.mget_of_mem hhdks
        have hch := hrep.2.2.2.2.2
        rw [hks, chainB_append_iff] at hch
        obtain ⟨hch0, hchhd⟩ := hch
        rw [chainB_cons_iff] at hchhd
        obtain ⟨hde', hmghd', hhdprev, hhdnext, -⟩ := hchhd
        rw [hmghd] at hmghd'
        injection hmghd' with hmghd'
        subst hmghd'
        have hndks0 : hd ∉ ks0 := by
          have hnd := hrep.ks_nodup
          rw [hks] at hnd
          exact fun hmem => (List.nodup_append.mp hnd).2.2 hmem (List.mem_cons_self _ _)
        have hknotadj : key ∉ keysOf (adjust c.entries hd fun x =>
            { x with next := some key }) := by
          rw [keysOf_adjust]
          exact hknotkeys
        have heq : c.SetWithTTL key value ttl now =
            (if c.maxMemoryUsage ≠ NoMaxMemoryUsage then
              { c with
                head := some key
                entries := mset (adjust c.entries hd fun e => { e with next := some key }) key
                  { Key := key, Value := value, RelevantTimestamp := now, Expiration := 0, previous := some hd, next := none }
                memoryUsage := c.memoryUsage +
                  (({ Key := key, Value := value, RelevantTimestamp := now, Expiration := 0, previous := some hd, next := none } : Entry).SizeInBytes : Int) }
            else
              { c with
                head := some key
                entries := mset (adjust c.entries hd fun e => { e with next := some key }) key
                  { Key := key, Value := value, RelevantTimestamp := now, Expiration := 0, previous := some hd, next := none } }).setFinish key ttl now := by
          simp only [Cache.SetWithTTL, hga, if_neg httl, hh]
          all_goals try dsimp only
          all_goals (split_ifs <;> rfl)
        have hrepb : ∀ (mu : Int), CacheRep
            { c with
              head := some key
              entries := mset (adjust c.entries hd fun e => { e with next := some key }) key
                { Key := key, Value := value, RelevantTimestamp := now, Expiration := 0, previous := some hd, next := none }
              memoryUsage := mu } (ks ++ [key]) := by
          intro mu
          refine ⟨?_, ?_, ?_, ?_, ?_, ?_⟩
          · show (ks ++ [key]).Perm (keysOf (mset _ key _))
            rw [mset_append_of_not_mem _ hknotadj, keysOf_append, keysOf_adjust]
            exact hrep.1.append (List.Perm.refl _)
          · show (keysOf (mset _ key _)).Nodup
            rw [mset_append_of_not_mem _ hknotadj, keysOf_append, keysOf_adjust]
            refine List.nodup_append.mpr ⟨hrep.2.1, by simp, ?_⟩
            intro x hx hxk
            simp only [keysOf_cons, keysOf_nil, List.mem_singleton] at hxk
            subst hxk
            exact hknotkeys hx
          · intro p hp
            rw [mset_append_of_not_mem _ hknotadj] at hp
            rcases List.mem_append.mp hp with hp | hp
            · exact keyCons_adjustF (fun e => { e with next := some key })
                (fun _ => rfl) hrep.2.2.1 p hp
            · simp only [List.mem_singleton] at hp
              subst hp
              rfl
          · show c.tail = (ks ++ [key]).head?
            rw [hrep.2.2.2.1, head?_eq_headKeyOr, head?_append_cons]
            exact headKeyOr_irrel hkne _ _
          · show some key = (ks ++ [key]).getLast?
            rw [List.getLast?_concat]
          · show chainB (mset (adjust c.entries hd fun e => { e with next := some key }) key
                { Key := key, Value := value, RelevantTimestamp := now, Expiration := 0, previous := some hd, next := none }) none (ks ++ [key]) none = true
            have hmnew : ∀ (x : String), x ≠ key →
                mget (mset (adjust c.entries hd fun e => { e with next := some key }) key
                  { Key := key, Value := value, RelevantTimestamp := now, Expiration := 0, previous := some hd, next := none }) x =
                mget (adjust c.entries hd fun e => { e with next := some key }) x :=
              fun x hx => mget_mset_ne _ _ hx
            rw [chainB_append_iff]
            constructor
            · rw [hks, chainB_append_iff]
              constructor
              · have hcongr : ∀ y ∈ ks0,
                    mget (mset (adjust c.entries hd fun e => { e with next := some key }) key
                      { Key := key, Value := value, RelevantTimestamp := now, Expiration := 0, previous := some hd, next := none }) y = mget c.entries y := by
                  intro y hy
                  have hyk : y ≠ key := fun hx =>
                    hkabs (hx ▸ (hks ▸ List.mem_append.mpr (Or.inl hy)))
                  have hyhd : y ≠ hd := fun hx => hndks0 (hx ▸ hy)
                  rw [hmnew y hyk, mget_adjust_ne _ _ hyhd]
                rw [chainB_congr hcongr]
                simpa using hch0
              · rw [chainB_cons_iff]
                refine ⟨{ hde with next := some key }, ?_, by simpa using hhdprev, by simp, by simp⟩
                rw [hmnew hd hhdkey, mget_adjust_self, hmghd]
                rfl
            · have hlast : lastKeyOr ks none = some hd := by
                rw [← getLast?_eq_lastKeyOr, hgl]
              rw [chainB_cons_iff]
              exact ⟨_, mget_mset_self _ _ _, by simp [hlast], by simp, by simp⟩
        have hsizeb : sizeSum (mset (adjust c.entries hd fun e => { e with next := some key }) key
            { Key := key, Value := value, RelevantTimestamp := now, Expiration := 0, previous := some hd, next := none }) =
            sizeSum c.entries + (({ Key := key, Value := value, RelevantTimestamp := now, Expiration := 0, previous := some hd, next := none } : Entry).SizeInBytes : Int) := by
          rw [sizeSum_mset_of_not_mem _ hknotadj,
            sizeSum_adjust (fun e => { e with next := some key }) (fun _ => rfl)]
        have hlenb : (mset (adjust c.entries hd fun e => { e with next := some key }) key
            { Key := key, Value := value, RelevantTimestamp := now, Expiration := 0, previous := some hd, next := none }).length = c.entries.length + 1 := by
          rw [mset_append_of_not_mem _ hknotadj]
          simp [adjust]
        rw [heq]
        split_ifs with hmemb
        · have hsfs := setFinish_spec key ttl now (hrepb (c.memoryUsage +
            (({ Key := key, Value := value, RelevantTimestamp := now, Expiration := 0, previous := some hd, next := none } : Entry).SizeInBytes : Int))) hms
            (by
              intro hb
              have hmu : c.memoryUsage = sizeSum c.entries :=
                hmemOK (by simpa [NoMaxMemoryUsage] using hmemb)
              dsimp only
              rw [hsizeb, ← hmu])
            (by
              intro hb
              dsimp only at hb ⊢
              rw [hlenb]
              have := hbound hb
              push_cast
              omega)
          refine ⟨⟨hsfs.1, ?_, ?_, hsfs.2.1, hsfs.2.2.1⟩, ?_, ?_, ?_⟩
          · rw [hsfs.2.2.2.1]; exact hms
          · rw [hsfs.2.2.2.2.1]; exact hmm
          · rw [hsfs.2.2.2.1]
          · rw [hsfs.2.2.2.2.1]
          · rw [hsfs.2.2.2.2.2]
        · have hsfs := setFinish_spec key ttl now (hrepb c.memoryUsage) hms
            (by
              intro hb
              dsimp only at hb
              exact absurd (by simpa [NoMaxMemoryUsage] using hmemb) (fun hz => hb hz))
            (by
              intro hb
              dsimp only at hb ⊢
              rw [hlenb]
              have := hbound hb
              push_cast
              omega)
          refine ⟨⟨hsfs.1, ?_, ?_, hsfs.2.1, hsfs.2.2.1⟩, ?_, ?_, ?_⟩
          · rw [hsfs.2.2.2.1]; exact hms
          · rw [hsfs.2.2.2.2.1]; exact hmm
          · rw [hsfs.2.2.2.1]
          · rw [hsfs.2.2.2.2.1]
          · rw [hsfs.2.2.2.2.2]
  | some entry0 =>
    -- update path: replace the value, promote, then enforce the bounds
    have hkmem : key ∈ ks := hrep.1.mem_iff.mpr (mem_keysOf_of_mget hga)
    have heq : c.SetWithTTL key value ttl now =
        Cache.setFinish
          (Cache.moveExistingEntryToHead
            (if c.maxMemoryUsage ≠ NoMaxMemoryUsage then
              { c with
                entries := adjust c.entries key fun x => { x with Value := value }
                memoryUsage := c.memoryUsage - (entry0.SizeInBytes : Int) +
                  (({ entry0 with Value := value } : Entry).SizeInBytes : Int) }
            else
              { c with entries := adjust c.entries key fun x => { x with Value := value } })
            { entry0 with Value := value }) key ttl now := by
      simp only [Cache.SetWithTTL, hga]
      all_goals try dsimp only
      all_goals (split_ifs <;> rfl)
    have hlenadj : (adjust c.entries key fun x => { x with Value := value }).length =
        c.entries.length := by
      simp [adjust]
    have hsizeadj : sizeSum (adjust c.entries key fun x => { x with Value := value }) =
        sizeSum c.entries - (entry0.SizeInBytes : Int) +
          (({ entry0 with Value := value } : Entry).SizeInBytes : Int) :=
      sizeSum_adjust_value _ hrep.2.1 hga
    rw [heq]
    split_ifs with hmemb
    · have hrepb : CacheRep
          { c with
            entries := adjust c.entries key fun x => { x with Value := value }
            memoryUsage := c.memoryUsage - (entry0.SizeInBytes : Int) +
              (({ entry0 with Value := value } : Entry).SizeInBytes : Int) } ks :=
        hrep.adjust_linkless key (fun _ => rfl) (fun _ => rfl) (fun _ => rfl)
      have hmgb : mget (adjust c.entries key fun x => { x with Value := value }) key =
          some { entry0 with Value := value } := by
        rw [mget_adjust_self, hga]
        rfl
      have hmv := move_spec hrepb hkmem hmgb
      have hlmv : (({ c with
          entries := adjust c.entries key fun x => { x with Value := value }
          memoryUsage := c.memoryUsage - (entry0.SizeInBytes : Int) +
            (({ entry0 with Value := value } : Entry).SizeInBytes : Int) }
          ).moveExistingEntryToHead { entry0 with Value := value }).entries.length =
          c.entries.length := by
        have h1 := hmv.1.length_eq
        have h2 := hrep.length_eq
        have h3 := List.length_erase_of_mem hkmem
        have h4 := List.length_pos_of_mem hkmem
        rw [h1]
        simp only [List.length_append, List.length_cons, List.length_nil]
        omega
      have hsfs := setFinish_spec key ttl now hmv.1
        (by rw [hmv.2.2.1]; exact hms)
        (by
          intro hb
          rw [hmv.2.2.2.1] at hb
          dsimp only at hb
          rw [hmv.2.2.2.2.2.2, sizeSum_of_stripPair_eq hmv.2.1]
          dsimp only
          rw [hsizeadj]
          have hmu : c.memoryUsage = sizeSum c.entries := hmemOK hb
          rw [hmu])
        (by
          intro hb
          rw [hmv.2.2.1] at hb
          dsimp only at hb
          rw [hlmv, hmv.2.2.1]
          dsimp only
          have := hbound hb
          omega)
      refine ⟨⟨hsfs.1, ?_, ?_, hsfs.2.1, hsfs.2.2.1⟩, ?_, ?_, ?_⟩
      · rw [hsfs.2.2.2.1, hmv.2.2.1]; exact hms
      · rw [hsfs.2.2.2.2.1, hmv.2.2.2.1]; exact hmm
      · rw [hsfs.2.2.2.1, hmv.2.2.1]
      · rw [hsfs.2.2.2.2.1, hmv.2.2.2.1]
      · rw [hsfs.2.2.2.2.2, hmv.2.2.2.2.1]
    · have hrepb : CacheRep
          { c with entries := adjust c.entries key fun x => { x with Value := value } } ks :=
        hrep.adjust_linkless key (fun _ => rfl) (fun _ => rfl) (fun _ => rfl)
      have hmgb : mget (adjust c.entries key fun x => { x with Value := value }) key =
          some { entry0 with Value := value } := by
        rw [mget_adjust_self, hga]
        rfl
      have hmv := move_spec hrepb hkmem hmgb
      have hlmv : (({ c with entries := adjust c.entries key fun x =>
          { x with Value := value } }).moveExistingEntryToHead
          { entry0 with Value := value }).entries.length = c.entries.length := by
        have h1 := hmv.1.length_eq
        have h2 := hrep.length_eq
        have h3 := List.length_erase_of_mem hkmem
        have h4 := List.length_pos_of_mem hkmem
        rw [h1]
        simp only [List.length_append, List.length_cons, List.length_nil]
        omega
      have hsfs := setFinish_spec key ttl now hmv.1
        (by rw [hmv.2.2.1]; exact hms)
        (by
          intro hb
          rw [hmv.2.2.2.1] at hb
          dsimp only at hb
          exact absurd (by simpa [NoMaxMemoryUsage] using hmemb) (fun hz => hb hz))
        (by
          intro hb
          rw [hmv.2.2.1] at hb
          dsimp only at hb
          rw [hlmv, hmv.2.2.1]
          dsimp only
          have := hbound hb
          omega)
      refine ⟨⟨hsfs.1, ?_, ?_, hsfs.2.1, hsfs.2.2.1⟩, ?_, ?_, ?_⟩
      · rw [hsfs.2.2.2.1, hmv.2.2.1]; exact hms
      · rw [hsfs.2.2.2.2.1, hmv.2.2.2.1]; exact hmm
      · rw [hsfs.2.2.2.1, hmv.2.2.1]
      · rw [hsfs.2.2.2.2.1, hmv.2.2.2.1]
      · rw [hsfs.2.2.2.2.2, hmv.2.2.2.2.1]

/-! ### Lookups through stripping, decode-merge, and the timestamp sort -/

theorem mget_of_mem_nodup {m : EMap} {k : String} {e : Entry}
    (hmem : (k, e) ∈ m) (hnd : (keysOf m).Nodup) : mget m k = some e := by
  induction m with
  | nil => cases hmem
  | cons p rest ih =>
    simp only [keysOf_cons, List.nodup_cons] at hnd
    rcases List.mem_cons.mp hmem with hp | hp
    · rw [← hp]
      simp [mget]
    · have hk : k ∈ keysOf rest := List.mem_map.mpr ⟨(k, e), hp, rfl⟩
      have hne : p.1 ≠ k := fun hh => hnd.1 (hh ▸ hk)
      simp only [mget, if_neg hne]
      exact ih hp hnd.2

theorem mget_map_stripPair (m : EMap) (k : String) :
    mget (m.map stripPair) k = (mget m k).map stripLinks := by
  induction m with
  | nil => rfl
  | cons p rest ih =>
    by_cases hk : p.1 = k
    · simp [mget, stripPair, hk]
    · simp only [List.map_cons, mget, stripPair, if_neg hk, ih]

theorem mget_stripLinks_congr {m m' : EMap}
    (h : m.map stripPair = m'.map stripPair) (k : String) :
    (mget m k).map stripLinks = (mget m' k).map stripLinks := by
  induction m generalizing m' with
  | nil =>
    have hm : m' = [] := by
      cases m' with
      | nil => rfl
      | cons q rest => simp at h
    subst hm
    rfl
  | cons p rest ih =>
    cases m' with
    | nil => simp at h
    | cons q rest' =>
      simp only [List.map_cons, List.cons.injEq] at h
      have hpq := h.1
      simp only [stripPair, Prod.mk.injEq] at hpq
      have h1 : p.1 = q.1 := hpq.1
      have h2 : stripLinks p.2 = stripLinks q.2 := hpq.2
      by_cases hk : p.1 = k
      · have hqk : q.1 = k := h1.symm.trans hk
        simp [mget, hk, hqk, h2]
      · have hqk : ¬q.1 = k := fun hh => hk (h1.trans hh)
        simp only [mget, if_neg hk, if_neg hqk]
        exact ih h.2

theorem keysOf_map_stripPair (m : EMap) : keysOf (m.map stripPair) = keysOf m := by
  simp [keysOf, List.map_map, Function.comp, stripPair]

theorem sizeSum_map_stripPair (m : EMap) : sizeSum (m.map stripPair) = sizeSum m := by
  rw [sizeSum, sizeSum, List.map_map]
  rfl

theorem SaveToFile_entries (c : Cache) : c.SaveToFile = c.entries.map stripPair := rfl

theorem decodeMerge_cons (old : EMap) (p : String × Entry) (rest : EMap) :
    decodeMerge old (p :: rest) = decodeMerge (mset old p.1 p.2) rest := rfl

theorem mget_decodeMerge_of_none {snap : EMap} {k : String}
    (hk : mget snap k = none) (old : EMap) :
    mget (decodeMerge old snap) k = mget old k := by
  induction snap generalizing old with
  | nil => rfl
  | cons p rest ih =>
    have hne : p.1 ≠ k := by
      intro hh
      simp [mget, hh] at hk
    have hrest : mget rest k = none := by
      simpa [mget, if_neg hne] using hk
    rw [decodeMerge_cons, ih hrest, mget_mset_ne old p.2 (fun hh => hne hh.symm)]

theorem mget_decodeMerge_of_some {snap : EMap} {k : String} {e : Entry}
    (hnd : (keysOf snap).Nodup) (hk : mget snap k = some e) (old : EMap) :
    mget (decodeMerge old snap) k = some e := by
  induction snap generalizing old with
  | nil => simp [mget] at hk
  | cons p rest ih =>
    simp only [keysOf_cons, List.nodup_cons] at hnd
    by_cases hpk : p.1 = k
    · have hke : p.2 = e := by
        simpa [mget, hpk] using hk
      have hrest : mget rest k = none := by
        apply mget_eq_none_of_not_mem
        rw [← hpk]
        exact hnd.1
      rw [decodeMerge_cons, mget_decodeMerge_of_none hrest, ← hke, ← hpk, mget_mset_self]
    · have hrest : mget rest k = some e := by
        simpa [mget, if_neg hpk] using hk
      rw [decodeMerge_cons]
      exact ih hnd.2 hrest (mset old p.1 p.2)

theorem decodeMerge_append {snap : EMap} : ∀ {old : EMap},
    (∀ x ∈ keysOf snap, x ∉ keysOf old) → (keysOf snap).Nodup →
    decodeMerge old snap = old ++ snap := by
  induction snap with
  | nil =>
    intro old _ _
    simp [decodeMerge]
  | cons p rest ih =>
    intro old hdis hnd
    simp only [keysOf_cons, List.nodup_cons] at hnd
    have hp : p.1 ∉ keysOf old := hdis p.1 (by simp)
    have hdis2 : ∀ x ∈ keysOf rest, x ∉ keysOf (old ++ [p]) := by
      intro x hx
      simp only [keysOf_append, keysOf_cons, keysOf_nil, List.mem_append,
        List.mem_singleton]
      rintro (hold | hxp)
      · exact hdis x (by simp [hx]) hold
      · exact hnd.1 (hxp ▸ hx)
    rw [decodeMerge_cons, mset_append_of_not_mem p.2 hp]
    have := ih hdis2 hnd.2
    simp only [Prod.mk.eta] at this ⊢
    rw [this, List.append_assoc]
    rfl

theorem decodeMerge_nil (snap : EMap) (hnd : (keysOf snap).Nodup) :
    decodeMerge [] snap = snap := by
  rw [decodeMerge_append (fun x _ hx => by cases hx) hnd]
  rfl

/-- Well-formedness of a decoded snapshot: distinct keys, each entry
recording its own key, and no link fields (gob never writes the unexported
links, so a stream produced by `SaveToFile` always satisfies this). -/
def SnapWF (snap : EMap) : Prop :=
  (keysOf snap).Nodup ∧ (∀ p ∈ snap, p.2.Key = p.1) ∧
  ∀ p ∈ snap, p.2.previous = none ∧ p.2.next = none

theorem SaveToFile_wf {c : Cache} {ks : List String} (h : CacheRep c ks) :
    SnapWF c.SaveToFile := by
  refine ⟨?_, ?_, ?_⟩
  · rw [SaveToFile_entries, keysOf_map_stripPair]
    exact h.2.1
  · intro p hp
    rw [SaveToFile_entries] at hp
    obtain ⟨q, hq, rfl⟩ := List.mem_map.mp hp
    exact h.2.2.1 q hq
  · intro p hp
    rw [SaveToFile_entries] at hp
    obtain ⟨q, hq, rfl⟩ := List.mem_map.mp hp
    exact ⟨rfl, rfl⟩

theorem eq_of_perm_of_map_eq {α β : Type} (f : α → β) (xs : List α) :
    ∀ ys : List α, xs.Perm ys → xs.map f = ys.map f → (xs.map f).Nodup → xs = ys := by
  induction xs with
  | nil =>
    intro ys hperm _ _
    exact hperm.nil_eq
  | cons x xs ih =>
    intro ys hperm hmap hnd
    cases ys with
    | nil => exact absurd hperm.symm.nil_eq (by simp)
    | cons y ys =>
      simp only [List.map_cons, List.cons.injEq] at hmap
      simp only [List.map_cons, List.nodup_cons] at hnd
      have hxy : x = y := by
        rcases List.mem_cons.mp (hperm.mem_iff.mp (List.mem_cons_self x xs)) with hc | hc
        · exact hc
        · exact absurd (hmap.2 ▸ List.mem_map.mpr ⟨x, hc, rfl⟩) hnd.1
      subst hxy
      rw [ih ys hperm.cons_inv hmap.2 hnd.2]

theorem sortEntries_perm (m : EMap) :
    (sortEntriesByTimestamp m).Perm (m.map (·.2)) := by
  exact List.perm_insertionSort tsLE _

theorem sortEntries_sorted (m : EMap) :
    List.Sorted tsLE (sortEntriesByTimestamp m) := by
  exact List.sorted_insertionSort tsLE _

theorem sorted_map_ts {xs : List Entry} (h : List.Sorted tsLE xs) :
    List.Sorted (· ≤ ·) (xs.map fun e => e.RelevantTimestamp) := by
  rw [List.Sorted, List.pairwise_map]
  exact h

theorem sortEntries_eq_of_sorted {m : EMap} {zs : List Entry}
    (hperm : zs.Perm (m.map (·.2)))
    (hsort : List.Sorted tsLE zs)
    (hnd : ((m.map (·.2)).map fun e => e.RelevantTimestamp).Nodup) :
    sortEntriesByTimestamp m = zs := by
  have hp : (sortEntriesByTimestamp m).Perm zs :=
    (sortEntries_perm m).trans hperm.symm
  have hmap : ((sortEntriesByTimestamp m).map fun e => e.RelevantTimestamp) =
      zs.map fun e => e.RelevantTimestamp := by
    exact List.eq_of_perm_of_sorted (hp.map _)
      (sorted_map_ts (sortEntries_sorted m)) (sorted_map_ts hsort)
  have hndx : ((sortEntriesByTimestamp m).map fun e => e.RelevantTimestamp).Nodup :=
    (((sortEntries_perm m).map _).nodup_iff).mpr hnd
  exact eq_of_perm_of_map_eq _ _ zs hp hmap hndx

/-! ### Rebuilding the list from a decoded snapshot -/


theorem chainB_set_last_next {m : EMap} {P : List String} {pk : String}
    (hP : chainB m none P none = true) (hlast : lastKeyOr P none = some pk)
    (hnd : P.Nodup) (v : Option String) :
    chainB (adjust m pk fun e => { e with next := v }) none P v = true := by
  obtain rfl | ⟨Q, q, rfl⟩ := P.eq_nil_or_concat
  · exact absurd hlast (by simp [lastKeyOr])
  · simp only [List.concat_eq_append] at hP hlast hnd ⊢
    have hl : lastKeyOr (Q ++ [q]) none = some q := by
      rw [lastKeyOr_append]
      rfl
    have hq : q = pk := by
      have h2 := hl.symm.trans hlast
      injection h2
    subst hq
    have hqQ : q ∉ Q := by
      rcases List.nodup_append.mp hnd with ⟨-, -, hdisj⟩
      intro hmem
      exact hdisj hmem (by simp)
    rw [chainB_append_iff] at hP ⊢
    obtain ⟨hQ, hq1⟩ := hP
    rw [chainB_cons_iff] at hq1
    obtain ⟨e, hge, hprev, hnext, -⟩ := hq1
    constructor
    · have hcongr : ∀ x ∈ Q, mget (adjust m q fun e => { e with next := v }) x = mget m x :=
        fun x hx => mget_adjust_ne m _ (fun hh2 => hqQ (hh2 ▸ hx))
      rw [chainB_congr hcongr]
      exact hQ
    · rw [chainB_cons_iff]
      refine ⟨{ e with next := v }, ?_, hprev, rfl, rfl⟩
      rw [mget_adjust_self, hge]
      rfl

theorem relinkGo_spec : ∀ (ys : List Entry) (c : Cache) (P : List String),
    (∀ p ∈ c.entries, p.2.Key = p.1) →
    (P ++ ys.map fun y => y.Key).Nodup →
    (keysOf c.entries).Perm (P ++ ys.map fun y => y.Key) →
    (∀ y ∈ ys, mget c.entries y.Key = some y ∧ y.previous = none ∧ y.next = none) →
    chainB c.entries none P none = true →
    c.tail = P.head? →
    c.head = P.getLast? →
    CacheRep (relinkGo c P.getLast? ys) (P ++ ys.map fun y => y.Key) ∧
    (relinkGo c P.getLast? ys).entries.map stripPair = c.entries.map stripPair ∧
    (relinkGo c P.getLast? ys).memoryUsage =
      (if c.maxMemoryUsage ≠ 0 then
        c.memoryUsage + (ys.map fun y => (y.SizeInBytes : Int)).sum
      else c.memoryUsage) ∧
    (relinkGo c P.getLast? ys).maxSize = c.maxSize ∧
    (relinkGo c P.getLast? ys).maxMemoryUsage = c.maxMemoryUsage ∧
    (relinkGo c P.getLast? ys).evictionPolicy = c.evictionPolicy ∧
    (relinkGo c P.getLast? ys).stats = c.stats := by
  intro ys
  induction ys with
  | nil =>
    intro c P hkc hnd hperm hys hchain htail hhead
    simp only [List.map_nil, List.append_nil] at hnd hperm ⊢
    refine ⟨⟨hperm.symm, hperm.nodup_iff.mpr hnd, hkc, htail, hhead, hchain⟩,
      rfl, ?_, rfl, rfl, rfl, rfl⟩
    split_ifs <;> simp [relinkGo]
  | cons cur rest ih =>
    intro c P hkc hnd hperm hys hchain htail hhead
    have hyscur := hys cur (List.mem_cons_self _ _)
    have hysrest : ∀ y ∈ rest, mget c.entries y.Key = some y ∧
        y.previous = none ∧ y.next = none :=
      fun y hy => hys y (List.mem_cons_of_mem _ hy)
    obtain rfl | ⟨Q, pk, rfl⟩ := P.eq_nil_or_concat
    · -- the first decoded entry becomes both tail and head
      simp only [List.getLast?_nil, List.head?_nil, List.nil_append] at htail hhead ⊢
      have hcore : ∀ (mu : Int) (cx : Cache),
          cx = { c with tail := some cur.Key, head := some cur.Key, memoryUsage := mu } →
          CacheRep (relinkGo cx (some cur.Key) rest)
            ([cur.Key] ++ rest.map fun y => y.Key) ∧
          (relinkGo cx (some cur.Key) rest).entries.map stripPair =
            c.entries.map stripPair ∧
          (relinkGo cx (some cur.Key) rest).memoryUsage =
            (if c.maxMemoryUsage ≠ 0 then
              mu + (rest.map fun y => (y.SizeInBytes : Int)).sum
            else mu) ∧
          (relinkGo cx (some cur.Key) rest).maxSize = c.maxSize ∧
          (relinkGo cx (some cur.Key) rest).maxMemoryUsage =
            c.maxMemoryUsage ∧
          (relinkGo cx (some cur.Key) rest).evictionPolicy =
            c.evictionPolicy ∧
          (relinkGo cx (some cur.Key) rest).stats = c.stats := by
        intro mu cx hcx
        subst hcx
        exact ih _ [cur.Key] hkc hnd hperm hysrest
          (by rw [chainB_cons_iff]
              exact ⟨cur, hyscur.1, hyscur.2.1, hyscur.2.2, rfl⟩) rfl rfl
      have hstepA : relinkGo c none (cur :: rest) =
          relinkGo (if c.maxMemoryUsage ≠ 0 then
              { c with tail := some cur.Key, head := some cur.Key, memoryUsage := c.memoryUsage + (cur.SizeInBytes : Int) }
            else { c with tail := some cur.Key, head := some cur.Key })
            (some cur.Key) rest := rfl
      rw [hstepA]
      split_ifs with hmm0
      · obtain ⟨a1, a2, a3, a4, a5, a6, a7⟩ :=
          hcore (c.memoryUsage + (cur.SizeInBytes : Int)) _ rfl
        refine ⟨a1, a2, ?_, a4, a5, a6, a7⟩
        rw [a3, if_pos hmm0]
        simp only [List.map_cons, List.sum_cons]
        ring
      · obtain ⟨a1, a2, a3, a4, a5, a6, a7⟩ :=
          hcore c.memoryUsage { c with tail := some cur.Key, head := some cur.Key } rfl
        refine ⟨a1, a2, ?_, a4, a5, a6, a7⟩
        rw [a3, if_neg hmm0]
    · -- a later entry is chained behind the previous head
      simp only [List.concat_eq_append] at hnd hperm hchain htail hhead ⊢
      have hPne : Q ++ [pk] ≠ [] := by simp
      have hlastP : lastKeyOr (Q ++ [pk]) none = some pk := by
        rw [lastKeyOr_append]
        rfl
      have hPnd : (Q ++ [pk]).Nodup := ((List.nodup_append).mp hnd).1
      have hrightnd : ((cur :: rest).map fun y => y.Key).Nodup :=
        ((List.nodup_append).mp hnd).2.1
      have hdisj : ∀ x ∈ Q ++ [pk], x ∉ (cur :: rest).map fun y => y.Key :=
        fun x hx => ((List.nodup_append).mp hnd).2.2 hx
      have hcurP : cur.Key ∉ Q ++ [pk] := by
        intro hmem
        exact hdisj cur.Key hmem (by simp)
      have hcurpk : cur.Key ≠ pk := by
        intro hh
        exact hcurP (hh ▸ List.mem_append_right Q (by simp))
      have hcurrest : cur.Key ∉ rest.map fun y => y.Key := by
        have hx := List.nodup_cons.mp hrightnd
        simpa using hx.1
      simp only [List.getLast?_concat] at hhead ⊢
      set m2 : EMap := adjust (adjust c.entries pk fun e => { e with next := some cur.Key })
        cur.Key fun e => { e with previous := some pk } with hm2def
      have hstrip2 : m2.map stripPair = c.entries.map stripPair := by
        rw [hm2def, strip_adjust_prev, strip_adjust_next]
      have hkeys2 : keysOf m2 = keysOf c.entries := keysOf_of_stripPair_eq hstrip2
      have hkc2 : ∀ p ∈ m2, p.2.Key = p.1 := by
        rw [hm2def]
        exact keyCons_adjustF (fun e => { e with previous := some pk }) (fun _ => rfl)
          (keyCons_adjustF (fun e => { e with next := some cur.Key }) (fun _ => rfl) hkc)
      have hmgrest : ∀ y ∈ rest, mget m2 y.Key = mget c.entries y.Key := by
        intro y hy
        have hypk : y.Key ≠ pk := by
          intro hh
          refine hdisj pk (List.mem_append_right Q (by simp)) ?_
          simp only [List.map_cons, List.mem_cons]
          exact Or.inr (List.mem_map.mpr ⟨y, hy, hh⟩)
        have hycur : y.Key ≠ cur.Key := by
          intro hh
          exact hcurrest (hh ▸ List.mem_map.mpr ⟨y, hy, rfl⟩)
        rw [hm2def, mget_adjust_ne _ _ hycur, mget_adjust_ne _ _ hypk]
      have hmgcur : mget m2 cur.Key = some { cur with previous := some pk } := by
        rw [hm2def, mget_adjust_self, mget_adjust_ne _ _ hcurpk, hyscur.1]
        rfl
      have hchain2 : chainB m2 none ((Q ++ [pk]) ++ [cur.Key]) none = true := by
        rw [chainB_append_iff]
        constructor
        · have hstep1 : chainB (adjust c.entries pk fun e => { e with next := some cur.Key })
              none (Q ++ [pk]) (some cur.Key) = true :=
            chainB_set_last_next hchain hlastP hPnd (some cur.Key)
        
          have hcongr : ∀ x ∈ Q ++ [pk], mget m2 x =
              mget (adjust c.entries pk fun e => { e with next := some cur.Key }) x := by
            intro x hx
            rw [hm2def]
            exact mget_adjust_ne _ _ (fun hh2 => hcurP (hh2 ▸ hx))
          rw [chainB_congr hcongr]
          exact hstep1
        · rw [hlastP, chainB_cons_iff]
          refine ⟨{ cur with previous := some pk }, hmgcur, rfl, ?_, rfl⟩
          exact hyscur.2.2
      have hcore : ∀ (mu : Int) (cx : Cache),
          cx = { c with entries := m2, head := some cur.Key, memoryUsage := mu } →
          CacheRep (relinkGo cx (some cur.Key) rest)
            (((Q ++ [pk]) ++ [cur.Key]) ++ rest.map fun y => y.Key) ∧
          (relinkGo cx (some cur.Key) rest).entries.map
            stripPair = m2.map stripPair ∧
          (relinkGo cx (some cur.Key) rest).memoryUsage =
            (if c.maxMemoryUsage ≠ 0 then
              mu + (rest.map fun y => (y.SizeInBytes : Int)).sum
            else mu) ∧
          (relinkGo cx (some cur.Key) rest).maxSize =
            c.maxSize ∧
          (relinkGo cx (some cur.Key) rest).maxMemoryUsage = c.maxMemoryUsage ∧
          (relinkGo cx (some cur.Key) rest).evictionPolicy = c.evictionPolicy ∧
          (relinkGo cx (some cur.Key) rest).stats =
            c.stats := by
        intro mu cx hcx
        subst hcx
        have hres := ih { c with entries := m2, head := some cur.Key, memoryUsage := mu }
          ((Q ++ [pk]) ++ [cur.Key]) hkc2
          (by rw [List.append_assoc]
              exact hnd)
          (by show (keysOf m2).Perm _
              rw [hkeys2, List.append_assoc]
              exact hperm)
          (by intro y hy
              show mget m2 y.Key = some y ∧ _
              rw [hmgrest y hy]
              exact hysrest y hy)
          hchain2
          (by show c.tail = ((Q ++ [pk]) ++ [cur.Key]).head?
              rw [htail, head?_eq_headKeyOr, head?_append_cons]
              exact headKeyOr_irrel hPne none (some cur.Key))
          (by show some cur.Key = ((Q ++ [pk]) ++ [cur.Key]).getLast?
              rw [List.getLast?_concat])
        rw [List.getLast?_concat] at hres
        exact hres
      have hstepB : relinkGo c (some pk) (cur :: rest) =
          relinkGo (if c.maxMemoryUsage ≠ 0 then
              { c with entries := m2, head := some cur.Key, memoryUsage := c.memoryUsage + (cur.SizeInBytes : Int) }
            else { c with entries := m2, head := some cur.Key })
            (some cur.Key) rest := rfl
      rw [hstepB]
      split_ifs with hmm0
      · obtain ⟨a1, a2, a3, a4, a5, a6, a7⟩ :=
          hcore (c.memoryUsage + (cur.SizeInBytes : Int)) _ rfl
        refine ⟨?_, ?_, ?_, a4, a5, a6, a7⟩
        · rw [List.append_assoc] at a1
          exact a1
        · rw [a2, hstrip2]
        · rw [a3, if_pos hmm0]
          simp only [List.map_cons, List.sum_cons]
          ring
      · obtain ⟨a1, a2, a3, a4, a5, a6, a7⟩ :=
          hcore c.memoryUsage { c with entries := m2, head := some cur.Key } rfl
        refine ⟨?_, ?_, ?_, a4, a5, a6, a7⟩
        · rw [List.append_assoc] at a1
          exact a1
        · rw [a2, hstrip2]
        · rw [a3, if_neg hmm0]

theorem evictSizeLoop_spec : ∀ (fuel : Nat) (c : Cache) (n : Nat) (ks : List String),
    CacheRep c ks →
    0 ≤ c.maxSize →
    (c.maxMemoryUsage ≠ 0 → c.memoryUsage = sizeSum c.entries) →
    ks.length ≤ fuel + c.maxSize.toNat →
    CacheRep (evictSizeLoopCount c n fuel).1 (ks.drop (ks.length - c.maxSize.toNat)) ∧
    (evictSizeLoopCount c n fuel).2 = n + (ks.length - c.maxSize.toNat) ∧
    ((evictSizeLoopCount c n fuel).1.maxMemoryUsage ≠ 0 →
      (evictSizeLoopCount c n fuel).1.memoryUsage =
        sizeSum (evictSizeLoopCount c n fuel).1.entries) ∧
    (c.maxMemoryUsage = 0 →
      (evictSizeLoopCount c n fuel).1.memoryUsage = c.memoryUsage) ∧
    (evictSizeLoopCount c n fuel).1.maxSize = c.maxSize ∧
    (evictSizeLoopCount c n fuel).1.maxMemoryUsage = c.maxMemoryUsage ∧
    (evictSizeLoopCount c n fuel).1.evictionPolicy = c.evictionPolicy := by
  intro fuel
  induction fuel with
  | zero =>
    intro c n ks hks hms hmem hfuel
    have hz : ks.length - c.maxSize.toNat = 0 := by omega
    rw [hz]
    exact ⟨by simpa using hks, by simp [evictSizeLoopCount], hmem, fun _ => rfl, rfl, rfl, rfl⟩
  | succ fuel ih =>
    intro c n ks hks hms hmem hfuel
    have htn : (c.maxSize.toNat : Int) = c.maxSize := Int.toNat_of_nonneg hms
    by_cases hcond : (c.entries.length : Int) > c.maxSize
    · have hltn : c.maxSize.toNat < ks.length := by
        rw [hks.length_eq] at hcond
        omega
      have hne : ks ≠ [] := by
        intro hnil
        rw [hnil] at hltn
        simp at hltn
      obtain ⟨k, ks', e, rfl, hget⟩ := rep_nonempty_head hks hne
      have hev := evict_spec hks hget
      have hstep : evictSizeLoopCount c n (fuel + 1) =
          evictSizeLoopCount c.evict (n + 1) fuel := by
        simp only [evictSizeLoopCount, if_pos hcond]
      rw [hstep]
      have hmem2 : c.evict.maxMemoryUsage ≠ 0 →
          c.evict.memoryUsage = sizeSum c.evict.entries := by
        intro hb
        rw [hev.2.2.2.2.2.1] at hb
        rw [hev.2.2.2.1, if_neg hb, hev.2.1, hmem hb]
      have hms2 : 0 ≤ c.evict.maxSize := by
        rw [hev.2.2.2.2.1]
        exact hms
      have hfuel2 : ks'.length ≤ fuel + c.evict.maxSize.toNat := by
        rw [hev.2.2.2.2.1]
        simp only [List.length_cons] at hfuel
        omega
      obtain ⟨a1, a2, a3, a4, a5, a6, a7⟩ := ih c.evict (n + 1) ks' hev.1 hms2 hmem2 hfuel2
      have hdrop : (k :: ks').length - c.maxSize.toNat =
          (ks'.length - c.evict.maxSize.toNat) + 1 := by
        rw [hev.2.2.2.2.1]
        simp only [List.length_cons]
        simp only [List.length_cons] at hltn
        omega
      refine ⟨?_, ?_, a3, ?_, ?_, ?_, ?_⟩
      · rw [hdrop, List.drop_succ_cons]
        exact a1
      · rw [a2, hdrop, hev.2.2.2.2.1]
        omega
      · intro hbz
        have hbz2 : c.evict.maxMemoryUsage = 0 := by rw [hev.2.2.2.2.2.1]; exact hbz
        rw [a4 hbz2, hev.2.2.2.1, if_pos hbz]
      · rw [a5, hev.2.2.2.2.1]
      · rw [a6, hev.2.2.2.2.2.1]
      · rw [a7, hev.2.2.2.2.2.2.1]
    · have hstep : evictSizeLoopCount c n (fuel + 1) = (c, n) := by
        simp only [evictSizeLoopCount, if_neg hcond]
      have hz : ks.length - c.maxSize.toNat = 0 := by
        rw [hks.length_eq] at hcond
        omega
      rw [hstep, hz]
      exact ⟨by simpa using hks, by simp, hmem, fun _ => rfl, rfl, rfl, rfl⟩

theorem relink_snapshot {c : Cache} {snap : EMap}
    (he : c.entries = snap) (hh : c.head = none) (ht : c.tail = none)
    (hwf : SnapWF snap) :
    CacheRep (relinkGo c none (sortEntriesByTimestamp snap))
      ((sortEntriesByTimestamp snap).map fun y => y.Key) ∧
    (relinkGo c none (sortEntriesByTimestamp snap)).entries.map stripPair =
      snap.map stripPair ∧
    (relinkGo c none (sortEntriesByTimestamp snap)).memoryUsage =
      (if c.maxMemoryUsage ≠ 0 then c.memoryUsage + sizeSum snap else c.memoryUsage) ∧
    (relinkGo c none (sortEntriesByTimestamp snap)).maxSize = c.maxSize ∧
    (relinkGo c none (sortEntriesByTimestamp snap)).maxMemoryUsage = c.maxMemoryUsage ∧
    (relinkGo c none (sortEntriesByTimestamp snap)).evictionPolicy = c.evictionPolicy ∧
    (relinkGo c none (sortEntriesByTimestamp snap)).stats = c.stats := by
  have hperm2 : (sortEntriesByTimestamp snap).Perm (snap.map (·.2)) := sortEntries_perm snap
  have hkeyeq : (snap.map (·.2)).map (fun y => y.Key) = keysOf snap := by
    rw [List.map_map]
    exact List.map_congr_left fun p hp => hwf.2.1 p hp
  have hkeysperm : ((sortEntriesByTimestamp snap).map fun y => y.Key).Perm (keysOf snap) := by
    have h1 := hperm2.map fun y => y.Key
    rw [hkeyeq] at h1
    exact h1
  have hys : ∀ y ∈ sortEntriesByTimestamp snap,
      mget c.entries y.Key = some y ∧ y.previous = none ∧ y.next = none := by
    intro y hy
    have hy2 : y ∈ snap.map (·.2) := hperm2.mem_iff.mp hy
    obtain ⟨p, hp, hpy⟩ := List.mem_map.mp hy2
    have hkey : y.Key = p.1 := by
      rw [← hpy]
      exact hwf.2.1 p hp
    refine ⟨?_, ?_, ?_⟩
    · rw [he]
      apply mget_of_mem_nodup _ hwf.1
      rw [hkey, ← hpy]
      exact hp
    · rw [← hpy]
      exact (hwf.2.2 p hp).1
    · rw [← hpy]
      exact (hwf.2.2 p hp).2
  have hmain := relinkGo_spec (sortEntriesByTimestamp snap) c []
    (by rw [he]; exact hwf.2.1)
    (by simpa using hkeysperm.nodup_iff.mpr hwf.1)
    (by rw [he]; simpa using hkeysperm.symm)
    hys rfl ht hh
  obtain ⟨a1, a2, a3, a4, a5, a6, a7⟩ := hmain
  have hsum : ((sortEntriesByTimestamp snap).map fun y => (y.SizeInBytes : Int)).sum =
      sizeSum snap := by
    have h1 := (hperm2.map fun y => (y.SizeInBytes : Int)).sum_eq
    rw [List.map_map] at h1
    rw [h1]
    rfl
  rw [hsum] at a3
  rw [he] at a2
  exact ⟨by simpa using a1, a2, a3, a4, a5, a6, a7⟩

theorem readBounds_eq (cr : Cache) : readBounds cr =
    (if cr.maxSize = 0 ∧ cr.maxMemoryUsage = 0 then (cr, 0)
     else if cr.maxSize ≠ 0 ∧ (cr.entries.length : Int) > cr.maxSize then
       (if (evictSizeLoopCount cr 0 cr.entries.length).1.maxMemoryUsage ≠ 0 ∧
           (evictSizeLoopCount cr 0 cr.entries.length).1.memoryUsage >
             (evictSizeLoopCount cr 0 cr.entries.length).1.maxMemoryUsage then
         evictMemLoopCount (evictSizeLoopCount cr 0 cr.entries.length).1
           (evictSizeLoopCount cr 0 cr.entries.length).2
           (evictSizeLoopCount cr 0 cr.entries.length).1.entries.length
       else evictSizeLoopCount cr 0 cr.entries.length)
     else
       (if cr.maxMemoryUsage ≠ 0 ∧ cr.memoryUsage > cr.maxMemoryUsage then
         evictMemLoopCount cr 0 cr.entries.length
       else (cr, 0))) := by
  simp only [readBounds, NoMaxSize, NoMaxMemoryUsage]
  split_ifs <;> rfl

theorem readBounds_noop {cr : Cache}
    (h1 : cr.maxSize ≠ 0 → ¬((cr.entries.length : Int) > cr.maxSize))
    (h2 : cr.maxMemoryUsage ≠ 0 → ¬(cr.memoryUsage > cr.maxMemoryUsage)) :
    readBounds cr = (cr, 0) := by
  rw [readBounds_eq]
  split_ifs with hP hQ hR hR2
  · rfl
  · exact absurd hQ.2 (h1 hQ.1)
  · exact absurd hQ.2 (h1 hQ.1)
  · exact absurd hR2.2 (h2 hR2.1)
  · rfl

theorem readBounds_spec {cr : Cache} {ks : List String}
    (hrep : CacheRep cr ks) (hms : 0 ≤ cr.maxSize)
    (hmem : cr.maxMemoryUsage ≠ 0 → cr.memoryUsage = sizeSum cr.entries) :
    (∃ ks2, CacheRep (readBounds cr).1 ks2) ∧
    ((readBounds cr).1.maxSize ≠ 0 →
      ((readBounds cr).1.entries.length : Int) ≤ (readBounds cr).1.maxSize) ∧
    ((readBounds cr).1.maxMemoryUsage ≠ 0 →
      (readBounds cr).1.memoryUsage = sizeSum (readBounds cr).1.entries) ∧
    (readBounds cr).1.maxSize = cr.maxSize ∧
    (readBounds cr).1.maxMemoryUsage = cr.maxMemoryUsage ∧
    (readBounds cr).1.evictionPolicy = cr.evictionPolicy := by
  have htn : (cr.maxSize.toNat : Int) = cr.maxSize := Int.toNat_of_nonneg hms
  have hlen : cr.entries.length = ks.length := hrep.length_eq
  rw [readBounds_eq]
  split_ifs with hP hQ hR hR2
  · refine ⟨⟨ks, hrep⟩, ?_, ?_, rfl, rfl, rfl⟩
    · intro hb
      exact absurd hP.1 hb
    · intro hb
      exact absurd hP.2 hb
  · have hfuel : ks.length ≤ cr.entries.length + cr.maxSize.toNat := by omega
    obtain ⟨s1, s2, s3, s4, s5, s6, s7⟩ :=
      evictSizeLoop_spec cr.entries.length cr 0 ks hrep hms hmem hfuel
    have hslen : (evictSizeLoopCount cr 0 cr.entries.length).1.entries.length =
        cr.maxSize.toNat := by
      rw [s1.length_eq, List.length_drop]
      have hgt : cr.maxSize.toNat < ks.length := by
        rw [hlen] at hQ
        omega
      omega
    obtain ⟨m1, m2, m3, m4, m5, m6⟩ := evictMemLoop_spec
      (evictSizeLoopCount cr 0 cr.entries.length).1.entries.length
      (evictSizeLoopCount cr 0 cr.entries.length).1
      (evictSizeLoopCount cr 0 cr.entries.length).2 ⟨_, s1⟩ s3
    refine ⟨m1, ?_, m2, ?_, ?_, ?_⟩
    · intro hb
      rw [m4, s5]
      have hc0 := m3.trans (le_of_eq hslen)
      omega
    · rw [m4, s5]
    · rw [m5, s6]
    · rw [m6, s7]
  · have hfuel : ks.length ≤ cr.entries.length + cr.maxSize.toNat := by omega
    obtain ⟨s1, s2, s3, s4, s5, s6, s7⟩ :=
      evictSizeLoop_spec cr.entries.length cr 0 ks hrep hms hmem hfuel
    have hslen : (evictSizeLoopCount cr 0 cr.entries.length).1.entries.length =
        cr.maxSize.toNat := by
      rw [s1.length_eq, List.length_drop]
      have hgt : cr.maxSize.toNat < ks.length := by
        rw [hlen] at hQ
        omega
      omega
    refine ⟨⟨_, s1⟩, ?_, s3, s5, s6, s7⟩
    intro hb
    rw [s5] at hb ⊢
    rw [hslen]
    omega
  · obtain ⟨m1, m2, m3, m4, m5, m6⟩ := evictMemLoop_spec
      cr.entries.length cr 0 ⟨ks, hrep⟩ hmem
    refine ⟨m1, ?_, m2, m4, m5, m6⟩
    intro hb
    rw [m4] at hb ⊢
    have hnq : ¬((cr.entries.length : Int) > cr.maxSize) := fun hgt => hQ ⟨hb, hgt⟩
    have hle := m3
    omega
  · refine ⟨⟨ks, hrep⟩, ?_, hmem, rfl, rfl, rfl⟩
    intro hb
    exact le_of_not_lt (fun hgt => hQ ⟨hb, hgt⟩)

theorem ReadFromFile_empty_inv {c : Cache} {snap : EMap}
    (he : c.entries = []) (hh : c.head = none) (ht : c.tail = none)
    (hmu : c.memoryUsage = 0)
    (hms : 0 ≤ c.maxSize) (hmm : 0 ≤ c.maxMemoryUsage)
    (hwf : SnapWF snap) :
    Inv (c.ReadFromFile snap).1 ∧
    (c.ReadFromFile snap).1.maxSize = c.maxSize ∧
    (c.ReadFromFile snap).1.maxMemoryUsage = c.maxMemoryUsage ∧
    (c.ReadFromFile snap).1.evictionPolicy = c.evictionPolicy := by
  have hdm : decodeMerge c.entries snap = snap := by
    rw [he]
    exact decodeMerge_nil snap hwf.1
  have hrw : c.ReadFromFile snap =
      readBounds (relinkGo { c with entries := snap } none (sortEntriesByTimestamp snap)) := by
    show readBounds (relinkGo { c with entries := decodeMerge c.entries snap } none
      (sortEntriesByTimestamp (decodeMerge c.entries snap))) = _
    rw [hdm]
  rw [hrw]
  obtain ⟨r1, r2, r3, r4, r5, r6, r7⟩ :=
    @relink_snapshot { c with entries := snap } snap rfl hh ht hwf
  have hsize : sizeSum (relinkGo { c with entries := snap } none
      (sortEntriesByTimestamp snap)).entries = sizeSum snap := by
    exact sizeSum_of_stripPair_eq r2
  obtain ⟨b1, b2, b3, b4, b5, b6⟩ := readBounds_spec r1
    (by rw [r4]; exact hms)
    (by
      intro hb
      rw [r5] at hb
      rw [r3, hsize, if_pos hb]
      show c.memoryUsage + sizeSum snap = sizeSum snap
      rw [hmu]
      ring)
  refine ⟨⟨b1, ?_, ?_, b2, b3⟩, ?_, ?_, ?_⟩
  · rw [b4, r4]
    exact hms
  · rw [b5, r5]
    exact hmm
  · rw [b4, r4]
  · rw [b5, r5]
  · rw [b6, r6]

/-! ### Invariant preservation of the remaining operations -/

theorem delete_inv {c : Cache} (key : String) (h : Inv c) :
    Inv (c.delete key).2 ∧
    (c.delete key).2.maxSize = c.maxSize ∧
    (c.delete key).2.maxMemoryUsage = c.maxMemoryUsage ∧
    (c.delete key).2.evictionPolicy = c.evictionPolicy ∧
    (c.delete key).2.stats = c.stats := by
  obtain ⟨⟨ks, hrep⟩, hms, hmm, hbound, hmemOK⟩ := h
  cases hget : mget c.entries key with
  | none =>
    have heq : c.delete key = (false, c) := by
      simp only [Cache.delete, hget]
    rw [heq]
    exact ⟨⟨⟨ks, hrep⟩, hms, hmm, hbound, hmemOK⟩, rfl, rfl, rfl, rfl⟩
  | some e =>
    have hkmem : key ∈ ks := (hrep.1).mem_iff.mpr (mem_keysOf_of_mget hget)
    obtain ⟨d1, d2, d3, d4, d5, d6, d7, d8, d9, d10⟩ := delete_spec hrep hkmem hget
    refine ⟨⟨⟨_, d2⟩, ?_, ?_, ?_, ?_⟩, d7, d8, d9, d10⟩
    · rw [d7]
      exact hms
    · rw [d8]
      exact hmm
    · intro hb
      rw [d7] at hb
      have hb2 := hbound hb
      rw [d7]
      omega
    · intro hb
      rw [d8] at hb
      rw [d6, if_neg hb, d3, hmemOK hb]

theorem Delete_inv {c : Cache} (key : String) (h : Inv c) :
    Inv (c.Delete key).2 ∧
    (c.Delete key).2.maxSize = c.maxSize ∧
    (c.Delete key).2.maxMemoryUsage = c.maxMemoryUsage ∧
    (c.Delete key).2.evictionPolicy = c.evictionPolicy := by
  obtain ⟨h1, h2, h3, h4, -⟩ := delete_inv key h
  exact ⟨h1, h2, h3, h4⟩

theorem Clear_inv {c : Cache} (h : Inv c) :
    Inv c.Clear ∧
    c.Clear.maxSize = c.maxSize ∧
    c.Clear.maxMemoryUsage = c.maxMemoryUsage ∧
    c.Clear.evictionPolicy = c.evictionPolicy := by
  obtain ⟨-, hms, hmm, -, -⟩ := h
  refine ⟨⟨⟨[], ?_, ?_, ?_, rfl, rfl, rfl⟩, hms, hmm, ?_, ?_⟩, rfl, rfl, rfl⟩
  · exact List.Perm.refl _
  · exact List.nodup_nil
  · intro p hp
    cases hp
  · intro _
    show ((0 : Nat) : Int) ≤ c.maxSize
    simpa using hms
  · intro _
    rfl

theorem Expire_inv {c : Cache} (key : String) (ttl : Int) (now : Nat) (h : Inv c) :
    Inv (c.Expire key ttl now).2 ∧
    (c.Expire key ttl now).2.maxSize = c.maxSize ∧
    (c.Expire key ttl now).2.maxMemoryUsage = c.maxMemoryUsage ∧
    (c.Expire key ttl now).2.evictionPolicy = c.evictionPolicy := by
  obtain ⟨⟨ks, hrep⟩, hms, hmm, hbound, hmemOK⟩ := h
  cases hget : mget c.entries key with
  | none =>
    have heq : c.Expire key ttl now = (false, c) := by
      simp only [Cache.Expire, hget]
    rw [heq]
    exact ⟨⟨⟨ks, hrep⟩, hms, hmm, hbound, hmemOK⟩, rfl, rfl, rfl⟩
  | some e =>
    by_cases hexp : e.Expired now = true
    · have heq : c.Expire key ttl now = (false, c) := by
        simp only [Cache.Expire, hget, hexp, if_pos]
      rw [heq]
      exact ⟨⟨⟨ks, hrep⟩, hms, hmm, hbound, hmemOK⟩, rfl, rfl, rfl⟩
    · have heq : c.Expire key ttl now = (true, { c with entries := adjust c.entries key fun x =>
          { x with Expiration := if ttl ≠ NoExpiration then (now : Int) + ttl
            else NoExpiration } }) := by
        simp only [Cache.Expire, hget, hexp, if_neg, Bool.false_eq_true, if_false]
      rw [heq]
      have hrepb : CacheRep { c with entries := adjust c.entries key fun x =>
          { x with Expiration := if ttl ≠ NoExpiration then (now : Int) + ttl
            else NoExpiration } } ks :=
        hrep.adjust_linkless key (fun _ => rfl) (fun _ => rfl) (fun _ => rfl)
      have hlenb : (adjust c.entries key fun x =>
          { x with Expiration := if ttl ≠ NoExpiration then (now : Int) + ttl
            else NoExpiration }).length = c.entries.length := by
        simp [adjust]
      have hsizeb : sizeSum (adjust c.entries key fun x =>
          { x with Expiration := if ttl ≠ NoExpiration then (now : Int) + ttl
            else NoExpiration }) = sizeSum c.entries :=
        sizeSum_adjust _ (fun _ => rfl)
      refine ⟨⟨⟨ks, hrepb⟩, hms, hmm, ?_, ?_⟩, rfl, rfl, rfl⟩
      · intro hb
        show ((adjust c.entries key fun x =>
            { x with Expiration := if ttl ≠ NoExpiration then (now : Int) + ttl
              else NoExpiration }).length : Int) ≤ c.maxSize
        rw [hlenb]
        exact hbound hb
      · intro hb
        show c.memoryUsage = sizeSum (adjust c.entries key fun x =>
            { x with Expiration := if ttl ≠ NoExpiration then (now : Int) + ttl
              else NoExpiration })
        rw [hsizeb]
        exact hmemOK hb

theorem Get_inv {c : Cache} (key : String) (now : Nat) (h : Inv c) :
    Inv (c.Get key now).2 ∧
    (c.Get key now).2.maxSize = c.maxSize ∧
    (c.Get key now).2.maxMemoryUsage = c.maxMemoryUsage ∧
    (c.Get key now).2.evictionPolicy = c.evictionPolicy := by
  obtain ⟨⟨ks, hrep⟩, hms, hmm, hbound, hmemOK⟩ := h
  cases hget : mget c.entries key with
  | none =>
    have heq : c.Get key now =
        (none, { c with stats := { c.stats with Misses := c.stats.Misses + 1 } }) := by
      simp only [Cache.Get, hget]
    rw [heq]
    exact ⟨⟨⟨ks, CacheRep_set_stats.mpr hrep⟩, hms, hmm, hbound, hmemOK⟩, rfl, rfl, rfl⟩
  | some e =>
    have hc1inv : Inv { c with stats := { c.stats with Hits := c.stats.Hits + 1 } } :=
      ⟨⟨ks, CacheRep_set_stats.mpr hrep⟩, hms, hmm, hbound, hmemOK⟩
    have heq : c.Get key now =
        (if e.Expired now = true then
          (none, (({ c with stats := { c.stats with Hits := c.stats.Hits + 1 } } : Cache).delete
            key).2)
        else if c.evictionPolicy = EvictionPolicy.LeastRecentlyUsed then
          (if c.head = some e.Key then
            (some e.Value, { c with stats := { c.stats with Hits := c.stats.Hits + 1 }, entries := adjust c.entries key fun x => { x with RelevantTimestamp := now } })
          else
            (some e.Value, Cache.moveExistingEntryToHead
              { c with stats := { c.stats with Hits := c.stats.Hits + 1 }, entries := adjust c.entries key fun x => { x with RelevantTimestamp := now } }
              { e with RelevantTimestamp := now }))
        else (some e.Value, { c with stats := { c.stats with Hits := c.stats.Hits + 1 } })) := by
      simp only [Cache.Get, hget]
    rw [heq]
    have hrep2 : CacheRep { c with stats := { c.stats with Hits := c.stats.Hits + 1 }, entries := adjust c.entries key fun x => { x with RelevantTimestamp := now } } ks :=
      (CacheRep_set_stats.mpr hrep).adjust_linkless key (fun _ => rfl) (fun _ => rfl)
        (fun _ => rfl)
    have hlen2 : (adjust c.entries key fun x => { x with RelevantTimestamp := now }).length =
        c.entries.length := by
      simp [adjust]
    have hsize2 : sizeSum (adjust c.entries key fun x => { x with RelevantTimestamp := now }) =
        sizeSum c.entries :=
      sizeSum_adjust _ (fun _ => rfl)
    split_ifs with hx hp hh
    · obtain ⟨g1, g2, g3, g4, -⟩ := delete_inv key hc1inv
      exact ⟨g1, g2, g3, g4⟩
    · refine ⟨⟨⟨ks, hrep2⟩, hms, hmm, ?_, ?_⟩, rfl, rfl, rfl⟩
      · intro hb
        show ((adjust c.entries key fun x =>
            { x with RelevantTimestamp := now }).length : Int) ≤ c.maxSize
        rw [hlen2]
        exact hbound hb
      · intro hb
        show c.memoryUsage = sizeSum (adjust c.entries key fun x =>
            { x with RelevantTimestamp := now })
        rw [hsize2]
        exact hmemOK hb
    · have hkmem : key ∈ ks := (hrep.1).mem_iff.mpr (mem_keysOf_of_mget hget)
      have hmg2 : mget (adjust c.entries key fun x => { x with RelevantTimestamp := now }) key =
          some { e with RelevantTimestamp := now } := by
        rw [mget_adjust_self, hget]
        rfl
      have hmv := move_spec hrep2 hkmem hmg2
      have hlmv : (Cache.moveExistingEntryToHead
          { c with stats := { c.stats with Hits := c.stats.Hits + 1 }, entries := adjust c.entries key fun x => { x with RelevantTimestamp := now } }
          { e with RelevantTimestamp := now }).entries.length = c.entries.length := by
        have h1 := hmv.1.length_eq
        have h2 := hrep.length_eq
        have h3 := List.length_erase_of_mem hkmem
        have h4 := List.length_pos_of_mem hkmem
        rw [h1]
        simp only [List.length_append, List.length_cons, List.length_nil]
        omega
      have hsmv : sizeSum (Cache.moveExistingEntryToHead
          { c with stats := { c.stats with Hits := c.stats.Hits + 1 }, entries := adjust c.entries key fun x => { x with RelevantTimestamp := now } }
          { e with RelevantTimestamp := now }).entries = sizeSum c.entries := by
        rw [sizeSum_of_stripPair_eq hmv.2.1]
        exact hsize2
      refine ⟨⟨⟨_, hmv.1⟩, ?_, ?_, ?_, ?_⟩, ?_, ?_, ?_⟩
      · rw [hmv.2.2.1]
        exact hms
      · rw [hmv.2.2.2.1]
        exact hmm
      · intro hb
        rw [hmv.2.2.1] at hb
        rw [hmv.2.2.1, hlmv]
        exact hbound hb
      · intro hb
        rw [hmv.2.2.2.1] at hb
        rw [hmv.2.2.2.2.2.2, hsmv]
        exact hmemOK hb
      · rw [hmv.2.2.1]
      · rw [hmv.2.2.2.1]
      · rw [hmv.2.2.2.2.1]
    · exact ⟨hc1inv, rfl, rfl, rfl⟩

theorem Set_inv {c : Cache} (key : String) (value : GoValue) (now : Nat) (h : Inv c) :
    Inv (c.Set key value now) ∧
    (c.Set key value now).maxSize = c.maxSize ∧
    (c.Set key value now).maxMemoryUsage = c.maxMemoryUsage ∧
    (c.Set key value now).evictionPolicy = c.evictionPolicy :=
  SetWithTTL_inv key value NoExpiration now h

theorem SetAll_inv {c : Cache} (pairs : List (String × GoValue)) (now : Nat) (h : Inv c) :
    Inv (c.SetAll pairs now) ∧
    (c.SetAll pairs now).maxSize = c.maxSize ∧
    (c.SetAll pairs now).maxMemoryUsage = c.maxMemoryUsage ∧
    (c.SetAll pairs now).evictionPolicy = c.evictionPolicy := by
  induction pairs generalizing c with
  | nil => exact ⟨h, rfl, rfl, rfl⟩
  | cons p rest ih =>
    have hstep := SetWithTTL_inv p.1 p.2 NoExpiration now h
    have hrec := ih hstep.1
    exact ⟨hrec.1, hrec.2.1.trans hstep.2.1, hrec.2.2.1.trans hstep.2.2.1,
      hrec.2.2.2.trans hstep.2.2.2⟩

theorem GetAll_inv {c : Cache} (keys : List String) (now : Nat) (h : Inv c) :
    Inv (c.GetAll keys now).2 ∧
    (c.GetAll keys now).2.maxSize = c.maxSize ∧
    (c.GetAll keys now).2.maxMemoryUsage = c.maxMemoryUsage ∧
    (c.GetAll keys now).2.evictionPolicy = c.evictionPolicy := by
  suffices hgen : ∀ (kl : List String) (acc : List (String × Option GoValue)) (c : Cache),
      Inv c →
      Inv (kl.foldl
        (fun acc k =>
          let r := acc.2.Get k now
          (acc.1 ++ [(k, r.1)], r.2))
        (acc, c)).2 ∧
      (kl.foldl
        (fun acc k =>
          let r := acc.2.Get k now
          (acc.1 ++ [(k, r.1)], r.2))
        (acc, c)).2.maxSize = c.maxSize ∧
      (kl.foldl
        (fun acc k =>
          let r := acc.2.Get k now
          (acc.1 ++ [(k, r.1)], r.2))
        (acc, c)).2.maxMemoryUsage = c.maxMemoryUsage ∧
      (kl.foldl
        (fun acc k =>
          let r := acc.2.Get k now
          (acc.1 ++ [(k, r.1)], r.2))
        (acc, c)).2.evictionPolicy = c.evictionPolicy by
    exact hgen keys [] c h
  intro kl
  induction kl with
  | nil =>
    intro acc c hc
    exact ⟨hc, rfl, rfl, rfl⟩
  | cons k rest ih =>
    intro acc c hc
    have hstep := Get_inv k now hc
    have hrec := ih (acc ++ [(k, (c.Get k now).1)]) (c.Get k now).2 hstep.1
    exact ⟨hrec.1, hrec.2.1.trans hstep.2.1, hrec.2.2.1.trans hstep.2.2.1,
      hrec.2.2.2.trans hstep.2.2.2⟩

theorem DeleteAll_inv {c : Cache} (keys : List String) (h : Inv c) :
    Inv (c.DeleteAll keys).2 ∧
    (c.DeleteAll keys).2.maxSize = c.maxSize ∧
    (c.DeleteAll keys).2.maxMemoryUsage = c.maxMemoryUsage ∧
    (c.DeleteAll keys).2.evictionPolicy = c.evictionPolicy := by
  suffices hgen : ∀ (kl : List String) (acc : Nat) (c : Cache),
      Inv c →
      Inv (kl.foldl
        (fun acc k =>
          let r := acc.2.delete k
          (acc.1 + (if r.1 then 1 else 0), r.2))
        (acc, c)).2 ∧
      (kl.foldl
        (fun acc k =>
          let r := acc.2.delete k
          (acc.1 + (if r.1 then 1 else 0), r.2))
        (acc, c)).2.maxSize = c.maxSize ∧
      (kl.foldl
        (fun acc k =>
          let r := acc.2.delete k
          (acc.1 + (if r.1 then 1 else 0), r.2))
        (acc, c)).2.maxMemoryUsage = c.maxMemoryUsage ∧
      (kl.foldl
        (fun acc k =>
          let r := acc.2.delete k
          (acc.1 + (if r.1 then 1 else 0), r.2))
        (acc, c)).2.evictionPolicy = c.evictionPolicy by
    exact hgen keys 0 c h
  intro kl
  induction kl with
  | nil =>
    intro acc c hc
    exact ⟨hc, rfl, rfl, rfl⟩
  | cons k rest ih =>
    intro acc c hc
    have hstep := delete_inv k hc
    have hrec := ih (acc + (if (c.delete k).1 then 1 else 0)) (c.delete k).2 hstep.1
    exact ⟨hrec.1, hrec.2.1.trans hstep.2.1, hrec.2.2.1.trans hstep.2.2.1,
      hrec.2.2.2.trans hstep.2.2.2.1⟩

/-! ### Frame lemmas for the update path and round-trip helpers -/

theorem move_frame (c : Cache) (e : Entry) :
    (c.moveExistingEntryToHead e).maxSize = c.maxSize ∧
    (c.moveExistingEntryToHead e).maxMemoryUsage = c.maxMemoryUsage ∧
    (c.moveExistingEntryToHead e).evictionPolicy = c.evictionPolicy ∧
    (c.moveExistingEntryToHead e).stats = c.stats ∧
    (c.moveExistingEntryToHead e).memoryUsage = c.memoryUsage := by
  have hrr := removeRefs_frame c e
  simp only [Cache.moveExistingEntryToHead]
  split_ifs <;>
    first
      | exact ⟨rfl, rfl, rfl, rfl, rfl⟩
      | exact ⟨hrr.1, hrr.2.1, hrr.2.2.1, hrr.2.2.2.1, hrr.2.2.2.2⟩

theorem move_strip (c : Cache) (e : Entry) :
    (c.moveExistingEntryToHead e).entries.map stripPair = c.entries.map stripPair := by
  have hrr := removeRefs_strip c e
  simp only [Cache.moveExistingEntryToHead]
  split_ifs with h1 h2 h3 <;> try rfl
  all_goals
    first
      | (cases hh : (c.removeExistingEntryReferences e).head <;>
          simp only [hh] <;>
          first
            | rw [strip_adjust_pn]
              exact hrr
            | rw [strip_adjust_next, strip_adjust_pn]
              exact hrr)
      | (cases hh : c.head <;>
          simp only [hh] <;>
          first
            | rw [strip_adjust_pn]
            | rw [strip_adjust_next, strip_adjust_pn])
      | exact hrr

theorem setFinish_nobounds {c : Cache} (key : String) (ttl : Int) (now : Nat)
    (hms0 : c.maxSize = 0) (hmm0 : c.maxMemoryUsage = 0) :
    c.setFinish key ttl now =
      { c with entries := adjust c.entries key fun e =>
        { e with Expiration := if ttl ≠ NoExpiration then (now : Int) + ttl
          else NoExpiration } } := by
  simp only [Cache.setFinish, NoMaxSize, NoMaxMemoryUsage]
  rw [if_pos]
  exact ⟨hms0, hmm0⟩

theorem mget_value_congr {m m' : EMap}
    (h : m.map stripPair = m'.map stripPair) (k : String) :
    (mget m k).map (fun e => e.Value) = (mget m' k).map fun e => e.Value := by
  have h2 := mget_stripLinks_congr h k
  cases hm : mget m k with
  | none =>
    cases hm' : mget m' k with
    | none => rfl
    | some e =>
      rw [hm, hm'] at h2
      simp at h2
  | some e =>
    cases hm' : mget m' k with
    | none =>
      rw [hm, hm'] at h2
      simp at h2
    | some e2 =>
      rw [hm, hm'] at h2
      have h3 : stripLinks e = stripLinks e2 := by
        injection h2
      show some e.Value = some e2.Value
      rw [show e.Value = (stripLinks e).Value from rfl, h3]
      rfl

theorem map_stripPair_idem (m : EMap) :
    (m.map stripPair).map stripPair = m.map stripPair := by
  rw [List.map_map]
  exact List.map_congr_left fun p _ => rfl

theorem filterMap_map_key {m : EMap} : ∀ {ks : List String},
    (∀ k ∈ ks, ∃ e, mget m k = some e ∧ e.Key = k) →
    (ks.filterMap fun k => mget m k).map (fun e => e.Key) = ks := by
  intro ks
  induction ks with
  | nil => intro _; rfl
  | cons k rest ih =>
    intro hall
    obtain ⟨e, hg, hk⟩ := hall k (List.mem_cons_self _ _)
    rw [List.filterMap_cons, hg]
    simp only [List.map_cons]
    rw [hk, ih fun x hx => hall x (List.mem_cons_of_mem _ hx)]

theorem filterMap_mget_eq {m : EMap} (hnd : (keysOf m).Nodup)
    (hkc : ∀ p ∈ m, p.2.Key = p.1) :
    ((keysOf m).filterMap fun k => mget m k) = m.map (·.2) := by
  induction m with
  | nil => rfl
  | cons p rest ih =>
    simp only [keysOf_cons, List.nodup_cons] at hnd
    have hself : mget (p :: rest) p.1 = some p.2 := by
      simp [mget]
    rw [keysOf_cons, List.filterMap_cons, hself]
    simp only [List.map_cons]
    have hcongr : ((keysOf rest).filterMap fun k => mget (p :: rest) k) =
        ((keysOf rest).filterMap fun k => mget rest k) := by
      apply List.filterMap_congr
      intro k hk
      have hne : p.1 ≠ k := fun hh => hnd.1 (hh ▸ hk)
      simp [mget, if_neg hne]
    rw [hcongr, ih hnd.2 fun q hq => hkc q (List.mem_cons_of_mem _ hq)]

theorem filterMap_mget_perm {c : Cache} {ks : List String} (h : CacheRep c ks) :
    (ks.filterMap fun k => mget c.entries k).Perm (c.entries.map (·.2)) := by
  have h1 := h.1.filterMap fun k => mget c.entries k
  rw [filterMap_mget_eq h.2.1 h.2.2.1] at h1
  exact h1

theorem roundtrip_spec {c d : Cache} {ks : List String}
    (hrep : CacheRep c ks)
    (hdts : ((c.entries.map (·.2)).map fun e => e.RelevantTimestamp).Nodup)
    (hde : d.entries = []) (hdh : d.head = none) (hdt : d.tail = none)
    (hdmu : d.memoryUsage = 0)
    (hdms : d.maxSize = c.maxSize) (hdmm : d.maxMemoryUsage = c.maxMemoryUsage)
    (hsize_ok : c.maxSize ≠ 0 → (c.entries.length : Int) ≤ c.maxSize)
    (hmem_ok : c.maxMemoryUsage ≠ 0 → c.memoryUsage = sizeSum c.entries)
    (hmem_le : c.maxMemoryUsage ≠ 0 → c.memoryUsage ≤ c.maxMemoryUsage) :
    keysOf (d.ReadFromFile c.SaveToFile).1.entries = keysOf c.entries ∧
    (∀ k, (mget (d.ReadFromFile c.SaveToFile).1.entries k).map (fun e => e.Value) =
      (mget c.entries k).map fun e => e.Value) ∧
    (d.ReadFromFile c.SaveToFile).2 = 0 ∧
    (List.Sorted tsLE (ks.filterMap fun k => mget c.entries k) →
      (d.ReadFromFile c.SaveToFile).1.head = c.head ∧
      (d.ReadFromFile c.SaveToFile).1.tail = c.tail) := by
  have hwf := SaveToFile_wf hrep
  have hdm : decodeMerge d.entries c.SaveToFile = c.SaveToFile := by
    rw [hde]
    exact decodeMerge_nil _ hwf.1
  have hrw : d.ReadFromFile c.SaveToFile =
      readBounds (relinkGo { d with entries := c.SaveToFile } none
        (sortEntriesByTimestamp c.SaveToFile)) := by
    show readBounds (relinkGo { d with entries := decodeMerge d.entries c.SaveToFile } none
      (sortEntriesByTimestamp (decodeMerge d.entries c.SaveToFile))) = _
    rw [hdm]
  obtain ⟨r1, r2, r3, r4, r5, r6, r7⟩ :=
    @relink_snapshot { d with entries := c.SaveToFile } c.SaveToFile rfl hdh hdt hwf
  have hstripc : (relinkGo { d with entries := c.SaveToFile } none
      (sortEntriesByTimestamp c.SaveToFile)).entries.map stripPair =
      c.entries.map stripPair := by
    rw [r2, SaveToFile_entries, map_stripPair_idem]
  have hlen : (relinkGo { d with entries := c.SaveToFile } none
      (sortEntriesByTimestamp c.SaveToFile)).entries.length = c.entries.length := by
    have h1 := congrArg List.length hstripc
    simpa using h1
  have hmemcr : c.maxMemoryUsage ≠ 0 → (relinkGo { d with entries := c.SaveToFile } none
      (sortEntriesByTimestamp c.SaveToFile)).memoryUsage = c.memoryUsage := by
    intro hb
    rw [r3]
    have hcond : ({ d with entries := c.SaveToFile } : Cache).maxMemoryUsage ≠ 0 := by
      show d.maxMemoryUsage ≠ 0
      rw [hdmm]
      exact hb
    rw [if_pos hcond]
    show d.memoryUsage + sizeSum c.SaveToFile = c.memoryUsage
    rw [hdmu, SaveToFile_entries, sizeSum_map_stripPair, ← hmem_ok hb]
    ring
  have hnoop : readBounds (relinkGo { d with entries := c.SaveToFile } none
      (sortEntriesByTimestamp c.SaveToFile)) =
      (relinkGo { d with entries := c.SaveToFile } none
        (sortEntriesByTimestamp c.SaveToFile), 0) := by
    apply readBounds_noop
    · intro hb
      rw [r4] at hb
      have hb2 : c.maxSize ≠ 0 := by
        rw [← hdms]
        exact hb
      rw [hlen, r4]
      show ¬((c.entries.length : Int) > d.maxSize)
      rw [hdms]
      exact not_lt.mpr (hsize_ok hb2)
    · intro hb
      rw [r5] at hb
      have hb2 : c.maxMemoryUsage ≠ 0 := by
        rw [← hdmm]
        exact hb
      rw [hmemcr hb2, r5]
      show ¬(c.memoryUsage > d.maxMemoryUsage)
      rw [hdmm]
      exact not_lt.mpr (hmem_le hb2)
  rw [hrw, hnoop]
  refine ⟨keysOf_of_stripPair_eq hstripc, fun k => mget_value_congr hstripc k, rfl, ?_⟩
  intro hsort
  have hzsp : (ks.filterMap fun k => mget c.entries k).Perm (c.entries.map (·.2)) :=
    filterMap_mget_perm hrep
  have hkeyszs : ((ks.filterMap fun k => mget c.entries k).map fun e => e.Key) = ks :=
    filterMap_map_key fun k hk => hrep.mget_of_mem hk
  have hmapeq : (c.entries.map (·.2)).map stripLinks = c.SaveToFile.map (·.2) := by
    rw [SaveToFile_entries, List.map_map, List.map_map]
    rfl
  have hperm2 : ((ks.filterMap fun k => mget c.entries k).map stripLinks).Perm
      (c.SaveToFile.map (·.2)) := by
    have h1 := hzsp.map stripLinks
    rw [hmapeq] at h1
    exact h1
  have hsort2 : List.Sorted tsLE ((ks.filterMap fun k => mget c.entries k).map stripLinks) := by
    rw [List.Sorted, List.pairwise_map]
    exact hsort
  have hndts2 : ((c.SaveToFile.map (·.2)).map fun e => e.RelevantTimestamp).Nodup := by
    have h1 : ((c.SaveToFile.map (·.2)).map fun e => e.RelevantTimestamp) =
        ((c.entries.map (·.2)).map fun e => e.RelevantTimestamp) := by
      simp only [SaveToFile_entries, List.map_map]
      rfl
    rw [h1]
    exact hdts
  have hys : sortEntriesByTimestamp c.SaveToFile =
      (ks.filterMap fun k => mget c.entries k).map stripLinks :=
    sortEntries_eq_of_sorted hperm2 hsort2 hndts2
  have hkeys2 : ((sortEntriesByTimestamp c.SaveToFile).map fun y => y.Key) = ks := by
    rw [hys, List.map_map]
    exact hkeyszs
  constructor
  · have hcrh := r1.2.2.2.2.1
    rw [hkeys2] at hcrh
    rw [hcrh]
    exact hrep.2.2.2.2.1.symm
  · have hcrt := r1.2.2.2.1
    rw [hkeys2] at hcrt
    rw [hcrt]
    exact hrep.2.2.2.1.symm

theorem load_evict_spec {c : Cache} {snap : EMap}
    (he : c.entries = []) (hh : c.head = none) (ht : c.tail = none)
    (hwf : SnapWF snap)
    (hms : 0 < c.maxSize) (hmm0 : c.maxMemoryUsage = 0)
    (hover : c.maxSize < (snap.length : Int)) :
    (c.ReadFromFile snap).2 = snap.length - c.maxSize.toNat ∧
    (c.ReadFromFile snap).1.entries.length = c.maxSize.toNat ∧
    CacheRep (c.ReadFromFile snap).1
      (((sortEntriesByTimestamp snap).map fun y => y.Key).drop
        (snap.length - c.maxSize.toNat)) ∧
    List.Sorted tsLE (sortEntriesByTimestamp snap) ∧
    (sortEntriesByTimestamp snap).Perm (snap.map (·.2)) := by
  have hdm : decodeMerge c.entries snap = snap := by
    rw [he]
    exact decodeMerge_nil snap hwf.1
  have hrw : c.ReadFromFile snap =
      readBounds (relinkGo { c with entries := snap } none (sortEntriesByTimestamp snap)) := by
    show readBounds (relinkGo { c with entries := decodeMerge c.entries snap } none
      (sortEntriesByTimestamp (decodeMerge c.entries snap))) = _
    rw [hdm]
  obtain ⟨r1, r2, r3, r4, r5, r6, r7⟩ :=
    @relink_snapshot { c with entries := snap } snap rfl hh ht hwf
  have hcrms : (relinkGo { c with entries := snap } none
      (sortEntriesByTimestamp snap)).maxSize = c.maxSize := r4
  have hcrmm : (relinkGo { c with entries := snap } none
      (sortEntriesByTimestamp snap)).maxMemoryUsage = c.maxMemoryUsage := r5
  have h0 : (sortEntriesByTimestamp snap).length = snap.length := by
    have h1 := (sortEntries_perm snap).length_eq
    simpa using h1
  have hyslen : ((sortEntriesByTimestamp snap).map fun y => y.Key).length = snap.length := by
    simpa using h0
  have hcrlen : (relinkGo { c with entries := snap } none
      (sortEntriesByTimestamp snap)).entries.length = snap.length := by
    rw [r1.length_eq]
    exact hyslen
  have htn : (c.maxSize.toNat : Int) = c.maxSize := Int.toNat_of_nonneg (le_of_lt hms)
  obtain ⟨s1, s2, s3, s4, s5, s6, s7⟩ := evictSizeLoop_spec
    (relinkGo { c with entries := snap } none (sortEntriesByTimestamp snap)).entries.length
    (relinkGo { c with entries := snap } none (sortEntriesByTimestamp snap)) 0
    ((sortEntriesByTimestamp snap).map fun y => y.Key) r1
    (by rw [hcrms]; omega)
    (by
      intro hb
      rw [hcrmm, hmm0] at hb
      exact absurd rfl hb)
    (by rw [hyslen, hcrlen]; omega)
  have hP : ¬((relinkGo { c with entries := snap } none
      (sortEntriesByTimestamp snap)).maxSize = 0 ∧
      (relinkGo { c with entries := snap } none
        (sortEntriesByTimestamp snap)).maxMemoryUsage = 0) := by
    rintro ⟨h1, -⟩
    rw [hcrms] at h1
    omega
  have hQ : (relinkGo { c with entries := snap } none
      (sortEntriesByTimestamp snap)).maxSize ≠ 0 ∧
      ((relinkGo { c with entries := snap } none
        (sortEntriesByTimestamp snap)).entries.length : Int) >
        (relinkGo { c with entries := snap } none (sortEntriesByTimestamp snap)).maxSize := by
    constructor
    · rw [hcrms]
      omega
    · rw [hcrlen, hcrms]
      exact hover
  have hMem : ¬((evictSizeLoopCount
      (relinkGo { c with entries := snap } none (sortEntriesByTimestamp snap)) 0
      (relinkGo { c with entries := snap } none
        (sortEntriesByTimestamp snap)).entries.length).1.maxMemoryUsage ≠ 0 ∧
      (evictSizeLoopCount
        (relinkGo { c with entries := snap } none (sortEntriesByTimestamp snap)) 0
        (relinkGo { c with entries := snap } none
          (sortEntriesByTimestamp snap)).entries.length).1.memoryUsage >
        (evictSizeLoopCount
          (relinkGo { c with entries := snap } none (sortEntriesByTimestamp snap)) 0
          (relinkGo { c with entries := snap } none
            (sortEntriesByTimestamp snap)).entries.length).1.maxMemoryUsage) := by
    rintro ⟨h1, -⟩
    rw [s6, hcrmm, hmm0] at h1
    exact h1 rfl
  rw [hrw, readBounds_eq, if_neg hP, if_pos hQ, if_neg hMem]
  have hdropeq : ((sortEntriesByTimestamp snap).map fun y => y.Key).length -
      (relinkGo { c with entries := snap } none
        (sortEntriesByTimestamp snap)).maxSize.toNat =
      snap.length - c.maxSize.toNat := by
    rw [hyslen, hcrms]
  refine ⟨?_, ?_, ?_, sortEntries_sorted snap, sortEntries_perm snap⟩
  · rw [s2, hdropeq]
    omega
  · rw [s1.length_eq, List.length_drop, hdropeq, hyslen]
    have hlt : c.maxSize.toNat < snap.length := by omega
    omega
  · rw [hdropeq] at s1
    exact s1

theorem SetWithTTL_update_nobounds {c : Cache} {key : String} {e : Entry}
    (value : GoValue) (ttl : Int) (now : Nat)
    (hget : mget c.entries key = some e)
    (hms0 : c.maxSize = 0) (hmm0 : c.maxMemoryUsage = 0)
    (hsent : ttl ≠ NoExpiration) :
    ((mget (c.SetWithTTL key value ttl now).entries key).map fun x => x.Value) =
      some value ∧
    ((mget (c.SetWithTTL key value ttl now).entries key).map fun x => x.Expiration) =
      some ((now : Int) + ttl) := by
  have heq : c.SetWithTTL key value ttl now =
      Cache.setFinish
        (Cache.moveExistingEntryToHead
          (if c.maxMemoryUsage ≠ NoMaxMemoryUsage then
            { c with
              entries := adjust c.entries key fun x => { x with Value := value }
              memoryUsage := c.memoryUsage - (e.SizeInBytes : Int) +
                (({ e with Value := value } : Entry).SizeInBytes : Int) }
          else
            { c with entries := adjust c.entries key fun x => { x with Value := value } })
          { e with Value := value }) key ttl now := by
    simp only [Cache.SetWithTTL, hget]
    all_goals try dsimp only
    all_goals (split_ifs <;> rfl)
  have hcond : ¬(c.maxMemoryUsage ≠ NoMaxMemoryUsage) := by
    simp [NoMaxMemoryUsage, hmm0]
  rw [heq, if_neg hcond]
  have hmvms : (Cache.moveExistingEntryToHead
      { c with entries := adjust c.entries key fun x => { x with Value := value } }
      { e with Value := value }).maxSize = 0 := by
    rw [(move_frame _ _).1]
    exact hms0
  have hmvmm : (Cache.moveExistingEntryToHead
      { c with entries := adjust c.entries key fun x => { x with Value := value } }
      { e with Value := value }).maxMemoryUsage = 0 := by
    rw [(move_frame _ _).2.1]
    exact hmm0
  rw [setFinish_nobounds key ttl now hmvms hmvmm]
  have hstrip : (Cache.moveExistingEntryToHead
      { c with entries := adjust c.entries key fun x => { x with Value := value } }
      { e with Value := value }).entries.map stripPair =
      (adjust c.entries key fun x => { x with Value := value }).map stripPair :=
    move_strip _ _
  have hmv : (mget (Cache.moveExistingEntryToHead
      { c with entries := adjust c.entries key fun x => { x with Value := value } }
      { e with Value := value }).entries key).map stripLinks =
      some (stripLinks { e with Value := value }) := by
    rw [mget_stripLinks_congr hstrip key, mget_adjust_self, hget]
    rfl
  cases hmg : mget (Cache.moveExistingEntryToHead
      { c with entries := adjust c.entries key fun x => { x with Value := value } }
      { e with Value := value }).entries key with
  | none =>
    rw [hmg] at hmv
    simp at hmv
  | some e2 =>
    rw [hmg] at hmv
    have h3 : stripLinks e2 = stripLinks { e with Value := value } := by
      injection hmv
    have hval : e2.Value = value := congrArg Entry.Value h3
    constructor
    · show ((mget (adjust (Cache.moveExistingEntryToHead
          { c with entries := adjust c.entries key fun x => { x with Value := value } }
          { e with Value := value }).entries key fun x =>
          { x with Expiration := if ttl ≠ NoExpiration then (now : Int) + ttl
            else NoExpiration }) key).map fun x => x.Value) = some value
      rw [mget_adjust_self, hmg]
      show some e2.Value = some value
      rw [hval]
    · show ((mget (adjust (Cache.moveExistingEntryToHead
          { c with entries := adjust c.entries key fun x => { x with Value := value } }
          { e with Value := value }).entries key fun x =>
          { x with Expiration := if ttl ≠ NoExpiration then (now : Int) + ttl
            else NoExpiration }) key).map fun x => x.Expiration) = some ((now : Int) + ttl)
      rw [mget_adjust_self, hmg]
      show some (if ttl ≠ NoExpiration then (now : Int) + ttl else NoExpiration) =
        some ((now : Int) + ttl)
      rw [if_pos hsent]

/-! ### Helpers for concrete instances -/

theorem lastKeyOr_irrel {B : List String} (h : B ≠ []) (x y : Option String) :
    lastKeyOr B x = lastKeyOr B y := by
  cases B with
  | nil => exact absurd rfl h
  | cons b B' => rw [lastKeyOr_cons, lastKeyOr_cons]

instance (c : Cache) (ks : List String) : Decidable (CacheRep c ks) := by
  unfold CacheRep
  infer_instance

instance (snap : EMap) : Decidable (SnapWF snap) := by
  unfold SnapWF
  infer_instance

/-! ### The claims -/

/-- C10: eviction on an empty cache (nil tail sentinel) is safe: the whole
state is unchanged and the evicted-keys counter is not incremented, even
though the spec states evict's precondition as a non-empty tail. -/
theorem C10_evict_empty (c : Cache) (h : c.tail = none) :
    c.evict = c ∧ c.evict.stats.EvictedKeys = c.stats.EvictedKeys := by
  have he := evict_noop h
  exact ⟨he, by rw [he]⟩

theorem C10_evict_empty_witness :
    NewCache.tail = none ∧
    (NewCache.evict = NewCache ∧
      NewCache.evict.stats.EvictedKeys = NewCache.stats.EvictedKeys) :=
  ⟨rfl, C10_evict_empty NewCache rfl⟩

/-- C9: removing an entry that is neither the head nor the tail of the
recency list (some key strictly inside the tail-to-head sequence) leaves
both endpoint pointers exactly where they were, for the deleting operation
as well as for the bare unlink. -/
theorem C9_middle_removal {c : Cache} {A B : List String} {k : String} {e : Entry}
    (hrep : CacheRep c (A ++ k :: B)) (hA : A ≠ []) (hB : B ≠ [])
    (hget : mget c.entries k = some e) :
    (c.delete k).2.head = c.head ∧ (c.delete k).2.tail = c.tail ∧
    (c.removeExistingEntryReferences e).head = c.head ∧
    (c.removeExistingEntryReferences e).tail = c.tail := by
  have hkmem : k ∈ A ++ k :: B := List.mem_append_right A (List.mem_cons_self _ _)
  have hnd : (A ++ k :: B).Nodup := hrep.ks_nodup
  have hkA : k ∉ A := fun hmem =>
    (List.nodup_append.mp hnd).2.2 hmem (List.mem_cons_self _ _)
  have hkB : k ∉ B := (List.nodup_cons.mp (List.nodup_append.mp hnd).2.1).1
  obtain ⟨e', he', heK⟩ := hrep.mget_of_mem hkmem
  rw [hget] at he'
  injection he' with he'
  subst he'
  obtain ⟨-, d2, -, -, -, -, -, -, -, -⟩ := delete_spec hrep hkmem hget
  have herase : (A ++ k :: B).erase k = A ++ B := by
    rw [List.erase_append_right _ hkA, List.erase_cons_head]
  rw [herase] at d2
  -- endpoints before and after, through the lastKeyOr/headKeyOr views
  obtain ⟨b, B', rfl⟩ : ∃ b B', B = b :: B' := by
    cases B with
    | nil => exact absurd rfl hB
    | cons b B' => exact ⟨b, B', rfl⟩
  obtain ⟨a, A', rfl⟩ : ∃ a A', A = a :: A' := by
    cases A with
    | nil => exact absurd rfl hA
    | cons a A' => exact ⟨a, A', rfl⟩
  have hheadeq : ((a :: A') ++ (b :: B')).getLast? = ((a :: A') ++ k :: b :: B').getLast? := by
    rw [getLast?_eq_lastKeyOr, getLast?_eq_lastKeyOr, lastKeyOr_append, lastKeyOr_append,
      lastKeyOr_cons, lastKeyOr_cons, lastKeyOr_cons]
  have htaileq : ((a :: A') ++ (b :: B')).head? = ((a :: A') ++ k :: b :: B').head? := rfl
  have hdh : (c.delete k).2.head = c.head := by
    rw [d2.2.2.2.2.1, hrep.2.2.2.2.1, hheadeq]
  have hdt : (c.delete k).2.tail = c.tail := by
    rw [d2.2.2.2.1, hrep.2.2.2.1, htaileq]
  -- the bare unlink: the entry is not an endpoint
  have hckey : e.Key = k := heK
  have hheadc : c.head ≠ some e.Key := by
    rw [hrep.2.2.2.2.1, hckey, getLast?_eq_lastKeyOr, lastKeyOr_append, lastKeyOr_cons,
      lastKeyOr_cons]
    obtain ⟨x, hx, hxmem⟩ := lastKeyOr_mem B' b
    rw [hx]
    intro hcon
    injection hcon with hcon
    exact hkB (hcon ▸ hxmem)
  have htailc : c.tail ≠ some e.Key := by
    rw [hrep.2.2.2.1, hckey]
    show some a ≠ some k
    intro hcon
    injection hcon with hcon
    exact hkA (hcon ▸ List.mem_cons_self _ _)
  refine ⟨hdh, hdt, ?_, ?_⟩
  · rw [removeRefs_head, if_neg (fun hand => htailc hand.1), if_neg htailc, if_neg hheadc]
  · rw [removeRefs_tail, if_neg (fun hand => htailc hand.1), if_neg htailc]

def c9Witness : Cache :=
  (((NewCache.WithMaxSize 0).Set "a" (GoValue.boolean true) 0).Set "b"
    (GoValue.boolean true) 1).Set "c" (GoValue.boolean true) 2

def c9Entry : Entry :=
  { Key := "b", Value := GoValue.boolean true, RelevantTimestamp := 1,
    Expiration := NoExpiration, previous := some "a", next := some "c" }

theorem C9_middle_removal_witness :
    CacheRep c9Witness (["a"] ++ "b" :: ["c"]) ∧
    ((c9Witness.delete "b").2.head = c9Witness.head ∧
      (c9Witness.delete "b").2.tail = c9Witness.tail ∧
      (c9Witness.removeExistingEntryReferences c9Entry).head = c9Witness.head ∧
      (c9Witness.removeExistingEntryReferences c9Entry).tail = c9Witness.tail) :=
  ⟨by decide, @C9_middle_removal c9Witness ["a"] ["c"] "b" c9Entry (by decide) (by decide)
    (by decide) (by decide)⟩

/-- C7: a `Get` on a present but expired entry counts as a hit (the hits
counter is incremented and the misses counter is untouched), physically
deletes the entry from the map and the list, subtracts its size from the
memory gauge when memory-bounded, and reports absence to the caller. -/
theorem C7_expired_get {c : Cache} {ks : List String} {key : String} {e : Entry}
    (now : Nat) (hrep : CacheRep c ks)
    (hget : mget c.entries key = some e) (hexp : e.Expired now = true) :
    (c.Get key now).1 = none ∧
    (c.Get key now).2.stats.Hits = c.stats.Hits + 1 ∧
    (c.Get key now).2.stats.Misses = c.stats.Misses ∧
    mget (c.Get key now).2.entries key = none ∧
    CacheRep (c.Get key now).2 (ks.erase key) ∧
    (c.maxMemoryUsage ≠ 0 →
      (c.Get key now).2.memoryUsage = c.memoryUsage - (e.SizeInBytes : Int)) := by
  have heq : c.Get key now =
      (if e.Expired now = true then
        (none, (({ c with stats := { c.stats with Hits := c.stats.Hits + 1 } } : Cache).delete
          key).2)
      else if c.evictionPolicy = EvictionPolicy.LeastRecentlyUsed then
        (if c.head = some e.Key then
          (some e.Value, { c with stats := { c.stats with Hits := c.stats.Hits + 1 }, entries := adjust c.entries key fun x => { x with RelevantTimestamp := now } })
        else
          (some e.Value, Cache.moveExistingEntryToHead
            { c with stats := { c.stats with Hits := c.stats.Hits + 1 }, entries := adjust c.entries key fun x => { x with RelevantTimestamp := now } }
            { e with RelevantTimestamp := now }))
      else (some e.Value, { c with stats := { c.stats with Hits := c.stats.Hits + 1 } })) := by
    simp only [Cache.Get, hget]
  rw [heq, if_pos hexp]
  have hrep1 : CacheRep { c with stats := { c.stats with Hits := c.stats.Hits + 1 } } ks :=
    CacheRep_set_stats.mpr hrep
  have hkmem : key ∈ ks := (hrep.1).mem_iff.mpr (mem_keysOf_of_mget hget)
  obtain ⟨d1, d2, d3, d4, d5, d6, d7, d8, d9, d10⟩ := delete_spec hrep1 hkmem hget
  refine ⟨rfl, ?_, ?_, d5, d2, ?_⟩
  · rw [d10]
  · rw [d10]
  · intro hb
    rw [d6, if_neg hb]

def c7Witness : Cache :=
  (NewCache.WithMaxSize 0).SetWithTTL "a" (GoValue.boolean true) 5 0

def c7Entry : Entry :=
  { Key := "a", Value := GoValue.boolean true, RelevantTimestamp := 0,
    Expiration := 5, previous := none, next := none }

theorem C7_expired_get_witness :
    CacheRep c7Witness ["a"] ∧
    ((c7Witness.Get "a" 10).1 = none ∧
      (c7Witness.Get "a" 10).2.stats.Hits = c7Witness.stats.Hits + 1 ∧
      (c7Witness.Get "a" 10).2.stats.Misses = c7Witness.stats.Misses ∧
      mget (c7Witness.Get "a" 10).2.entries "a" = none ∧
      CacheRep (c7Witness.Get "a" 10).2 (["a"].erase "a") ∧
      (c7Witness.maxMemoryUsage ≠ 0 →
        (c7Witness.Get "a" 10).2.memoryUsage =
          c7Witness.memoryUsage - (c7Entry.SizeInBytes : Int))) :=
  ⟨by decide, @C7_expired_get c7Witness ["a"] "a" c7Entry 10 (by decide) (by decide) (by decide)⟩

/-- C8: the TTL query reports the key-does-not-exist error for an absent
key and for a negative remaining time, the no-expiration error for the
sentinel, and otherwise returns the remaining time `expiration - now`,
which is nonnegative but may be zero (it is not always positive: at the
exact deadline the query answers `ok 0`). -/
theorem C8_ttl_cases (c : Cache) (key : String) (now : Nat) :
    (mget c.entries key = none → c.TTL key now = .error .keyDoesNotExist) ∧
    (∀ e, mget c.entries key = some e → e.Expiration = NoExpiration →
      c.TTL key now = .error .keyHasNoExpiration) ∧
    (∀ e, mget c.entries key = some e → e.Expiration ≠ NoExpiration →
      e.Expiration - (now : Int) < 0 → c.TTL key now = .error .keyDoesNotExist) ∧
    (∀ e, mget c.entries key = some e → e.Expiration ≠ NoExpiration →
      0 ≤ e.Expiration - (now : Int) →
      c.TTL key now = .ok (e.Expiration - (now : Int))) := by
  refine ⟨?_, ?_, ?_, ?_⟩
  · intro hnone
    simp only [Cache.TTL, hnone]
  · intro e hget hsent
    simp only [Cache.TTL, hget, if_pos hsent]
  · intro e hget hsent hneg
    simp only [Cache.TTL, hget, if_neg hsent]
    rw [if_pos hneg]
  · intro e hget hsent hnn
    simp only [Cache.TTL, hget, if_neg hsent]
    rw [if_neg (not_lt.mpr hnn)]

def c8Cache : Cache :=
  (NewCache.WithMaxSize 0).SetWithTTL "a" (GoValue.boolean true) 5 0

theorem C8_counterexample_zero_remaining :
    c8Cache.TTL "a" 5 = .ok 0 ∧ ¬((0 : Int) > 0) := by
  constructor
  · rfl
  · decide

theorem C8_ttl_cases_witness :
    mget c8Cache.entries "b" = none ∧ c8Cache.TTL "b" 3 = .error .keyDoesNotExist ∧
    c8Cache.TTL "a" 2 = .ok 3 := by
  refine ⟨by decide, (C8_ttl_cases c8Cache "b" 3).1 (by decide), ?_⟩
  have h4 := (C8_ttl_cases c8Cache "a" 2).2.2.2
    { Key := "a", Value := GoValue.boolean true, RelevantTimestamp := 0, Expiration := 5, previous := none, next := none }
    (by decide) (by decide) (by decide)
  have h5 : ({ Key := "a", Value := GoValue.boolean true, RelevantTimestamp := 0, Expiration := 5, previous := none, next := none } : Entry).Expiration - ((2 : Nat) : Int) = 3 := by
    norm_num
  rw [h5] at h4
  exact h4

/-- C6: a negative TTL other than the sentinel is a silent no-op only when
the key is absent; when the key is present the cache is mutated along the
update path: the stored value is replaced and the expiration is set to
`now + ttl`, a moment already in the past. -/
theorem C6_negative_ttl (c : Cache) (key : String) (value : GoValue) (ttl : Int)
    (now : Nat) (httl : ttl < 0) (hsent : ttl ≠ NoExpiration) :
    (mget c.entries key = none → c.SetWithTTL key value ttl now = c) ∧
    (c.maxSize = 0 → c.maxMemoryUsage = 0 → ∀ e, mget c.entries key = some e →
      ((mget (c.SetWithTTL key value ttl now).entries key).map fun x => x.Value) =
        some value ∧
      ((mget (c.SetWithTTL key value ttl now).entries key).map fun x => x.Expiration) =
        some ((now : Int) + ttl)) := by
  constructor
  · intro hnone
    simp only [Cache.SetWithTTL, hnone]
    rw [if_pos (show ttl ≠ NoExpiration ∧ ttl < 0 from ⟨hsent, httl⟩)]
  · intro hms0 hmm0 e hget
    exact SetWithTTL_update_nobounds value ttl now hget hms0 hmm0 hsent

def c6Cache : Cache :=
  (NewCache.WithMaxSize 0).Set "a" (GoValue.i64 1) 5

theorem C6_counterexample_present_key :
    mget c6Cache.entries "a" ≠ none ∧
    ¬(c6Cache.SetWithTTL "a" (GoValue.i64 2) (-2) 5 = c6Cache) := by
  constructor
  · decide
  · decide

theorem C6_negative_ttl_witness :
    ((-2 : Int) < 0) ∧ ((-2 : Int) ≠ NoExpiration) ∧
    ((mget c6Cache.entries "b" = none →
      c6Cache.SetWithTTL "b" (GoValue.i64 9) (-2) 7 = c6Cache) ∧
    (c6Cache.maxSize = 0 → c6Cache.maxMemoryUsage = 0 →
      ∀ e, mget c6Cache.entries "b" = some e →
      ((mget (c6Cache.SetWithTTL "b" (GoValue.i64 9) (-2) 7).entries "b").map
        fun x => x.Value) = some (GoValue.i64 9) ∧
      ((mget (c6Cache.SetWithTTL "b" (GoValue.i64 9) (-2) 7).entries "b").map
        fun x => x.Expiration) = some ((7 : Int) + (-2)))) :=
  ⟨by decide, by decide,
    C6_negative_ttl c6Cache "b" (GoValue.i64 9) (-2) 7 (by decide) (by decide)⟩

/-- C3: decoding a snapshot into a non-nil Go map merges instead of
overwriting: every binding of the stream lands in the map, but a prior
binding whose key is absent from the stream survives the decode. -/
theorem C3_decode_merges (old snap : EMap) (hnd : (keysOf snap).Nodup) :
    (∀ k e, mget snap k = some e → mget (decodeMerge old snap) k = some e) ∧
    (∀ k, mget snap k = none → mget (decodeMerge old snap) k = mget old k) :=
  ⟨fun _ _ hk => mget_decodeMerge_of_some hnd hk old,
    fun _ hk => mget_decodeMerge_of_none hk old⟩

def c3Old : EMap :=
  [("old", { Key := "old", Value := GoValue.boolean true, RelevantTimestamp := 0, Expiration := NoExpiration, previous := none, next := none })]

def c3Snap : EMap :=
  [("new", { Key := "new", Value := GoValue.boolean true, RelevantTimestamp := 1, Expiration := NoExpiration, previous := none, next := none })]

theorem C3_counterexample_stale_binding :
    mget c3Snap "old" = none ∧ mget (decodeMerge c3Old c3Snap) "old" ≠ none := by
  constructor
  · decide
  · decide

theorem C3_decode_merges_witness :
    (keysOf c3Snap).Nodup ∧
    ((∀ k e, mget c3Snap k = some e → mget (decodeMerge c3Old c3Snap) k = some e) ∧
    (∀ k, mget c3Snap k = none → mget (decodeMerge c3Old c3Snap) k = mget c3Old k)) :=
  ⟨by decide, C3_decode_merges c3Old c3Snap (by decide)⟩

/-- C2: loading a snapshot of `n` entries into an empty cache whose
`max_size` is a positive bound `m < n` and whose memory bound is disabled
evicts exactly `n - m` entries and returns that count; the survivors are
the last `m` entries of the timestamp-sorted order, so the evicted ones are
the oldest. -/
theorem C2_snapshot_eviction {c : Cache} {snap : EMap}
    (he : c.entries = []) (hh : c.head = none) (ht : c.tail = none)
    (hwf : SnapWF snap) (hms : 0 < c.maxSize) (hmm0 : c.maxMemoryUsage = 0)
    (hover : c.maxSize < (snap.length : Int)) :
    (c.ReadFromFile snap).2 = snap.length - c.maxSize.toNat ∧
    (c.ReadFromFile snap).1.entries.length = c.maxSize.toNat ∧
    CacheRep (c.ReadFromFile snap).1
      (((sortEntriesByTimestamp snap).map fun y => y.Key).drop
        (snap.length - c.maxSize.toNat)) ∧
    List.Sorted tsLE (sortEntriesByTimestamp snap) ∧
    (sortEntriesByTimestamp snap).Perm (snap.map (·.2)) :=
  load_evict_spec he hh ht hwf hms hmm0 hover

def c2Cache : Cache := NewCache.WithMaxSize 7

def c2Snap : EMap :=
  [("k0", { Key := "k0", Value := GoValue.boolean true, RelevantTimestamp := 0, Expiration := NoExpiration, previous := none, next := none }),
   ("k1", { Key := "k1", Value := GoValue.boolean true, RelevantTimestamp := 1, Expiration := NoExpiration, previous := none, next := none }),
   ("k2", { Key := "k2", Value := GoValue.boolean true, RelevantTimestamp := 2, Expiration := NoExpiration, previous := none, next := none }),
   ("k3", { Key := "k3", Value := GoValue.boolean true, RelevantTimestamp := 3, Expiration := NoExpiration, previous := none, next := none }),
   ("k4", { Key := "k4", Value := GoValue.boolean true, RelevantTimestamp := 4, Expiration := NoExpiration, previous := none, next := none }),
   ("k5", { Key := "k5", Value := GoValue.boolean true, RelevantTimestamp := 5, Expiration := NoExpiration, previous := none, next := none }),
   ("k6", { Key := "k6", Value := GoValue.boolean true, RelevantTimestamp := 6, Expiration := NoExpiration, previous := none, next := none }),
   ("k7", { Key := "k7", Value := GoValue.boolean true, RelevantTimestamp := 7, Expiration := NoExpiration, previous := none, next := none }),
   ("k8", { Key := "k8", Value := GoValue.boolean true, RelevantTimestamp := 8, Expiration := NoExpiration, previous := none, next := none }),
   ("k9", { Key := "k9", Value := GoValue.boolean true, RelevantTimestamp := 9, Expiration := NoExpiration, previous := none, next := none })]

theorem C2_snapshot_eviction_witness :
    SnapWF c2Snap ∧ 0 < c2Cache.maxSize ∧ c2Cache.maxSize < (c2Snap.length : Int) ∧
    (c2Cache.ReadFromFile c2Snap).2 = c2Snap.length - c2Cache.maxSize.toNat ∧
    (c2Cache.ReadFromFile c2Snap).2 = 3 ∧
    (c2Cache.ReadFromFile c2Snap).1.entries.length = 7 := by
  have happ := @C2_snapshot_eviction c2Cache c2Snap rfl rfl rfl (by decide) (by decide)
    (by decide) (by decide)
  exact ⟨by decide, by decide, by decide, happ.1, by decide, by decide⟩

/-- C1: saving and loading into an empty cache with the same configuration
preserves the key set and the per-key values and reports zero evictions,
but the endpoints are rebuilt from the timestamp order: the reloaded head
and tail equal the original ones exactly when the recency list was already
sorted by relevant timestamp (an update via `set` promotes an entry to head
without refreshing its timestamp, so the orders can disagree). -/
theorem C1_roundtrip {c d : Cache} {ks : List String}
    (hrep : CacheRep c ks)
    (hdts : ((c.entries.map (·.2)).map fun e => e.RelevantTimestamp).Nodup)
    (hde : d.entries = []) (hdh : d.head = none) (hdt : d.tail = none)
    (hdmu : d.memoryUsage = 0)
    (hdms : d.maxSize = c.maxSize) (hdmm : d.maxMemoryUsage = c.maxMemoryUsage)
    (hsize_ok : c.maxSize ≠ 0 → (c.entries.length : Int) ≤ c.maxSize)
    (hmem_ok : c.maxMemoryUsage ≠ 0 → c.memoryUsage = sizeSum c.entries)
    (hmem_le : c.maxMemoryUsage ≠ 0 → c.memoryUsage ≤ c.maxMemoryUsage) :
    keysOf (d.ReadFromFile c.SaveToFile).1.entries = keysOf c.entries ∧
    (∀ k, (mget (d.ReadFromFile c.SaveToFile).1.entries k).map (fun e => e.Value) =
      (mget c.entries k).map fun e => e.Value) ∧
    (d.ReadFromFile c.SaveToFile).2 = 0 ∧
    (List.Sorted tsLE (ks.filterMap fun k => mget c.entries k) →
      (d.ReadFromFile c.SaveToFile).1.head = c.head ∧
      (d.ReadFromFile c.SaveToFile).1.tail = c.tail) :=
  roundtrip_spec hrep hdts hde hdh hdt hdmu hdms hdmm hsize_ok hmem_ok hmem_le

def c1Orig : Cache :=
  ((NewCache.WithMaxSize 0).Set "a" (GoValue.boolean true) 0).Set "b" (GoValue.boolean true) 1

def c1Fresh : Cache := NewCache.WithMaxSize 0

theorem C1_roundtrip_witness :
    CacheRep c1Orig ["a", "b"] ∧
    (keysOf (c1Fresh.ReadFromFile c1Orig.SaveToFile).1.entries = keysOf c1Orig.entries ∧
      (c1Fresh.ReadFromFile c1Orig.SaveToFile).2 = 0 ∧
      (c1Fresh.ReadFromFile c1Orig.SaveToFile).1.head = c1Orig.head ∧
      (c1Fresh.ReadFromFile c1Orig.SaveToFile).1.tail = c1Orig.tail) := by
  have happ := @C1_roundtrip c1Orig c1Fresh ["a", "b"] (by decide) (by decide) rfl rfl rfl
    rfl (by decide) (by decide) (by decide) (by decide) (by decide)
  have hend := happ.2.2.2 (by decide)
  exact ⟨by decide, happ.1, happ.2.2.1, hend.1, hend.2⟩

def c1Updated : Cache := c1Orig.Set "a" (GoValue.boolean false) 2

theorem C1_counterexample_endpoints_move :
    ((c1Updated.entries.map (·.2)).map fun e => e.RelevantTimestamp).Nodup ∧
    c1Fresh.entries = [] ∧ c1Fresh.memoryUsage = 0 ∧
    c1Fresh.maxSize = c1Updated.maxSize ∧
    c1Fresh.maxMemoryUsage = c1Updated.maxMemoryUsage ∧
    c1Fresh.evictionPolicy = c1Updated.evictionPolicy ∧
    ¬((c1Fresh.ReadFromFile c1Updated.SaveToFile).1.head = c1Updated.head ∧
      (c1Fresh.ReadFromFile c1Updated.SaveToFile).1.tail = c1Updated.tail) := by
  refine ⟨by decide, rfl, rfl, by decide, by decide, by decide, by decide⟩

/-- C4: when `max_size` is a nonzero bound and the cache satisfies the state
invariant, every public data operation returns with at most `max_size`
entries (for `ReadFromFile` as the spec intends it, into an empty cache);
the bound is not maintained by the configuration mutator `WithMaxSize`,
which can shrink the cap below the current count without evicting. -/
theorem C4_size_bound {c : Cache} (h : Inv c) (hb : c.maxSize ≠ 0)
    (key : String) (value : GoValue) (ttl : Int) (now : Nat)
    (pairs : List (String × GoValue)) (keys : List String) (snap : EMap) :
    ((c.SetWithTTL key value ttl now).entries.length : Int) ≤ c.maxSize ∧
    ((c.Set key value now).entries.length : Int) ≤ c.maxSize ∧
    ((c.SetAll pairs now).entries.length : Int) ≤ c.maxSize ∧
    (((c.Get key now).2).entries.length : Int) ≤ c.maxSize ∧
    (((c.GetAll keys now).2).entries.length : Int) ≤ c.maxSize ∧
    (((c.Delete key).2).entries.length : Int) ≤ c.maxSize ∧
    (((c.DeleteAll keys).2).entries.length : Int) ≤ c.maxSize ∧
    ((c.Clear.entries.length : Int) ≤ c.maxSize) ∧
    (((c.Expire key ttl now).2).entries.length : Int) ≤ c.maxSize ∧
    (c.entries = [] → c.head = none → c.tail = none → c.memoryUsage = 0 → SnapWF snap →
      (((c.ReadFromFile snap).1).entries.length : Int) ≤ c.maxSize) := by
  refine ⟨?_, ?_, ?_, ?_, ?_, ?_, ?_, ?_, ?_, ?_⟩
  · obtain ⟨hi, hms2, -, -⟩ := SetWithTTL_inv key value ttl now h
    have hx := hi.2.2.2.1 (by rw [hms2]; exact hb)
    rw [hms2] at hx
    exact hx
  · obtain ⟨hi, hms2, -, -⟩ := Set_inv key value now h
    have hx := hi.2.2.2.1 (by rw [hms2]; exact hb)
    rw [hms2] at hx
    exact hx
  · obtain ⟨hi, hms2, -, -⟩ := SetAll_inv pairs now h
    have hx := hi.2.2.2.1 (by rw [hms2]; exact hb)
    rw [hms2] at hx
    exact hx
  · obtain ⟨hi, hms2, -, -⟩ := Get_inv key now h
    have hx := hi.2.2.2.1 (by rw [hms2]; exact hb)
    rw [hms2] at hx
    exact hx
  · obtain ⟨hi, hms2, -, -⟩ := GetAll_inv keys now h
    have hx := hi.2.2.2.1 (by rw [hms2]; exact hb)
    rw [hms2] at hx
    exact hx
  · obtain ⟨hi, hms2, -, -⟩ := Delete_inv key h
    have hx := hi.2.2.2.1 (by rw [hms2]; exact hb)
    rw [hms2] at hx
    exact hx
  · obtain ⟨hi, hms2, -, -⟩ := DeleteAll_inv keys h
    have hx := hi.2.2.2.1 (by rw [hms2]; exact hb)
    rw [hms2] at hx
    exact hx
  · obtain ⟨hi, hms2, -, -⟩ := Clear_inv h
    have hx := hi.2.2.2.1 (by rw [hms2]; exact hb)
    rw [hms2] at hx
    exact hx
  · obtain ⟨hi, hms2, -, -⟩ := Expire_inv key ttl now h
    have hx := hi.2.2.2.1 (by rw [hms2]; exact hb)
    rw [hms2] at hx
    exact hx
  · intro he hh ht hmu hwf
    obtain ⟨hi, hms2, -, -⟩ :=
      ReadFromFile_empty_inv he hh ht hmu h.2.1 h.2.2.1 hwf
    have hx := hi.2.2.2.1 (by rw [hms2]; exact hb)
    rw [hms2] at hx
    exact hx

def c4Cache : Cache :=
  ((NewCache.WithMaxSize 2).Set "a" (GoValue.boolean true) 0).Set "b" (GoValue.boolean true) 1

theorem C4_counterexample_shrink :
    (c4Cache.WithMaxSize 1).maxSize ≠ 0 ∧
    ¬(((c4Cache.WithMaxSize 1).entries.length : Int) ≤ (c4Cache.WithMaxSize 1).maxSize) := by
  constructor
  · decide
  · decide

def c4Inv : Cache := (NewCache.WithMaxSize 3).Set "a" (GoValue.boolean true) 0

theorem C4_size_bound_witness :
    c4Inv.maxSize ≠ 0 ∧
    ((c4Inv.SetWithTTL "b" (GoValue.boolean true) NoExpiration 1).entries.length : Int) ≤
      c4Inv.maxSize :=
  ⟨by decide,
    (C4_size_bound ⟨⟨["a"], by decide⟩, by decide, by decide, by decide, by decide⟩
      (by decide) "b" (GoValue.boolean true) NoExpiration 1 [] [] []).1⟩

/-- C5: when the memory bound is active and the cache satisfies the state
invariant, `memory_usage` equals the sum of the entries' approximate sizes
after every public data operation; `ReadFromFile` keeps the accounting
exact only when loading into an empty cache — on a non-empty one the gauge
is incremented for every relinked entry without being reset first. -/
theorem C5_memory_accounting {c : Cache} (h : Inv c) (hb : c.maxMemoryUsage ≠ 0)
    (key : String) (value : GoValue) (ttl : Int) (now : Nat)
    (pairs : List (String × GoValue)) (keys : List String) (snap : EMap) :
    (c.SetWithTTL key value ttl now).memoryUsage =
      sizeSum (c.SetWithTTL key value ttl now).entries ∧
    (c.Set key value now).memoryUsage = sizeSum (c.Set key value now).entries ∧
    (c.SetAll pairs now).memoryUsage = sizeSum (c.SetAll pairs now).entries ∧
    ((c.Get key now).2).memoryUsage = sizeSum ((c.Get key now).2).entries ∧
    ((c.GetAll keys now).2).memoryUsage = sizeSum ((c.GetAll keys now).2).entries ∧
    ((c.Delete key).2).memoryUsage = sizeSum ((c.Delete key).2).entries ∧
    ((c.DeleteAll keys).2).memoryUsage = sizeSum ((c.DeleteAll keys).2).entries ∧
    (c.Clear.memoryUsage = sizeSum c.Clear.entries) ∧
    ((c.Expire key ttl now).2).memoryUsage = sizeSum ((c.Expire key ttl now).2).entries ∧
    (c.entries = [] → c.head = none → c.tail = none → c.memoryUsage = 0 → SnapWF snap →
      ((c.ReadFromFile snap).1).memoryUsage = sizeSum ((c.ReadFromFile snap).1).entries) := by
  refine ⟨?_, ?_, ?_, ?_, ?_, ?_, ?_, ?_, ?_, ?_⟩
  · obtain ⟨hi, -, hmm2, -⟩ := SetWithTTL_inv key value ttl now h
    exact hi.2.2.2.2 (by rw [hmm2]; exact hb)
  · obtain ⟨hi, -, hmm2, -⟩ := Set_inv key value now h
    exact hi.2.2.2.2 (by rw [hmm2]; exact hb)
  · obtain ⟨hi, -, hmm2, -⟩ := SetAll_inv pairs now h
    exact hi.2.2.2.2 (by rw [hmm2]; exact hb)
  · obtain ⟨hi, -, hmm2, -⟩ := Get_inv key now h
    exact hi.2.2.2.2 (by rw [hmm2]; exact hb)
  · obtain ⟨hi, -, hmm2, -⟩ := GetAll_inv keys now h
    exact hi.2.2.2.2 (by rw [hmm2]; exact hb)
  · obtain ⟨hi, -, hmm2, -⟩ := Delete_inv key h
    exact hi.2.2.2.2 (by rw [hmm2]; exact hb)
  · obtain ⟨hi, -, hmm2, -⟩ := DeleteAll_inv keys h
    exact hi.2.2.2.2 (by rw [hmm2]; exact hb)
  · obtain ⟨hi, -, hmm2, -⟩ := Clear_inv h
    exact hi.2.2.2.2 (by rw [hmm2]; exact hb)
  · obtain ⟨hi, -, hmm2, -⟩ := Expire_inv key ttl now h
    exact hi.2.2.2.2 (by rw [hmm2]; exact hb)
  · intro he hh ht hmu hwf
    obtain ⟨hi, -, hmm2, -⟩ :=
      ReadFromFile_empty_inv he hh ht hmu h.2.1 h.2.2.1 hwf
    exact hi.2.2.2.2 (by rw [hmm2]; exact hb)

def c5Cache : Cache := (NewCache.WithMaxMemoryUsage 10000).Set "a" (GoValue.i64 1) 0

theorem C5_counterexample_load_double_count :
    c5Cache.maxMemoryUsage ≠ 0 ∧
    ¬((c5Cache.ReadFromFile c5Cache.SaveToFile).1.memoryUsage =
      sizeSum (c5Cache.ReadFromFile c5Cache.SaveToFile).1.entries) := by
  constructor
  · decide
  · decide

theorem C5_memory_accounting_witness :
    c5Cache.maxMemoryUsage ≠ 0 ∧
    (c5Cache.SetWithTTL "b" (GoValue.i64 2) NoExpiration 1).memoryUsage =
      sizeSum (c5Cache.SetWithTTL "b" (GoValue.i64 2) NoExpiration 1).entries :=
  ⟨by decide,
    (C5_memory_accounting ⟨⟨["a"], by decide⟩, by decide, by decide, by decide, by decide⟩
      (by decide) "b" (GoValue.i64 2) NoExpiration 1 [] [] []).1⟩
